import Mathlib

/-!
# BadAppleButCppCode: the text compressor of `a.cpp` and the player of `play.cpp`

A shallow embedding of the four stages of `a.cpp` (run-length encoder, pattern
scanner, pattern ranker, dictionary substituter), of the pipeline that `main` runs over
them, and of the frame logic of the player of `play.cpp` (frame slicing and the
position kept by the command loop), followed by the properties proved about them.

Conventions of the embedding.

* A `std::string` is the list of its characters (`Str`); `text.substr(i, n)` is
  `(text.drop i).take n`.
* An `int` has 32 bits. The `int`s that hold a length, a count or a product are reduced
  with `wrapInt32` (two's complement): the `int length` of `compressText` and its
  `++count`, the bound `(int)text.length() - len` of the scanner, the `int savings` of
  the ranker, and `chars_per_frame`, `total_frames` and `start` of the player. The loop
  counters run from `0` or `1` up to such a bound, stay in the range and are natural
  numbers. The number of patterns, which `applyDictionaryCompression` and `main` cast
  to `int` before they compare it with 26 and 50, is taken below `2^31`. The command
  loop of the player adds and subtracts `1` in the integers, which is exact as long as
  `total_frames >= 1` and the position is in `0 .. total_frames - 1`. The parameter
  `minPatternLength` is taken non-negative.
* A `std::map<std::string, int>` is the list of its entries in increasing key order
  (the order in which the map is iterated).
* The replacement loop of `applyDictionaryCompression` carries a fuel argument: `none`
  means that the loop has not finished within the fuel.
* The output of the player, the pauses between frames and the parsing of the command
  lines are left out: a command is given by its kind and by the number that was read.
-/

namespace BadApple

/-- A `std::string`, as the list of its characters. -/
abbrev Str := List Char

/-! ## Machine integers -/

/-- Conversion of an `int` to `size_t` (64 bits). -/
def toSizeT (x : Int) : Int := x % 2 ^ 64

/-- Conversion of an integer to `int` (32 bits, two's complement). -/
def wrapInt32 (x : Int) : Int := (x + 2 ^ 31) % 2 ^ 32 - 2 ^ 31

/-! ## Stage 1: `compressText` -/

/-- The decimal text that `operator<<` prints for a non-negative `int`. -/
def decimal (n : Nat) : Str := Nat.toDigits 10 n

/-- What `compressText` appends for a finished run of `count` copies of `currentChar`:
the escape `@<char><count>` when `count >= 3`, the characters themselves otherwise. -/
def flushRun (currentChar : Char) (count : Nat) : Str :=
  if 3 ≤ count then '@' :: currentChar :: decimal count
  else List.replicate count currentChar

/-- The `for` loop of `compressText`, with its three variables `currentChar`, `count`
and `compressed`; the first argument holds the characters `text[i]` that the loop still
has to read. `count` is an `int`, so `++count` is reduced to 32 bits. At the end the
last run is flushed (the code after the loop); `count` is positive there. -/
def compressLoop : Str → Char → Int → Str → Str
  | [], currentChar, count, compressed => compressed ++ flushRun currentChar count.toNat
  | c :: rest, currentChar, count, compressed =>
    if c = currentChar then compressLoop rest currentChar (wrapInt32 (count + 1)) compressed
    else compressLoop rest c 1 (compressed ++ flushRun currentChar count.toNat)

/-- The function `compressText` of `a.cpp`. `int length = text.length()` is the length
reduced to 32 bits. When it is `0` the empty string is returned; otherwise the loop
starts with `currentChar = text[0]` and `count = 1` and reads `text[i]` for
`1 <= i < length`: the `length - 1` characters after the first one, and no character
when `length` is negative. -/
def compressText (text : Str) : Str :=
  if wrapInt32 text.length = 0 then []
  else
    match text with
    | [] => []
    | c :: rest => compressLoop (rest.take (wrapInt32 text.length - 1).toNat) c 1 []

/-- The characters of the text that `compressText` reads: `text[0 .. length)` for its
`int length`, the first character alone when `length` is negative. -/
def readPart (text : Str) : Str :=
  if wrapInt32 text.length = 0 then [] else text.take (max 1 (wrapInt32 text.length)).toNat

/-! ## The inverse of stage 1 described by the specification -/

/-- Modelled from the spec: `a.cpp` has no decoder; the count of an escape token is
"its decimal ASCII text", read here as a number. -/
def digitsValue (ds : Str) : Nat :=
  ds.foldl (fun n d => 10 * n + (d.toNat - 48)) 0

/-- Modelled from the spec: `a.cpp` has no decoder; this is the worker of `decodeRLE`
below. With `skip = true` the digits of an escape that has just been expanded are still
in front and are dropped. -/
def decodeGo : Bool → Str → Str
  | _, [] => []
  | skip, x :: rest =>
    if skip && x.isDigit then decodeGo true rest
    else if x = '@' then
      match rest with
      | [] => ['@']
      | c :: rest' =>
        if rest'.takeWhile Char.isDigit = [] then '@' :: decodeGo false (c :: rest')
        else
          List.replicate (digitsValue (rest'.takeWhile Char.isDigit)) c ++ decodeGo true rest'
    else x :: decodeGo false rest

/-- Modelled from the spec: `a.cpp` has no decoder; this is the inverse that the
specification describes in its section 6 and property 8.1. Reading left to right, every
`@<char><digits>`, where `<digits>` is the maximal non-empty run of decimal digits
after `<char>`, is expanded into `<digits>` copies of `<char>`; every other character
(an `@` that does not start such a token included) is copied unchanged. -/
def decodeRLE (s : Str) : Str := decodeGo false s

/-! ## Stage 2: `findFrequentPatterns` -/

/-- A `std::map<std::string, int>`: its entries in increasing key order. -/
abbrev PatternMap := List (Str × Int)

/-- The order `operator<` of `std::string`: lexicographic on the character codes, a
proper prefix being smaller. -/
def strLt : Str → Str → Bool
  | [], [] => false
  | [], _ :: _ => true
  | _ :: _, [] => false
  | a :: as, b :: bs =>
    if a.toNat < b.toNat then true
    else if b.toNat < a.toNat then false
    else strLt as bs

/-- The statement `patternCounts[pattern]++`: a missing key is inserted at its place
with the value `0` and then incremented. -/
def mapIncrement : PatternMap → Str → PatternMap
  | [], key => [(key, 1)]
  | (k, v) :: rest, key =>
    if key = k then (k, v + 1) :: rest
    else if strLt key k then (key, 1) :: (k, v) :: rest
    else (k, v) :: mapIncrement rest key

/-- The statement `filteredPatterns[key] = value`. -/
def mapAssign : PatternMap → Str → Int → PatternMap
  | [], key, value => [(key, value)]
  | (k, v) :: rest, key, value =>
    if key = k then (k, value) :: rest
    else if strLt key k then (key, value) :: (k, v) :: rest
    else (k, v) :: mapAssign rest key value

/-- The call `text.substr(i, len)`. -/
def substr (text : Str) (i len : Nat) : Str := (text.drop i).take len

/-- The bound `(int)text.length() - len` of the inner scanner loop: the length is
reduced to 32 bits, and so is the difference of the two `int`s (for `len <= 30` the
difference leaves the range only when the `int` length is below `30 - 2^31`). -/
def scanBound (text : Str) (len : Nat) : Int :=
  wrapInt32 (wrapInt32 text.length - len)

/-- The inner loop `for (i = 0; i <= (int)text.length() - len; ++i)` of the scanner:
it runs for `i = 0 .. scanBound text len`, and not at all when the bound is
negative. -/
def scanLength (text : Str) (len : Nat) (patternCounts : PatternMap) : PatternMap :=
  (List.range (scanBound text len + 1).toNat).foldl
    (fun m i => mapIncrement m (substr text i len)) patternCounts

/-- The outer loop `for (len = minPatternLength; len <= 30; ++len)` of the scanner,
which fills `patternCounts`. -/
def countPatterns (text : Str) (minPatternLength : Nat) : PatternMap :=
  (List.range' minPatternLength (31 - minPatternLength)).foldl
    (fun m len => scanLength text len m) []

/-- The function `findFrequentPatterns` of `a.cpp`: count, then copy the entries whose
count is at least `minFrequency` into a new map. -/
def findFrequentPatterns (text : Str) (minPatternLength : Nat) (minFrequency : Int) :
    PatternMap :=
  (countPatterns text minPatternLength).foldl
    (fun filtered pair =>
      if pair.2 ≥ minFrequency then mapAssign filtered pair.1 pair.2 else filtered) []

/-! ## Stage 3: `sortPatterns` -/

/-- The value `int savings = (a.first.length() * a.second) - (a.first.length() + 2)`
of the comparator: `length()` is a `size_t`, so the product and the difference are
taken in `size_t` and the result is converted to `int`. -/
def savings (a : Str × Int) : Int :=
  wrapInt32 ((((a.1.length : Int) * toSizeT a.2) % 2 ^ 64 - ((a.1.length : Int) + 2)) % 2 ^ 64)

/-- The comparator of `sortPatterns`: `true` when `a` has to come before `b`. -/
def comp (a b : Str × Int) : Bool :=
  if savings a ≠ savings b then decide (savings a > savings b)
  else decide (a.2 > b.2)

/-- The function `sortPatterns` of `a.cpp`: the entries of the map, in key order, are
sorted with the comparator `comp`. `std::sort` leaves the order of entries that the
comparator does not separate unspecified; here they keep their key order. -/
def sortPatterns (patterns : PatternMap) : List (Str × Int) :=
  patterns.insertionSort (fun a b => comp b a = false)

/-! ## Stage 4: `applyDictionaryCompression` -/

/-- Search of `pattern` in the suffix `s` of a string, `k` being the index of the
first character of `s` in that string. -/
def findAt (pattern : Str) : Str → Nat → Option Nat
  | [], k => if pattern = [] then some k else none
  | c :: rest, k =>
    if pattern.isPrefixOf (c :: rest) then some k else findAt pattern rest (k + 1)

/-- The call `s.find(pattern, pos)`: the first index `p >= pos` at which `pattern`
occurs in `s`, `none` standing for `std::string::npos`. -/
def find (s pattern : Str) (pos : Nat) : Option Nat :=
  if pos ≤ s.length then findAt pattern (s.drop pos) pos else none

/-- The call `s.replace(pos, n, t)` for `pos + n <= s.length()`. -/
def replace (s : Str) (pos n : Nat) (t : Str) : Str :=
  s.take pos ++ t ++ s.drop (pos + n)

/-- The loop `while ((pos = compressed.find(pattern, pos)) != npos)` with its body.
`none` is returned when the fuel runs out before the loop ends. -/
def replaceLoop : Nat → Str → Str → Str → Nat → Option Str
  | 0, _, _, _, _ => none
  | fuel + 1, pattern, marker, compressed, pos =>
    match find compressed pattern pos with
    | none => some compressed
    | some p =>
      replaceLoop fuel pattern marker (replace compressed p pattern.length marker)
        (p + marker.length)

/-- The character `'a' + i`. -/
def code (i : Nat) : Char := Char.ofNat (97 + i)

/-- The loop `for (i = 0; i < patterns.size() && i < 26; ++i)`; `patterns` holds the
patterns from index `i` on. -/
def dictionaryLoop (fuel : Nat) : List Str → Nat → Str → Str → Option (Str × Str)
  | [], _, compressed, dictionary => some (compressed, dictionary)
  | pattern :: rest, i, compressed, dictionary =>
    if i < 26 then
      match replaceLoop fuel pattern ['&', code i] compressed 0 with
      | none => none
      | some compressed' =>
        dictionaryLoop fuel rest (i + 1) compressed'
          (dictionary ++ [code i] ++ pattern ++ [';'])
    else some (compressed, dictionary)

/-- The function `applyDictionaryCompression` of `a.cpp`. The result is the pair of the
returned string and of the output parameter `dictionary`. -/
def applyDictionaryCompression (fuel : Nat) (rleCompressed : Str) (patterns : List Str) :
    Option (Str × Str) :=
  dictionaryLoop fuel patterns 0 rleCompressed []

/-! ## The pipeline of `main` -/

/-- The steps of `main` after `sortPatterns`: keep the first 50 patterns and substitute. -/
def substituteTop (fuel : Nat) (rleCompressed : Str) (sortedPatterns : List (Str × Int)) :
    Option (Str × Str) :=
  applyDictionaryCompression fuel rleCompressed ((sortedPatterns.take 50).map Prod.fst)

/-- The computation of `main` on the third line `content` of the input file; the
result is the pair `(finalCompressed, dictionary)`. -/
def main (fuel : Nat) (content : Str) : Option (Str × Str) :=
  substituteTop fuel (compressText content)
    (sortPatterns (findFrequentPatterns (compressText content) 3 0))

/-- The content of the scenario of property 8.6 of the specification. -/
def scenarioContent : Str :=
  "aaaaaaaaaabbbbbbbbbbccccccccccaaaaaaaaaabbbbbbbbbbcccccccccc".toList

/-- The run-length encoding of the scenario. -/
def scenarioRle : Str := "@a10@b10@c10@a10@b10@c10".toList

/-- The scenario after the substitution of its first-ranked pattern `10@`. -/
def scenarioCompressed : Str := "@a&ab&ac&aa&ab&ac10".toList

/-- The entry of the scenario that the comparator ranks first: `10@` occurs 5 times,
its score is `3 * 5 - 5 = 10`. -/
def scenarioFirst : Str × Int := ("10@".toList, 5)

/-- The entry of the scenario that the comparator ranks second: `@a10@b10@c10` occurs
twice, its score is `12 * 2 - 14 = 10`. -/
def scenarioSecond : Str × Int := ("@a10@b10@c10".toList, 2)

/-! ## The inverse of stage 4 described by the specification -/

/-- Modelled from the spec: `a.cpp` has no decoder; the dictionary string is cut at
every `;`, which "terminates each entry". `entry` is the entry being read. -/
def splitEntries : Str → Str → List Str
  | [], _ => []
  | c :: rest, entry =>
    if c = ';' then entry :: splitEntries rest [] else splitEntries rest (entry ++ [c])

/-- Modelled from the spec: `a.cpp` has no decoder; the dictionary grammar of section 6
is a sequence of entries `<letter><pattern-text>;`, read here as the table from
letters to patterns. -/
def parseDictionary (dictionary : Str) : List (Char × Str) :=
  (splitEntries dictionary []).filterMap fun entry =>
    match entry with
    | [] => none
    | letter :: pattern => some (letter, pattern)

/-- Modelled from the spec: `a.cpp` has no decoder; step (1) of the decoder of section 6
replaces, reading left to right, each `&<letter>` whose letter is in the table by the
pattern of that letter and copies every other character. -/
def expandMarkers (table : List (Char × Str)) : Str → Str
  | [] => []
  | x :: rest =>
    if x = '&' then
      match rest with
      | [] => ['&']
      | letter :: rest' =>
        match table.lookup letter with
        | some pattern => pattern ++ expandMarkers table rest'
        | none => '&' :: expandMarkers table (letter :: rest')
    else x :: expandMarkers table rest

/-! ## Notions used by the specification -/

/-- Put a run of `n` copies of `c` in front of a list of runs, merging it with the
first run when that one has the same character. -/
def pushRun (c : Char) (n : Nat) : List (Char × Nat) → List (Char × Nat)
  | [] => [(c, n)]
  | (d, m) :: rs => if c = d then (d, m + n) :: rs else (c, n) :: (d, m) :: rs

/-- The maximal runs of identical consecutive characters of a string, in order, each
as the pair of its character and its length. -/
def runs : Str → List (Char × Nat)
  | [] => []
  | c :: rest => pushRun c 1 (runs rest)

/-- The string that a list of runs stands for. -/
def expandRuns (rs : List (Char × Nat)) : Str :=
  rs.flatMap fun r => List.replicate r.2 r.1

/-- The encoding of one run that section 4.1 of the specification prescribes. -/
def encodeRun (r : Char × Nat) : Str :=
  if r.2 < 3 then List.replicate r.2 r.1 else ['@', r.1] ++ decimal r.2

/-- The segments of the runs, concatenated in order. -/
def encodeRuns (rs : List (Char × Nat)) : Str := rs.flatMap encodeRun

/-- The number of start positions `i` at which `p` occurs in `t`; occurrences that
overlap are all counted. -/
def occurrences (p t : Str) : Nat :=
  (List.range (t.length + 1)).countP fun i => p.isPrefixOf (t.drop i)

/-- The value that a map holds for a key, `0` for a key that is absent. -/
def valueOf : PatternMap → Str → Int
  | [], _ => 0
  | (k, v) :: rest, key => if key = k then v else valueOf rest key

/-- The keys of a map are in strictly increasing order. -/
def KeysSorted (m : PatternMap) : Prop :=
  m.Pairwise fun a b => strLt a.1 b.1 = true

/-- The savings score of section 4.3 of the specification,
`length(pattern) * occurrences - (length(pattern) + 2)`, as an integer. -/
def savingsSpec (a : Str × Int) : Int :=
  (a.1.length : Int) * a.2 - ((a.1.length : Int) + 2)

/-- The dictionary layout of the specification: for `i = 0 .. min(n, 26) - 1` in order,
the letter `'a' + i`, then the pattern `ps[i]`, then `;`. -/
def dictionaryLayout (ps : List Str) : Str :=
  (ps.take 26).enum.flatMap fun e => code e.1 :: (e.2 ++ [';'])

/-- Every `&` of the string is followed by a letter of the table: the string is a
sequence of ordinary characters and of markers `&<letter>`. -/
def wellMarked (table : List (Char × Str)) : Str → Bool
  | [] => true
  | x :: rest =>
    if x = '&' then
      match rest with
      | [] => false
      | letter :: rest' => (table.lookup letter).isSome && wellMarked table rest'
    else wellMarked table rest

/-- What the pattern at index `e.1` of the pattern list has to satisfy for the
substitution to be undone by the table: it is not empty, contains no `&`, does not
begin with a letter of the table, and the table maps its letter to it. -/
def Resolvable (table : List (Char × Str)) (e : Nat × Str) : Prop :=
  e.2 ≠ [] ∧ '&' ∉ e.2 ∧ (∀ x, e.2.head? = some x → table.lookup x = none) ∧
    table.lookup (code e.1) = some e.2

/-- The substrings that the inner scanner loop takes for the length `len`, in the
order of the loop. -/
def windows (text : Str) (len : Nat) : List Str :=
  (List.range (scanBound text len + 1).toNat).map fun i => substr text i len

/-- All substrings that the two scanner loops take, in the order of the loops. -/
def scanned (text : Str) (minPatternLength : Nat) : List Str :=
  (List.range' minPatternLength (31 - minPatternLength)).flatMap (windows text)

/-! ## The substitution pass described by the specification -/

/-- The worker of `replaceAll`. `skip` is the number of characters of the occurrence
just replaced that are still in front; they are passed over without being scanned. -/
def replaceAllGo (pattern marker : Str) : Nat → Str → Str
  | _, [] => []
  | skip + 1, _ :: rest => replaceAllGo pattern marker skip rest
  | 0, c :: rest =>
    if pattern.isPrefixOf (c :: rest) then
      marker ++ replaceAllGo pattern marker (pattern.length - 1) rest
    else c :: replaceAllGo pattern marker 0 rest

/-- One pass as section 4.4 of the specification words it: scanning the string as it
stood before the pass from left to right, every occurrence of the (non-empty) pattern
that does not overlap an occurrence already replaced becomes the marker; the search
goes on behind the occurrence, so that the marker written is not scanned. -/
def replaceAll (pattern marker s : Str) : Str := replaceAllGo pattern marker 0 s

/-- The passes for the first 26 patterns, in order, the pattern at index `i` being
replaced by `&` and the letter `'a' + i`. -/
def substituteAll (t : Str) (ps : List Str) : Str :=
  (ps.take 26).enum.foldl (fun s e => replaceAll e.2 ['&', code e.1] s) t

/-! ## The compressed text as a sequence of characters and markers -/

/-- An element of the compressed text: a character of the text, or the marker that a
replacement wrote for the pattern of index `i`. -/
inductive Token where
  | lit (c : Char)
  | mark (i : Nat)
  deriving DecidableEq

/-- The string that a sequence of tokens stands for. -/
def render : List Token → Str
  | [] => []
  | Token.lit c :: ts => c :: render ts
  | Token.mark i :: ts => '&' :: code i :: render ts

/-- The tokens begin with the characters of `p`, none of them being a marker. -/
def litPrefix : Str → List Token → Bool
  | [], _ => true
  | _ :: _, [] => false
  | _ :: _, Token.mark _ :: _ => false
  | c :: p, Token.lit d :: ts => decide (c = d) && litPrefix p ts

/-- The worker of `tokenPass`, with the same `skip` as `replaceAllGo`. -/
def tokenPassGo (pattern : Str) (i : Nat) : Nat → List Token → List Token
  | _, [] => []
  | skip + 1, _ :: ts => tokenPassGo pattern i skip ts
  | 0, tk :: ts =>
    if litPrefix pattern (tk :: ts) then
      Token.mark i :: tokenPassGo pattern i (pattern.length - 1) ts
    else tk :: tokenPassGo pattern i 0 ts

/-- One pass on tokens: from left to right, every occurrence of the pattern among
characters that does not overlap an occurrence already replaced becomes the marker of
index `i`. A marker is never compared with the pattern: it is copied. -/
def tokenPass (pattern : Str) (i : Nat) (ts : List Token) : List Token :=
  tokenPassGo pattern i 0 ts

/-- The passes for the first 26 patterns on tokens, starting from the characters of the
text. -/
def tokenSubstitute (t : Str) (ps : List Str) : List Token :=
  (ps.take 26).enum.foldl (fun ts e => tokenPass e.2 e.1 ts) (t.map Token.lit)

/-- The markers of a sequence of tokens, in order. -/
def marks (ts : List Token) : List Nat :=
  ts.filterMap fun tk =>
    match tk with
    | Token.lit _ => none
    | Token.mark i => some i

/-- The text that a sequence of tokens stands for when the marker of index `i` stands
for the pattern `ps[i]`. -/
def tokenText (ps : List Str) : List Token → Str
  | [] => []
  | Token.lit c :: ts => c :: tokenText ps ts
  | Token.mark i :: ts => (ps[i]?).getD [] ++ tokenText ps ts

/-! ## The player of `play.cpp` -/

/-- The data members of `ASCIITextPlayer` that the frame logic uses. -/
structure ASCIITextPlayer where
  width : Int
  height : Int
  total_frames : Int
  all_frames_data : Str
  current_frame : Int

/-- The value `int chars_per_frame = width * height`: the product of two `int`s,
reduced to 32 bits. -/
def ASCIITextPlayer.chars_per_frame (player : ASCIITextPlayer) : Int :=
  wrapInt32 (player.width * player.height)

/-- The part of the constructor and of `load_file` after the file has been read and the
first two lines parsed. `int chars_per_frame = width * height` is reduced to 32 bits;
`total_frames = all_frames_data.length() / chars_per_frame` is a division in `size_t`,
to which the divisor is converted, and its quotient is stored in an `int`. `none`
stands for the division by zero. `current_frame` starts at `0`. -/
def load_file (width height : Int) (data : Str) : Option ASCIITextPlayer :=
  if toSizeT (wrapInt32 (width * height)) = 0 then none
  else some
    { width := width
      height := height
      total_frames := wrapInt32 ((data.length : Int) / toSizeT (wrapInt32 (width * height)))
      all_frames_data := data
      current_frame := 0 }

/-- The call `s.substr(pos, n)` with its check: `none` stands for the exception
`std::out_of_range`, thrown when `pos > s.length()`. -/
def substrAt (s : Str) (pos n : Nat) : Option Str :=
  if pos ≤ s.length then some ((s.drop pos).take n) else none

/-- The method `get_frame` of `play.cpp`. `int start = frame_index * chars_per_frame`
is reduced to 32 bits; `start` and `chars_per_frame` are passed to `substr` as
`size_t`. -/
def ASCIITextPlayer.get_frame (player : ASCIITextPlayer) (frame_index : Int) : Option Str :=
  if frame_index < 0 ∨ frame_index ≥ player.total_frames then some []
  else
    substrAt player.all_frames_data
      (toSizeT (wrapInt32 (frame_index * player.chars_per_frame))).toNat
      (toSizeT player.chars_per_frame).toNat

theorem toDigitsCore_eq_decimal_append (n : Nat) :
    ∀ fuel ds, n < fuel → Nat.toDigitsCore 10 fuel n ds = decimal n ++ ds := by
  induction n using Nat.strong_induction_on with
  | _ n ih =>
    intro fuel ds hfuel
    obtain ⟨f, rfl⟩ : ∃ f, fuel = f + 1 := ⟨fuel - 1, by omega⟩
    unfold decimal Nat.toDigits
    by_cases h0 : n / 10 = 0
    · simp [Nat.toDigitsCore, h0]
    · have hlt : n / 10 < n := by omega
      have h1 := ih (n / 10) hlt f (Nat.digitChar (n % 10) :: ds) (by omega)
      have h2 := ih (n / 10) hlt n [Nat.digitChar (n % 10)] hlt
      simp only [Nat.toDigitsCore, h0, if_false]
      rw [h1, h2, List.append_assoc]
      rfl

theorem decimal_of_lt_ten {n : Nat} (h : n < 10) : decimal n = [Nat.digitChar n] := by
  have h0 : n / 10 = 0 := by omega
  have h1 : n % 10 = n := by omega
  simp [decimal, Nat.toDigits, Nat.toDigitsCore, h0, h1]

theorem decimal_of_ten_le {n : Nat} (h : 10 ≤ n) :
    decimal n = decimal (n / 10) ++ [Nat.digitChar (n % 10)] := by
  have h0 : n / 10 ≠ 0 := by omega
  have hlt : n / 10 < n := by omega
  conv_lhs => unfold decimal Nat.toDigits
  simp only [Nat.toDigitsCore, h0, if_false]
  exact toDigitsCore_eq_decimal_append (n / 10) n _ hlt

theorem digitChar_isDigit : ∀ d, d < 10 → (Nat.digitChar d).isDigit = true := by decide

theorem digitChar_value : ∀ d, d < 10 → (Nat.digitChar d).toNat - 48 = d := by decide

theorem digitChar_ne_zero : ∀ d, d < 10 → 0 < d → Nat.digitChar d ≠ '0' := by decide

theorem decimal_all_digits (n : Nat) : ∀ c ∈ decimal n, c.isDigit = true := by
  induction n using Nat.strong_induction_on with
  | _ n ih =>
    by_cases h : n < 10
    · rw [decimal_of_lt_ten h]
      simpa using digitChar_isDigit n h
    · rw [decimal_of_ten_le (by omega)]
      intro c hc
      rcases List.mem_append.1 hc with hc | hc
      · exact ih (n / 10) (by omega) c hc
      · rw [List.mem_singleton.1 hc]
        exact digitChar_isDigit _ (Nat.mod_lt _ (by decide))

theorem decimal_ne_nil (n : Nat) : decimal n ≠ [] := by
  by_cases h : n < 10
  · rw [decimal_of_lt_ten h]; simp
  · rw [decimal_of_ten_le (by omega)]; simp

theorem digitsValue_append_singleton (ds : Str) (c : Char) :
    digitsValue (ds ++ [c]) = 10 * digitsValue ds + (c.toNat - 48) := by
  simp [digitsValue, List.foldl_append]

theorem digitsValue_decimal (n : Nat) : digitsValue (decimal n) = n := by
  induction n using Nat.strong_induction_on with
  | _ n ih =>
    by_cases h : n < 10
    · rw [decimal_of_lt_ten h]
      simpa [digitsValue] using digitChar_value n h
    · rw [decimal_of_ten_le (by omega), digitsValue_append_singleton, ih (n / 10) (by omega),
        digitChar_value _ (Nat.mod_lt _ (by decide))]
      omega

theorem decimal_head_ne_zero (n : Nat) (hn : 0 < n) : (decimal n).head? ≠ some '0' := by
  induction n using Nat.strong_induction_on with
  | _ n ih =>
    by_cases h : n < 10
    · rw [decimal_of_lt_ten h]
      simpa using digitChar_ne_zero n h hn
    · rw [decimal_of_ten_le (by omega)]
      have := ih (n / 10) (by omega) (by omega)
      cases hd : decimal (n / 10) with
      | nil => exact absurd hd (decimal_ne_nil _)
      | cons a as => rw [hd] at this; simpa using this

theorem decimal_length_le (n : Nat) (hn : 3 ≤ n) : (decimal n).length + 2 ≤ n := by
  induction n using Nat.strong_induction_on with
  | _ n ih =>
    by_cases h : n < 10
    · rw [decimal_of_lt_ten h]; simp; omega
    · rw [decimal_of_ten_le (by omega)]
      by_cases h3 : 3 ≤ n / 10
      · have := ih (n / 10) (by omega) h3
        simp; omega
      · have h4 : n / 10 < 10 := by omega
        rw [decimal_of_lt_ten h4]; simp; omega

/-! ## Conversions to `int` -/

theorem wrapInt32_of_lt {x : Int} (h0 : -2 ^ 31 ≤ x) (h1 : x < 2 ^ 31) : wrapInt32 x = x := by
  unfold wrapInt32
  omega

theorem wrapInt32_lt (x : Int) : wrapInt32 x < 2 ^ 31 := by
  unfold wrapInt32
  omega

theorem wrapInt32_length_of_lt {s : Str} (h : s.length < 2 ^ 31) :
    wrapInt32 s.length = s.length := by
  apply wrapInt32_of_lt <;> omega

/-! ## Stage 1: the encoder and the runs of its input -/

theorem flushRun_eq_encodeRun (c : Char) (n : Nat) : flushRun c n = encodeRun (c, n) := by
  unfold flushRun encodeRun
  by_cases h : 3 ≤ n
  · simp [h, Nat.not_lt.2 h]
  · simp [h, Nat.lt_of_not_le h]

theorem compressLoop_append (rest : Str) :
    ∀ c n out, compressLoop rest c n out = out ++ compressLoop rest c n [] := by
  induction rest with
  | nil => intro c n out; simp [compressLoop]
  | cons x rest ih =>
    intro c n out
    by_cases h : x = c
    · simp only [compressLoop, h, if_true]
      exact ih c (wrapInt32 (n + 1)) out
    · simp only [compressLoop, h, if_false]
      rw [ih x 1 (out ++ flushRun c n.toNat), ih x 1 ([] ++ flushRun c n.toNat)]
      simp

theorem pushRun_pushRun (c : Char) (n : Nat) (rs : List (Char × Nat)) :
    pushRun c n (pushRun c 1 rs) = pushRun c (n + 1) rs := by
  cases rs with
  | nil => simp [pushRun, Nat.add_comm]
  | cons r rs =>
    obtain ⟨d, m⟩ := r
    by_cases h : c = d
    · subst h; simp [pushRun]; omega
    · simp [pushRun, h, Nat.add_comm]

theorem pushRun_of_ne (c x : Char) (n k : Nat) (rs : List (Char × Nat)) (h : x ≠ c) :
    pushRun c n (pushRun x k rs) = (c, n) :: pushRun x k rs := by
  cases rs with
  | nil => simp [pushRun, Ne.symm h]
  | cons r rs =>
    obtain ⟨d, m⟩ := r
    by_cases hx : x = d
    · subst hx; simp [pushRun, Ne.symm h]
    · simp [pushRun, hx, Ne.symm h]

/-- As long as the run count and the characters still to read stay below `2^31`, the
counter of the loop does not wrap, and the loop appends the encodings of the runs. -/
theorem compressLoop_eq_encodeRuns (rest : Str) :
    ∀ (c : Char) (n : Nat), n + rest.length < 2 ^ 31 →
      compressLoop rest c (n : Int) [] = encodeRuns (pushRun c n (runs rest)) := by
  induction rest with
  | nil =>
    intro c n _
    simp [compressLoop, runs, pushRun, encodeRuns, flushRun_eq_encodeRun]
  | cons x rest ih =>
    intro c n hn
    simp only [List.length_cons] at hn
    have hone : ((1 : Nat) : Int) = 1 := rfl
    by_cases h : x = c
    · subst h
      have hw : wrapInt32 ((n : Int) + 1) = ((n + 1 : Nat) : Int) := by
        rw [wrapInt32_of_lt] <;> push_cast <;> omega
      simp only [compressLoop, if_true, runs]
      rw [hw, ih x (n + 1) (by omega), pushRun_pushRun]
    · simp only [compressLoop, h, if_false, runs]
      rw [compressLoop_append, ← hone, ih x 1 (by omega), pushRun_of_ne c x n 1 _ h]
      simp [encodeRuns, flushRun_eq_encodeRun]

theorem compressLoop_one (c : Char) (l : Str) (hlen : l.length < 2 ^ 31 - 1) :
    compressLoop l c 1 [] = encodeRuns (runs (c :: l)) := by
  have h := compressLoop_eq_encodeRuns l c 1 (by omega)
  rw [Nat.cast_one] at h
  rw [h, runs]

theorem readPart_cons (c : Char) (rest : Str) (h : wrapInt32 (c :: rest).length ≠ 0) :
    readPart (c :: rest) = c :: rest.take (wrapInt32 (c :: rest).length - 1).toNat := by
  have hk : (max 1 (wrapInt32 (c :: rest).length)).toNat =
      (wrapInt32 (c :: rest).length - 1).toNat + 1 := by omega
  rw [readPart, if_neg h, hk, List.take_succ_cons]

/-- The output of `compressText` is the encoding of the runs of the part of the text
that it reads. -/
theorem compressText_eq_encodeRuns_readPart (s : Str) :
    compressText s = encodeRuns (runs (readPart s)) := by
  by_cases h0 : wrapInt32 s.length = 0
  · unfold compressText readPart
    rw [if_pos h0, if_pos h0]
    rfl
  · cases s with
    | nil =>
      refine absurd ?_ h0
      show wrapInt32 ((0 : Nat) : Int) = 0
      unfold wrapInt32
      omega
    | cons c rest =>
      have hc : compressText (c :: rest) =
          compressLoop (rest.take (wrapInt32 (c :: rest).length - 1).toNat) c 1 [] := by
        unfold compressText
        rw [if_neg h0]
      have hlen : (rest.take (wrapInt32 (c :: rest).length - 1).toNat).length <
          2 ^ 31 - 1 := by
        have h1 := wrapInt32_lt ((c :: rest).length : Int)
        have h2 := List.length_take_le (wrapInt32 (c :: rest).length - 1).toNat rest
        omega
      rw [readPart_cons c rest h0, hc]
      exact compressLoop_one c _ hlen

theorem readPart_length_le (s : Str) : (readPart s).length ≤ s.length := by
  unfold readPart
  split
  · simp
  · exact List.length_take_le' _ _

/-- A text shorter than `2^31` characters is read entirely. -/
theorem readPart_of_lt {s : Str} (h : s.length < 2 ^ 31) : readPart s = s := by
  unfold readPart
  rw [wrapInt32_length_of_lt h]
  split
  · rename_i h0
    exact (List.length_eq_zero.1 (by exact_mod_cast h0)).symm
  · apply List.take_of_length_le
    omega

/-- When the `int` length is negative, only the first character is read. -/
theorem readPart_of_neg (s : Str) (c : Char) (hc : s.head? = some c)
    (h : wrapInt32 s.length < 0) : readPart s = [c] := by
  cases s with
  | nil => simp at hc
  | cons x rest =>
    simp only [List.head?_cons, Option.some.injEq] at hc
    subst hc
    have hk : (max 1 (wrapInt32 (x :: rest).length)).toNat = 1 := by omega
    rw [readPart, if_neg (by omega), hk]
    rfl

theorem wrapInt32_two_pow : wrapInt32 ((2 ^ 31 : Nat) : Int) = -2 ^ 31 := by
  unfold wrapInt32
  norm_num

theorem head_replicate_two_pow (c : Char) : (List.replicate (2 ^ 31) c).head? = some c := by
  rw [List.head?_replicate]
  norm_num

/-- A text of `2^31` characters has the `int` length `-2^31`: only its first character
is read. -/
theorem readPart_replicate (c : Char) : readPart (List.replicate (2 ^ 31) c) = [c] := by
  apply readPart_of_neg _ c (head_replicate_two_pow c)
  rw [List.length_replicate, wrapInt32_two_pow]
  norm_num

theorem compressText_eq_encodeRuns_runs (s : Str) (h : s.length < 2 ^ 31) :
    compressText s = encodeRuns (runs s) := by
  rw [compressText_eq_encodeRuns_readPart, readPart_of_lt h]

theorem expandRuns_pushRun (c : Char) (n : Nat) (rs : List (Char × Nat)) :
    expandRuns (pushRun c n rs) = List.replicate n c ++ expandRuns rs := by
  cases rs with
  | nil => simp [pushRun, expandRuns]
  | cons r rs =>
    obtain ⟨d, m⟩ := r
    by_cases h : c = d
    · subst h
      simp only [pushRun, if_true, expandRuns, List.flatMap_cons]
      rw [Nat.add_comm, List.replicate_add, List.append_assoc]
    · simp [pushRun, h, expandRuns]

theorem expandRuns_runs (s : Str) : expandRuns (runs s) = s := by
  induction s with
  | nil => rfl
  | cons c rest ih => simp [runs, expandRuns_pushRun, ih]

theorem mem_pushRun {c : Char} {n : Nat} {rs : List (Char × Nat)} {r : Char × Nat}
    (h : r ∈ pushRun c n rs) :
    r.1 = c ∧ n ≤ r.2 ∨ r ∈ rs := by
  cases rs with
  | nil => simp [pushRun] at h; subst h; simp
  | cons q rs =>
    obtain ⟨d, m⟩ := q
    by_cases hc : c = d
    · subst hc
      simp only [pushRun, if_true, List.mem_cons] at h
      rcases h with h | h
      · subst h; left; simp
      · right; simp [h]
    · simp only [pushRun, hc, if_false, List.mem_cons] at h
      rcases h with h | h | h
      · subst h; left; simp
      · right; simp [h]
      · right; simp [h]

theorem runs_pos (s : Str) : ∀ r ∈ runs s, 1 ≤ r.2 := by
  induction s with
  | nil => simp [runs]
  | cons c rest ih =>
    intro r hr
    rcases mem_pushRun hr with h | h
    · exact h.2
    · exact ih r h

theorem runs_char_mem (s : Str) : ∀ r ∈ runs s, r.1 ∈ s := by
  induction s with
  | nil => simp [runs]
  | cons c rest ih =>
    intro r hr
    rcases mem_pushRun hr with h | h
    · simp [h.1]
    · exact List.mem_cons_of_mem _ (ih r h)

theorem chain_pushRun (c : Char) (n : Nat) (rs : List (Char × Nat))
    (h : rs.Chain' fun a b => a.1 ≠ b.1) :
    (pushRun c n rs).Chain' fun a b => a.1 ≠ b.1 := by
  cases rs with
  | nil => simp [pushRun]
  | cons r rs =>
    obtain ⟨d, m⟩ := r
    by_cases hc : c = d
    · subst hc
      simp only [pushRun, if_true]
      cases rs with
      | nil => simp
      | cons q rs => simpa [List.chain'_cons] using h
    · simp only [pushRun, hc, if_false]
      exact List.Chain'.cons hc h

theorem runs_chain (s : Str) : (runs s).Chain' fun a b => a.1 ≠ b.1 := by
  induction s with
  | nil => simp [runs]
  | cons c rest ih => exact chain_pushRun c 1 _ ih

/-! ## The decoder on the output of the encoder -/

theorem decodeGo_cons_of_ne_at (x : Char) (rest : Str) (hx : x ≠ '@') :
    decodeGo false (x :: rest) = x :: decodeGo false rest := by
  cases rest <;> simp [decodeGo, hx]

theorem decodeGo_true_cons_digit (d : Char) (rest : Str) (hd : d.isDigit = true) :
    decodeGo true (d :: rest) = decodeGo true rest := by
  cases rest <;> simp [decodeGo, hd]

theorem decodeGo_true_cons_of_not_digit (y : Char) (rest : Str) (hy : y.isDigit = false) :
    decodeGo true (y :: rest) = decodeGo false (y :: rest) := by
  cases rest <;> simp [decodeGo, hy]

theorem takeWhile_isDigit_eq_nil (s : Str) (h : ∀ c ∈ s.take 1, c.isDigit = false) :
    s.takeWhile Char.isDigit = [] := by
  cases s with
  | nil => rfl
  | cons y s => simp [List.takeWhile, h y (by simp)]

theorem decodeGo_literal_at (s : Str) (h : ∀ c ∈ s.take 2, c.isDigit = false) :
    decodeGo false ('@' :: s) = '@' :: decodeGo false s := by
  cases s with
  | nil => simp [decodeGo]
  | cons y s =>
    have hs : s.takeWhile Char.isDigit = [] := by
      apply takeWhile_isDigit_eq_nil
      intro c hc
      apply h c
      cases s with
      | nil => simp at hc
      | cons z s => simp at hc; simp [hc]
    simp [decodeGo, hs]

theorem decodeGo_skip (ds s : Str) (hds : ∀ c ∈ ds, c.isDigit = true)
    (hs : ∀ c ∈ s.take 1, c.isDigit = false) :
    decodeGo true (ds ++ s) = decodeGo false s := by
  induction ds with
  | nil =>
    cases s with
    | nil => simp [decodeGo]
    | cons y s =>
      exact decodeGo_true_cons_of_not_digit y s (hs y (by simp))
  | cons d ds ih =>
    have hd : d.isDigit = true := hds d (by simp)
    have := ih (fun c hc => hds c (by simp [hc]))
    simpa [decodeGo_true_cons_digit d _ hd] using this

theorem decodeGo_escape (c : Char) (n : Nat) (s : Str)
    (hs : ∀ c ∈ s.take 1, c.isDigit = false) :
    decodeGo false ('@' :: c :: (decimal n ++ s)) = List.replicate n c ++ decodeGo false s := by
  have htw : (decimal n ++ s).takeWhile Char.isDigit = decimal n := by
    rw [List.takeWhile_append_of_pos (decimal_all_digits n), takeWhile_isDigit_eq_nil s hs]
    simp
  have hskip := decodeGo_skip (decimal n) s (decimal_all_digits n) hs
  simp [decodeGo, htw, decimal_ne_nil, digitsValue_decimal, hskip]

theorem decodeGo_replicate (c : Char) (hc : c ≠ '@') (n : Nat) (s : Str) :
    decodeGo false (List.replicate n c ++ s) = List.replicate n c ++ decodeGo false s := by
  induction n with
  | zero => simp
  | succ n ih => simp [List.replicate_succ, decodeGo_cons_of_ne_at c _ hc, ih]

/-- The first two characters of an encoding of runs of non-digit characters are not
digits. -/
theorem encodeRuns_take_two (rs : List (Char × Nat))
    (hrs : ∀ r ∈ rs, 1 ≤ r.2 ∧ r.1.isDigit = false) :
    ∀ c ∈ (encodeRuns rs).take 2, c.isDigit = false := by
  induction rs with
  | nil => simp [encodeRuns]
  | cons r rs ih =>
    obtain ⟨d, n⟩ := r
    have hd : d.isDigit = false := (hrs (d, n) (by simp)).2
    have hn : 1 ≤ n := (hrs (d, n) (by simp)).1
    have ih' := ih (fun r hr => hrs r (by simp [hr]))
    have hat : ('@' : Char).isDigit = false := by decide
    intro c hc
    simp only [encodeRuns, List.flatMap_cons] at hc
    change c ∈ (encodeRun (d, n) ++ encodeRuns rs).take 2 at hc
    by_cases h3 : n < 3
    · obtain rfl | rfl : n = 1 ∨ n = 2 := by omega
      · simp only [encodeRun, List.replicate] at hc
        simp at hc
        rcases hc with rfl | hc
        · exact hd
        · exact ih' c (List.take_subset_take_left (encodeRuns rs) (show 1 ≤ 2 by omega) hc)
      · simp [encodeRun, List.replicate] at hc
        rw [hc]; exact hd
    · simp [encodeRun, h3] at hc
      rcases hc with rfl | rfl
      · exact hat
      · exact hd

theorem decodeRLE_encodeRuns (rs : List (Char × Nat))
    (hrs : ∀ r ∈ rs, 1 ≤ r.2 ∧ r.1.isDigit = false) :
    decodeRLE (encodeRuns rs) = expandRuns rs := by
  induction rs with
  | nil => simp [decodeRLE, encodeRuns, expandRuns, decodeGo]
  | cons r rs ih =>
    obtain ⟨d, n⟩ := r
    have hn : 1 ≤ n := (hrs (d, n) (by simp)).1
    have hrs' : ∀ r ∈ rs, 1 ≤ r.2 ∧ r.1.isDigit = false := fun r hr => hrs r (by simp [hr])
    have ih' := ih hrs'
    have h2 := encodeRuns_take_two rs hrs'
    have h1 : ∀ c ∈ (encodeRuns rs).take 1, c.isDigit = false := fun c hc =>
      h2 c (List.take_subset_take_left (encodeRuns rs) (show 1 ≤ 2 by omega) hc)
    unfold decodeRLE at ih' ⊢
    have hsplit : encodeRuns ((d, n) :: rs) = encodeRun (d, n) ++ encodeRuns rs := by
      simp [encodeRuns]
    have hexp : expandRuns ((d, n) :: rs) = List.replicate n d ++ expandRuns rs := by
      simp [expandRuns]
    rw [hsplit, hexp, ← ih']
    by_cases h3 : n < 3
    · have henc : encodeRun (d, n) = List.replicate n d := by simp [encodeRun, h3]
      rw [henc]
      by_cases hat : d = '@'
      · subst hat
        obtain rfl | rfl : n = 1 ∨ n = 2 := by omega
        · simpa using decodeGo_literal_at _ h2
        · have h2' : ∀ c ∈ ('@' :: encodeRuns rs).take 2, c.isDigit = false := by
            intro c hc
            simp at hc
            rcases hc with rfl | hc
            · decide
            · exact h1 c hc
          have e1 := decodeGo_literal_at _ h2'
          have e2 := decodeGo_literal_at _ h2
          simp [List.replicate, e1, e2]
      · exact decodeGo_replicate d hat n _
    · have henc : encodeRun (d, n) = '@' :: d :: decimal n := by simp [encodeRun, h3]
      rw [henc]
      exact decodeGo_escape d n _ h1

/-- The round trip through the encoder and the decoder of the specification, for a
string without decimal digits. -/
theorem decodeRLE_compressText_of_no_digit (s : Str) (hlen : s.length < 2 ^ 31)
    (h : ∀ c ∈ s, c.isDigit = false) :
    decodeRLE (compressText s) = s := by
  rw [compressText_eq_encodeRuns_runs s hlen, decodeRLE_encodeRuns, expandRuns_runs]
  intro r hr
  exact ⟨runs_pos s r hr, h _ (runs_char_mem s r hr)⟩

theorem runs_replicate (c : Char) (n : Nat) (hn : 0 < n) :
    runs (List.replicate n c) = [(c, n)] := by
  induction n with
  | zero => omega
  | succ m ih =>
    rw [List.replicate_succ, runs]
    by_cases hm : m = 0
    · subst hm; rfl
    · rw [ih (by omega)]
      simp [pushRun, Nat.add_comm]

/-- On a text of `2^31` equal characters `compressText` returns one character. -/
theorem compressText_replicate (c : Char) : compressText (List.replicate (2 ^ 31) c) = [c] := by
  rw [compressText_eq_encodeRuns_readPart, readPart_replicate]
  rfl

theorem decimal_two_pow : decimal (2 ^ 31) = "2147483648".toList := by
  norm_num [decimal_of_ten_le, decimal_of_lt_ten]
  decide

/-! ## Claims on stage 1 -/

/-- C1, counterexample: the content `aaa1` is encoded as `@a31`, which the decoder of
the specification reads as 31 copies of `a`; the round trip does not give `aaa1`
back. -/
theorem rle_roundtrip_counterexample :
    compressText "aaa1".toList = "@a31".toList ∧
    decodeRLE (compressText "aaa1".toList) = List.replicate 31 'a' ∧
    decodeRLE (compressText "aaa1".toList) ≠ "aaa1".toList := by
  decide

/-- C1, amended: for every string `S` shorter than `2^31` characters that contains no
decimal digit `0`..`9`, `decodeRLE (compressText S) = S`, where `decodeRLE` expands
every `@<char><digits>` (maximal non-empty run of digits) and copies every other
character. -/
theorem rle_roundtrip_without_digits (S : Str) (hlen : S.length < 2 ^ 31)
    (h : ∀ c ∈ S, c.isDigit = false) :
    decodeRLE (compressText S) = S :=
  decodeRLE_compressText_of_no_digit S hlen h

theorem rle_roundtrip_without_digits_witness :
    "@@xxxxy@###".toList.length < 2 ^ 31 ∧
    (∀ c ∈ "@@xxxxy@###".toList, c.isDigit = false) ∧
    compressText "@@xxxxy@###".toList = "@@@x4y@@#3".toList ∧
    decodeRLE (compressText "@@xxxxy@###".toList) = "@@xxxxy@###".toList :=
  ⟨by decide, by decide, by decide, rle_roundtrip_without_digits _ (by decide) (by decide)⟩

/-- For every string `s` shorter than `2^31` characters, `compressText s` is the
concatenation, in order, of the encodings of the maximal runs of `s`: `@`, the
character and the decimal digits of the length for a run of length at least 3, the
characters themselves for a shorter run. `runs s` is the decomposition of `s` into
maximal runs (it expands to `s`, every run is non-empty and neighbouring runs have
different characters), and the decimal text of a positive number consists of digits,
has no leading zero and reads back as the number. A run of 2 gives `xx`, a run of 3
gives `@x3`, one character is returned unchanged, and the 60 characters of the scenario
give `@a10@b10@c10@a10@b10@c10`. -/
theorem compressText_per_run_of_lt (s : Str) (hlen : s.length < 2 ^ 31) :
    compressText s = encodeRuns (runs s) ∧
    (expandRuns (runs s) = s ∧ (∀ r ∈ runs s, 1 ≤ r.2) ∧
      (runs s).Chain' (fun a b => a.1 ≠ b.1)) ∧
    (∀ x n, 3 ≤ n → encodeRun (x, n) = '@' :: x :: decimal n) ∧
    (∀ x n, n < 3 → encodeRun (x, n) = List.replicate n x) ∧
    (∀ n, 0 < n → digitsValue (decimal n) = n ∧ (decimal n).head? ≠ some '0' ∧
      ∀ c ∈ decimal n, c.isDigit = true) ∧
    (∀ x, compressText [x, x] = [x, x]) ∧
    (∀ x, compressText [x, x, x] = ['@', x, '3']) ∧
    (∀ x, compressText [x] = [x]) ∧
    compressText "aaaaaaaaaabbbbbbbbbbccccccccccaaaaaaaaaabbbbbbbbbbcccccccccc".toList
      = "@a10@b10@c10@a10@b10@c10".toList := by
  refine ⟨compressText_eq_encodeRuns_runs s hlen,
    ⟨expandRuns_runs s, runs_pos s, runs_chain s⟩, ?_, ?_, ?_, ?_, ?_, ?_, by decide⟩
  · intro x n hn
    simp [encodeRun, Nat.not_lt.2 hn]
  · intro x n hn
    simp [encodeRun, hn]
  · intro n hn
    exact ⟨digitsValue_decimal n, decimal_head_ne_zero n hn, decimal_all_digits n⟩
  · intro x
    rw [compressText_eq_encodeRuns_runs _ (by simp)]
    simp [runs, pushRun, encodeRuns, encodeRun]
  · intro x
    rw [compressText_eq_encodeRuns_runs _ (by simp)]
    simp [runs, pushRun, encodeRuns, encodeRun]
    decide
  · intro x
    rw [compressText_eq_encodeRuns_runs _ (by simp)]
    simp [runs, pushRun, encodeRuns, encodeRun]

/-- C3, at the failing input: for the text of `2^31` characters `a` the `int length` of
`compressText` is `-2^31`, the loop is not entered and the function returns the one
character `a`. The text is one maximal run of length `2^31`, whose encoding is
`@a2147483648`. -/
theorem compressText_overflow :
    compressText (List.replicate (2 ^ 31) 'a') = ['a'] ∧
    runs (List.replicate (2 ^ 31) 'a') = [('a', 2 ^ 31)] ∧
    encodeRuns (runs (List.replicate (2 ^ 31) 'a')) = "@a2147483648".toList ∧
    compressText (List.replicate (2 ^ 31) 'a') ≠
      encodeRuns (runs (List.replicate (2 ^ 31) 'a')) := by
  have hruns := runs_replicate 'a' (2 ^ 31) (by norm_num)
  have henc : encodeRuns (runs (List.replicate (2 ^ 31) 'a')) = "@a2147483648".toList := by
    rw [hruns]
    have h3 : ¬ (2 : Nat) ^ 31 < 3 := by norm_num
    simp only [encodeRuns, List.flatMap_cons, List.flatMap_nil, List.append_nil, encodeRun,
      h3, if_false, decimal_two_pow]
    rfl
  refine ⟨compressText_replicate 'a', hruns, henc, ?_⟩
  rw [compressText_replicate, henc]
  decide

theorem length_encodeRun_le (r : Char × Nat) : (encodeRun r).length ≤ r.2 := by
  obtain ⟨c, n⟩ := r
  by_cases h : n < 3
  · simp [encodeRun, h]
  · have := decimal_length_le n (by omega)
    simp [encodeRun, h]
    omega

theorem length_encodeRuns_le (rs : List (Char × Nat)) :
    (encodeRuns rs).length ≤ (expandRuns rs).length := by
  induction rs with
  | nil => simp [encodeRuns, expandRuns]
  | cons r rs ih =>
    have := length_encodeRun_le r
    simp only [encodeRuns, expandRuns, List.flatMap_cons, List.length_append,
      List.length_replicate] at ih ⊢
    omega

/-- C8: for every string `s`, `compressText s` is not longer than `s`; an escaped run
of length `n >= 3` costs `2 +` the number of decimal digits of `n` characters, which
is at most `n`. -/
theorem compressText_length_le (s : Str) :
    (compressText s).length ≤ s.length ∧
    ∀ c n, 3 ≤ n →
      (flushRun c n).length = 2 + (decimal n).length ∧ 2 + (decimal n).length ≤ n := by
  constructor
  · have h := length_encodeRuns_le (runs (readPart s))
    rw [← compressText_eq_encodeRuns_readPart, expandRuns_runs] at h
    exact Nat.le_trans h (readPart_length_le s)
  · intro c n hn
    have := decimal_length_le n hn
    simp [flushRun, hn]
    omega

/-! ## The order of the map keys -/

theorem strLt_irrefl (a : Str) : strLt a a = false := by
  induction a with
  | nil => rfl
  | cons x a ih => simp [strLt, ih]

theorem strLt_trans : ∀ a b c : Str, strLt a b = true → strLt b c = true → strLt a c = true
  | [], [], _, h, _ => by simp [strLt] at h
  | [], _ :: _, [], _, h => by simp [strLt] at h
  | [], _ :: _, _ :: _, _, _ => by simp [strLt]
  | _ :: _, [], _, h, _ => by simp [strLt] at h
  | _ :: _, _ :: _, [], _, h => by simp [strLt] at h
  | x :: a, y :: b, z :: c, h1, h2 => by
    simp only [strLt] at h1 h2 ⊢
    by_cases hxy : x.toNat < y.toNat
    · by_cases hyz : y.toNat < z.toNat
      · simp [show x.toNat < z.toNat by omega]
      · by_cases hzy : z.toNat < y.toNat
        · simp [hyz, hzy] at h2
        · simp [show x.toNat < z.toNat by omega]
    · by_cases hyx : y.toNat < x.toNat
      · simp [hxy, hyx] at h1
      · simp only [hxy, hyx, if_false] at h1
        by_cases hyz : y.toNat < z.toNat
        · simp [show x.toNat < z.toNat by omega]
        · by_cases hzy : z.toNat < y.toNat
          · simp [hyz, hzy] at h2
          · simp only [hyz, hzy, if_false] at h2
            simp [show ¬ x.toNat < z.toNat by omega, show ¬ z.toNat < x.toNat by omega]
            exact strLt_trans a b c h1 h2

theorem char_eq_of_toNat_eq {x y : Char} (h : x.toNat = y.toNat) : x = y := by
  apply Char.ext
  apply UInt32.ext
  exact h

theorem strLt_total : ∀ a b : Str, a ≠ b → strLt a b = false → strLt b a = true
  | [], [], h, _ => absurd rfl h
  | [], _ :: _, _, h => by simp [strLt] at h
  | _ :: _, [], _, _ => by simp [strLt]
  | x :: a, y :: b, hne, h => by
    simp only [strLt] at h ⊢
    by_cases hxy : x.toNat < y.toNat
    · simp [hxy] at h
    · by_cases hyx : y.toNat < x.toNat
      · simp [hyx]
      · simp only [hxy, hyx, if_false] at h ⊢
        have hxy' : x = y := char_eq_of_toNat_eq (by omega)
        subst hxy'
        exact strLt_total a b (fun hab => hne (by rw [hab])) h

theorem keysSorted_nodup {m : PatternMap} (h : KeysSorted m) : (m.map Prod.fst).Nodup := by
  unfold KeysSorted at h
  show List.Pairwise (fun a b => a ≠ b) (m.map Prod.fst)
  rw [List.pairwise_map]
  refine h.imp ?_
  intro a b hab heq
  rw [heq, strLt_irrefl] at hab
  exact Bool.noConfusion hab

/-! ## The map operations -/

theorem valueOf_eq_zero {m : PatternMap} {p : Str} (h : ∀ e ∈ m, p ≠ e.1) :
    valueOf m p = 0 := by
  induction m with
  | nil => rfl
  | cons e m ih =>
    obtain ⟨k0, v0⟩ := e
    have h0 : p ≠ k0 := h (k0, v0) (by simp)
    simp only [valueOf, h0, if_false]
    exact ih fun e he => h e (by simp [he])

theorem ne_of_strLt {a b : Str} (h : strLt a b = true) : a ≠ b := by
  intro hab
  rw [hab, strLt_irrefl] at h
  exact Bool.noConfusion h

theorem valueOf_mapIncrement (m : PatternMap) (k p : Str) (hm : KeysSorted m) :
    valueOf (mapIncrement m k) p = valueOf m p + if p = k then 1 else 0 := by
  induction m with
  | nil => by_cases h : p = k <;> simp [mapIncrement, valueOf, h]
  | cons e m ih =>
    obtain ⟨k0, v0⟩ := e
    unfold KeysSorted at hm ih
    rw [List.pairwise_cons] at hm
    by_cases hk : k = k0
    · subst hk
      by_cases hp : p = k <;> simp [mapIncrement, valueOf, hp]
    · cases hlt : strLt k k0
      · by_cases hp0 : p = k0
        · subst hp0
          have : ¬ p = k := fun h => hk h.symm
          simp [mapIncrement, valueOf, hk, hlt, this]
        · simp [mapIncrement, valueOf, hk, hlt, hp0, ih hm.2]
      · by_cases hp : p = k
        · subst hp
          have hz : valueOf m p = 0 :=
            valueOf_eq_zero fun e he => ne_of_strLt (strLt_trans _ _ _ hlt (hm.1 e he))
          simp [mapIncrement, valueOf, hk, hlt, hz]
        · simp [mapIncrement, valueOf, hk, hlt, hp]

theorem mem_keys_mapIncrement (m : PatternMap) (k p : Str) :
    p ∈ (mapIncrement m k).map Prod.fst ↔ p = k ∨ p ∈ m.map Prod.fst := by
  induction m with
  | nil => simp [mapIncrement]
  | cons e m ih =>
    obtain ⟨k0, v0⟩ := e
    by_cases hk : k = k0
    · subst hk; simp [mapIncrement]
    · cases hlt : strLt k k0
      · simp only [mapIncrement, hk, hlt, if_false, List.map_cons, List.mem_cons, ih]
        simp only [Bool.false_eq_true, if_false, List.map_cons, List.mem_cons, ih]
        tauto
      · simp [mapIncrement, hk, hlt]

theorem keysSorted_mapIncrement (m : PatternMap) (k : Str) (h : KeysSorted m) :
    KeysSorted (mapIncrement m k) := by
  induction m with
  | nil => simp [mapIncrement, KeysSorted]
  | cons e m ih =>
    obtain ⟨k0, v0⟩ := e
    unfold KeysSorted at h ih ⊢
    rw [List.pairwise_cons] at h
    by_cases hk : k = k0
    · subst hk
      simp only [mapIncrement, if_true]
      exact List.pairwise_cons.2 ⟨h.1, h.2⟩
    · by_cases hlt : strLt k k0 = true
      · simp only [mapIncrement, hk, hlt, if_true, if_false]
        refine List.pairwise_cons.2 ⟨?_, List.pairwise_cons.2 h⟩
        intro e he
        rcases List.mem_cons.1 he with rfl | he
        · exact hlt
        · exact strLt_trans _ _ _ hlt (h.1 e he)
      · simp only [mapIncrement, hk, hlt, if_false]
        refine List.pairwise_cons.2 ⟨?_, ih h.2⟩
        intro e he
        have hmem : e.1 ∈ (mapIncrement m k).map Prod.fst := List.mem_map_of_mem _ he
        rcases (mem_keys_mapIncrement m k e.1).1 hmem with hek | hek
        · rw [hek]
          exact strLt_total k k0 hk (by simpa using hlt)
        · obtain ⟨e', he', hfst⟩ := List.mem_map.1 hek
          have := h.1 e' he'
          rw [hfst] at this
          exact this

theorem valueOf_of_mem {m : PatternMap} (h : (m.map Prod.fst).Nodup) {p : Str} {c : Int}
    (hm : (p, c) ∈ m) : valueOf m p = c := by
  induction m with
  | nil => simp at hm
  | cons e m ih =>
    obtain ⟨k0, v0⟩ := e
    rw [List.map_cons, List.nodup_cons] at h
    rcases List.mem_cons.1 hm with heq | hm'
    · cases heq; simp [valueOf]
    · have hne : p ≠ k0 := by
        intro hp
        subst hp
        exact h.1 (List.mem_map.2 ⟨(p, c), hm', rfl⟩)
      simp [valueOf, hne, ih h.2 hm']

/-! ## The scanner as a sequence of increments -/

theorem valueOf_foldl_mapIncrement (ks : List Str) (p : Str) :
    ∀ m, KeysSorted m →
      valueOf (ks.foldl mapIncrement m) p = valueOf m p + (ks.count p : Int) := by
  induction ks with
  | nil => intro m _; simp
  | cons k ks ih =>
    intro m hm
    rw [List.foldl_cons, ih _ (keysSorted_mapIncrement m k hm), valueOf_mapIncrement m k p hm,
      List.count_cons]
    by_cases h : p = k
    · subst h; simp; omega
    · have : ¬ k = p := fun h' => h h'.symm
      simp [h, this]

theorem mem_keys_foldl_mapIncrement (ks : List Str) (p : Str) :
    ∀ m, p ∈ (ks.foldl mapIncrement m).map Prod.fst ↔ p ∈ m.map Prod.fst ∨ p ∈ ks := by
  induction ks with
  | nil => intro m; simp
  | cons k ks ih =>
    intro m
    rw [List.foldl_cons, ih, mem_keys_mapIncrement, List.mem_cons]
    tauto

theorem keysSorted_foldl_mapIncrement (ks : List Str) :
    ∀ m, KeysSorted m → KeysSorted (ks.foldl mapIncrement m) := by
  induction ks with
  | nil => intro m h; exact h
  | cons k ks ih => intro m h; exact ih _ (keysSorted_mapIncrement m k h)

theorem scanLength_eq_foldl (text : Str) (len : Nat) (m : PatternMap) :
    scanLength text len m = (windows text len).foldl mapIncrement m := by
  simp [scanLength, windows, List.foldl_map]

theorem countPatterns_eq_foldl (text : Str) (a : Nat) :
    countPatterns text a = (scanned text a).foldl mapIncrement [] := by
  have hf : (fun m len => scanLength text len m) =
      fun m len => List.foldl mapIncrement m (windows text len) := by
    funext m len
    exact scanLength_eq_foldl text len m
  unfold countPatterns scanned
  rw [List.flatMap, List.foldl_flatten, List.foldl_map, hf]

/-! ## The substrings taken by the scanner -/

/-- The indices that the inner loop visits are start positions of windows that lie
inside the text. -/
theorem scanBound_add_le {text : Str} {len : Nat} (hlen : len ≤ 30)
    (h : 0 ≤ scanBound text len) : scanBound text len + len ≤ text.length := by
  unfold scanBound wrapInt32 at h ⊢
  omega

/-- For a text shorter than `2^31` characters the bound of the inner loop is the
difference of the lengths. -/
theorem scanBound_of_lt {text : Str} {len : Nat} (hlen : len ≤ 30)
    (h : text.length < 2 ^ 31) : scanBound text len = (text.length : Int) - len := by
  unfold scanBound wrapInt32
  omega

theorem windows_of_lt {text : Str} {len : Nat} (hlen : len ≤ 30) (h : text.length < 2 ^ 31) :
    windows text len = (List.range (text.length + 1 - len)).map fun i => substr text i len := by
  have hk : (scanBound text len + 1).toNat = text.length + 1 - len := by
    rw [scanBound_of_lt hlen h]
    omega
  rw [windows, hk]

theorem mem_windows {text : Str} {len : Nat} {w : Str} (hlen : len ≤ 30)
    (h : w ∈ windows text len) :
    w.length = len ∧ w <:+: text := by
  obtain ⟨i, hi, rfl⟩ := List.mem_map.1 h
  rw [List.mem_range] at hi
  have hb := @scanBound_add_le text len hlen (by omega)
  constructor
  · simp [substr]; omega
  · exact List.infix_iff_prefix_suffix.2
      ⟨text.drop i, List.take_prefix _ _, List.drop_suffix _ _⟩

theorem infix_mem_windows {text p : Str} (hlen : p.length ≤ 30) (ht : text.length < 2 ^ 31)
    (h : p <:+: text) : p ∈ windows text p.length := by
  rw [windows_of_lt hlen ht]
  obtain ⟨a, b, rfl⟩ := h
  refine List.mem_map.2 ⟨a.length, ?_, ?_⟩
  · rw [List.mem_range]; simp; omega
  · simp [substr]

theorem mem_scanned {text p : Str} (h : p ∈ scanned text 3) :
    3 ≤ p.length ∧ p.length ≤ 30 ∧ p <:+: text := by
  unfold scanned at h
  rw [List.mem_flatMap] at h
  obtain ⟨len, hlen, hw⟩ := h
  rw [List.mem_range'_1] at hlen
  obtain ⟨h1, h2⟩ := mem_windows (by omega) hw
  exact ⟨by omega, by omega, h2⟩

theorem mem_scanned_iff (text p : Str) (ht : text.length < 2 ^ 31) :
    p ∈ scanned text 3 ↔ 3 ≤ p.length ∧ p.length ≤ 30 ∧ p <:+: text := by
  constructor
  · exact mem_scanned
  · rintro ⟨h3, h30, hin⟩
    unfold scanned
    rw [List.mem_flatMap]
    exact ⟨p.length, by rw [List.mem_range'_1]; omega, infix_mem_windows h30 ht hin⟩

theorem count_windows (text p : Str) (hlen : p.length ≤ 30) (ht : text.length < 2 ^ 31) :
    (windows text p.length).count p = occurrences p text := by
  rw [windows_of_lt hlen ht]
  unfold occurrences
  rw [List.count_eq_countP, List.countP_map]
  have hsplit : text.length + 1 =
      (text.length + 1 - p.length) + (text.length + 1 - (text.length + 1 - p.length)) := by
    omega
  conv_rhs => rw [hsplit, List.range_add, List.countP_append]
  have hzero : List.countP (fun i => p.isPrefixOf (text.drop i))
      (List.map (fun x => text.length + 1 - p.length + x)
        (List.range (text.length + 1 - (text.length + 1 - p.length)))) = 0 := by
    rw [List.countP_eq_zero]
    intro i hi
    obtain ⟨j, hj, rfl⟩ := List.mem_map.1 hi
    rw [List.mem_range] at hj
    simp only [List.isPrefixOf_iff_prefix]
    intro hpre
    have := hpre.length_le
    simp at this
    omega
  rw [hzero, Nat.add_zero]
  apply List.countP_congr
  intro i hi
  rw [List.mem_range] at hi
  simp only [Function.comp, beq_iff_eq, List.isPrefixOf_iff_prefix, substr]
  rw [List.prefix_iff_eq_take]
  exact eq_comm

theorem count_flatMap_windows (text p : Str) (lens : List Nat) (hnd : lens.Nodup)
    (hlens : ∀ len ∈ lens, len ≤ 30) (ht : text.length < 2 ^ 31) :
    (lens.flatMap (windows text)).count p =
      if p.length ∈ lens then occurrences p text else 0 := by
  induction lens with
  | nil => simp
  | cons len lens ih =>
    rw [List.nodup_cons] at hnd
    rw [List.flatMap_cons, List.count_append, ih hnd.2 fun l hl => hlens l (by simp [hl])]
    by_cases h : len = p.length
    · subst h
      simp [count_windows text p (hlens _ (by simp)) ht, hnd.1]
    · have hz : (windows text len).count p = 0 := by
        rw [List.count_eq_zero]
        intro hm
        exact h (mem_windows (hlens _ (by simp)) hm).1.symm
      have h' : ¬ p.length = len := fun e => h e.symm
      simp [hz, h']

theorem count_scanned (text p : Str) (h3 : 3 ≤ p.length) (h30 : p.length ≤ 30)
    (ht : text.length < 2 ^ 31) :
    (scanned text 3).count p = occurrences p text := by
  unfold scanned
  rw [count_flatMap_windows text p _ (List.nodup_range' 3 (31 - 3))
    (by intro len hl; rw [List.mem_range'_1] at hl; omega) ht]
  have : p.length ∈ List.range' 3 (31 - 3) := by rw [List.mem_range'_1]; omega
  simp [this]

theorem mapAssign_of_all_lt (m : PatternMap) (k : Str) (v : Int)
    (h : ∀ e ∈ m, strLt e.1 k = true) : mapAssign m k v = m ++ [(k, v)] := by
  induction m with
  | nil => rfl
  | cons e m ih =>
    obtain ⟨k0, v0⟩ := e
    have h0 : strLt k0 k = true := h (k0, v0) (by simp)
    have hne : k ≠ k0 := fun hk => ne_of_strLt h0 hk.symm
    have hnlt : strLt k k0 = false := by
      cases hlt : strLt k k0
      · rfl
      · have := strLt_trans _ _ _ hlt h0
        rw [strLt_irrefl] at this
        exact Bool.noConfusion this
    simp only [mapAssign, hne, hnlt, if_false, Bool.false_eq_true, List.cons_append]
    rw [ih fun e he => h e (by simp [he])]

theorem mem_keys_mapAssign {m : PatternMap} {k p : Str} {v : Int}
    (h : p ∈ (mapAssign m k v).map Prod.fst) : p = k ∨ p ∈ m.map Prod.fst := by
  induction m with
  | nil => simpa [mapAssign] using h
  | cons e m ih =>
    obtain ⟨k0, v0⟩ := e
    by_cases hk : k = k0
    · subst hk
      simp only [mapAssign, if_true, List.map_cons, List.mem_cons] at h
      simp only [List.map_cons, List.mem_cons]
      tauto
    · cases hlt : strLt k k0
      · simp only [mapAssign, hk, hlt, if_false, Bool.false_eq_true, List.map_cons,
          List.mem_cons] at h
        simp only [List.map_cons, List.mem_cons]
        rcases h with h | h
        · exact Or.inr (Or.inl h)
        · rcases ih h with h | h
          · exact Or.inl h
          · exact Or.inr (Or.inr h)
      · simp only [mapAssign, hk, hlt, if_true, if_false, List.map_cons, List.mem_cons] at h
        simp only [List.map_cons, List.mem_cons]
        tauto

theorem mem_keys_filter_foldl (f : Int) (l : PatternMap) (p : Str) :
    ∀ acc : PatternMap,
      p ∈ (l.foldl (fun filtered pair =>
        if pair.2 ≥ f then mapAssign filtered pair.1 pair.2 else filtered) acc).map Prod.fst →
      p ∈ acc.map Prod.fst ∨ p ∈ l.map Prod.fst := by
  induction l with
  | nil => intro acc h; exact Or.inl h
  | cons e l ih =>
    intro acc h
    rw [List.foldl_cons] at h
    rcases ih _ h with h | h
    · by_cases hf : e.2 ≥ f
      · rw [if_pos hf] at h
        rcases mem_keys_mapAssign h with h | h
        · exact Or.inr (by simp [h])
        · exact Or.inl h
      · rw [if_neg hf] at h
        exact Or.inl h
    · exact Or.inr (by simp only [List.map_cons, List.mem_cons]; exact Or.inr h)

theorem filter_foldl_of_sorted (l : PatternMap) :
    ∀ acc : PatternMap, KeysSorted (acc ++ l) → (∀ e ∈ l, (0 : Int) ≤ e.2) →
      l.foldl (fun filtered pair =>
        if pair.2 ≥ 0 then mapAssign filtered pair.1 pair.2 else filtered) acc = acc ++ l := by
  induction l with
  | nil => intro acc _ _; simp
  | cons e l ih =>
    intro acc hs hv
    have he : e.2 ≥ 0 := hv e (by simp)
    have hlt : ∀ a ∈ acc, strLt a.1 e.1 = true := by
      intro a ha
      unfold KeysSorted at hs
      rw [List.pairwise_append] at hs
      exact hs.2.2 a ha e (by simp)
    rw [List.foldl_cons, if_pos he, mapAssign_of_all_lt acc e.1 e.2 hlt]
    have hs' : KeysSorted ((acc ++ [(e.1, e.2)]) ++ l) := by
      simpa using hs
    rw [ih _ hs' fun e' he' => hv e' (by simp [he'])]
    simp

/-! ## The result of the scanner -/

theorem countPatterns_sorted (text : Str) (a : Nat) : KeysSorted (countPatterns text a) := by
  rw [countPatterns_eq_foldl]
  exact keysSorted_foldl_mapIncrement _ [] (by simp [KeysSorted])

/-- Every key of the counted map is a substring of the text of length 3 to 30. -/
theorem key_countPatterns {text p : Str} (h : p ∈ (countPatterns text 3).map Prod.fst) :
    3 ≤ p.length ∧ p.length ≤ 30 ∧ p <:+: text := by
  rw [countPatterns_eq_foldl, mem_keys_foldl_mapIncrement] at h
  rcases h with h | h
  · simp at h
  · exact mem_scanned h

theorem mem_keys_countPatterns (text p : Str) (ht : text.length < 2 ^ 31) :
    p ∈ (countPatterns text 3).map Prod.fst ↔ 3 ≤ p.length ∧ p.length ≤ 30 ∧ p <:+: text := by
  rw [countPatterns_eq_foldl, mem_keys_foldl_mapIncrement, ← mem_scanned_iff text p ht]
  simp

theorem value_countPatterns_nonneg {text : Str} {a : Nat} {p : Str} {c : Int}
    (h : (p, c) ∈ countPatterns text a) : 0 ≤ c := by
  have hv := valueOf_of_mem (keysSorted_nodup (countPatterns_sorted text a)) h
  rw [countPatterns_eq_foldl, valueOf_foldl_mapIncrement _ _ _ (by simp [KeysSorted])] at hv
  simp only [valueOf, zero_add] at hv
  omega

theorem value_countPatterns {text p : Str} {c : Int} (ht : text.length < 2 ^ 31)
    (h : (p, c) ∈ countPatterns text 3) :
    c = (occurrences p text : Int) := by
  have hkey : p ∈ (countPatterns text 3).map Prod.fst := List.mem_map.2 ⟨(p, c), h, rfl⟩
  obtain ⟨h3, h30, _⟩ := key_countPatterns hkey
  have hv := valueOf_of_mem (keysSorted_nodup (countPatterns_sorted text 3)) h
  rw [countPatterns_eq_foldl, valueOf_foldl_mapIncrement _ _ _ (by simp [KeysSorted]),
    count_scanned text p h3 h30 ht] at hv
  simpa [valueOf] using hv.symm

theorem findFrequentPatterns_zero (text : Str) :
    findFrequentPatterns text 3 0 = countPatterns text 3 := by
  have hs : KeysSorted ([] ++ countPatterns text 3) := by
    rw [List.nil_append]
    exact countPatterns_sorted text 3
  have hv : ∀ e ∈ countPatterns text 3, (0 : Int) ≤ e.2 := by
    intro e he
    exact @value_countPatterns_nonneg text 3 e.1 e.2 he
  have h := filter_foldl_of_sorted (countPatterns text 3) [] hs hv
  rw [List.nil_append] at h
  unfold findFrequentPatterns
  exact h

/-- For every text `t` shorter than `2^31` characters, the keys of
`findFrequentPatterns t` (minimum length 3, minimum frequency 0) are exactly the
contiguous substrings of `t` of length 3 to 30, each key occurs once and is mapped to
the number of start positions at which it occurs in `t`; the filter with threshold 0
discards nothing, whatever the text. On `@a10@b10@c10@a10@b10@c10` the key
`@a10@b10@c10` has count 2. -/
theorem findFrequentPatterns_counts_of_lt (t : Str) (ht : t.length < 2 ^ 31) :
    (∀ p, p ∈ (findFrequentPatterns t 3 0).map Prod.fst ↔
      3 ≤ p.length ∧ p.length ≤ 30 ∧ p <:+: t) ∧
    (∀ p c, (p, c) ∈ findFrequentPatterns t 3 0 → c = (occurrences p t : Int)) ∧
    ((findFrequentPatterns t 3 0).map Prod.fst).Nodup ∧
    findFrequentPatterns t 3 0 = countPatterns t 3 ∧
    ("@a10@b10@c10".toList, (2 : Int)) ∈
      findFrequentPatterns "@a10@b10@c10@a10@b10@c10".toList 3 0 := by
  refine ⟨?_, ?_, ?_, findFrequentPatterns_zero t, ?_⟩
  · intro p
    rw [findFrequentPatterns_zero]
    exact mem_keys_countPatterns t p ht
  · intro p c h
    rw [findFrequentPatterns_zero] at h
    exact value_countPatterns ht h
  · rw [findFrequentPatterns_zero]
    exact keysSorted_nodup (countPatterns_sorted t 3)
  · rw [findFrequentPatterns_zero]
    have hlen : "@a10@b10@c10@a10@b10@c10".toList.length < 2 ^ 31 := by decide
    have hkey : "@a10@b10@c10".toList ∈
        (countPatterns "@a10@b10@c10@a10@b10@c10".toList 3).map Prod.fst := by
      rw [mem_keys_countPatterns _ _ hlen]
      refine ⟨by decide, by decide, [], "@a10@b10@c10".toList, by decide⟩
    obtain ⟨⟨p, c⟩, hmem, hp⟩ := List.mem_map.1 hkey
    simp only at hp
    subst hp
    have hc := value_countPatterns hlen hmem
    have hocc : occurrences "@a10@b10@c10".toList "@a10@b10@c10@a10@b10@c10".toList = 2 := by
      decide
    rw [hocc] at hc
    rw [hc] at hmem
    exact hmem

/-- C9: for every text and every frequency threshold, every pattern returned by
`findFrequentPatterns` with minimum length 3 has length at least 3, at most 30 and at
most the length of the text; a text shorter than 3 characters yields no pattern. -/
theorem pattern_length_bounds (t : Str) (minFrequency : Int) :
    (∀ e ∈ findFrequentPatterns t 3 minFrequency,
      3 ≤ e.1.length ∧ e.1.length ≤ 30 ∧ e.1.length ≤ t.length) ∧
    (t.length < 3 → findFrequentPatterns t 3 minFrequency = []) := by
  have hall : ∀ e ∈ findFrequentPatterns t 3 minFrequency,
      3 ≤ e.1.length ∧ e.1.length ≤ 30 ∧ e.1.length ≤ t.length := by
    intro e he
    have hk : e.1 ∈ (findFrequentPatterns t 3 minFrequency).map Prod.fst :=
      List.mem_map.2 ⟨e, he, rfl⟩
    rcases mem_keys_filter_foldl minFrequency (countPatterns t 3) e.1 [] hk with h | h
    · simp at h
    · obtain ⟨h3, h30, hin⟩ := key_countPatterns h
      exact ⟨h3, h30, hin.length_le⟩
  refine ⟨hall, ?_⟩
  intro hlen
  cases hm : findFrequentPatterns t 3 minFrequency with
  | nil => rfl
  | cons e m =>
    have := hall e (by rw [hm]; simp)
    omega

theorem pattern_length_bounds_witness :
    "ab".toList.length < 3 ∧ findFrequentPatterns "ab".toList 3 0 = [] :=
  ⟨by decide, (pattern_length_bounds "ab".toList 0).2 (by decide)⟩

/-- C10: for the empty content `compressText` returns the empty string,
`findFrequentPatterns` returns no pattern, and `applyDictionaryCompression` on the empty
text with the resulting empty candidate list returns, whatever the fuel, the empty
compressed text and the empty dictionary; so does the whole pipeline of `main`. -/
theorem empty_input :
    compressText [] = [] ∧
    findFrequentPatterns (compressText []) 3 0 = [] ∧
    (sortPatterns (findFrequentPatterns (compressText []) 3 0)).take 50 = [] ∧
    (∀ fuel, applyDictionaryCompression fuel [] [] = some ([], [])) ∧
    ∀ fuel, main fuel [] = some ([], []) := by
  refine ⟨rfl, by decide, by decide, fun _ => rfl, fun _ => ?_⟩
  have h : sortPatterns (findFrequentPatterns (compressText []) 3 0) = [] := by decide
  simp only [main, substituteTop, h]
  rfl

/-! ## Stage 4: search and replacement -/

theorem findAt_some {p : Str} : ∀ {s : Str} {k q : Nat}, findAt p s k = some q →
    ∃ j, q = k + j ∧ j + p.length ≤ s.length ∧ s = s.take j ++ p ++ s.drop (j + p.length)
  | [], k, q, h => by
    by_cases hp : p = []
    · subst hp
      simp [findAt] at h
      exact ⟨0, by omega, by simp, by simp⟩
    · simp [findAt, hp] at h
  | c :: rest, k, q, h => by
    by_cases hpre : p.isPrefixOf (c :: rest) = true
    · simp only [findAt, hpre, if_true, Option.some.injEq] at h
      obtain ⟨t, ht⟩ := List.isPrefixOf_iff_prefix.1 hpre
      refine ⟨0, by omega, ?_, ?_⟩
      · rw [← ht]; simp
      · rw [← ht]; simp
    · simp only [findAt, hpre, if_false] at h
      obtain ⟨j, hq, hle, hs⟩ := findAt_some h
      refine ⟨j + 1, by omega, by simp; omega, ?_⟩
      have : j + 1 + p.length = (j + p.length) + 1 := by omega
      rw [this, List.take_succ_cons, List.drop_succ_cons]
      simp only [List.cons_append]
      rw [← hs]

theorem find_some {s p : Str} {pos q : Nat} (h : find s p pos = some q) :
    pos ≤ q ∧ q + p.length ≤ s.length ∧ s = s.take q ++ p ++ s.drop (q + p.length) := by
  unfold find at h
  by_cases hpos : pos ≤ s.length
  · rw [if_pos hpos] at h
    obtain ⟨j, hq, hle, hs⟩ := findAt_some h
    rw [List.length_drop] at hle
    refine ⟨by omega, by omega, ?_⟩
    have e1 : s.take q = s.take pos ++ (s.drop pos).take j := by
      rw [hq, List.take_add]
    have e2 : s.drop (q + p.length) = (s.drop pos).drop (j + p.length) := by
      rw [List.drop_drop, hq]
      congr 1
      omega
    rw [e1, e2, List.append_assoc, List.append_assoc, ← List.append_assoc _ p, ← hs,
      List.take_append_drop]
  · rw [if_neg hpos] at h
    exact Option.noConfusion h

theorem find_empty_pattern (s : Str) (pos : Nat) (h : pos ≤ s.length) :
    find s [] pos = some pos := by
  unfold find
  rw [if_pos h]
  cases hd : s.drop pos with
  | nil => simp [findAt]
  | cons c rest => simp [findAt, List.isPrefixOf]

theorem length_replace {s : Str} {q n : Nat} (t : Str) (h : q + n ≤ s.length) :
    (replace s q n t).length = s.length - n + t.length := by
  simp [replace]
  omega

/-- With an empty pattern the replacement loop never ends: no amount of fuel is
enough. -/
theorem replaceLoop_empty_pattern (marker : Str) :
    ∀ fuel s pos, pos ≤ s.length → replaceLoop fuel [] marker s pos = none := by
  intro fuel
  induction fuel with
  | zero => intro s pos _; rfl
  | succ fuel ih =>
    intro s pos h
    simp only [replaceLoop, find_empty_pattern s pos h]
    apply ih
    rw [length_replace marker (by simpa using h)]
    simpa using h

/-- With a non-empty pattern the replacement loop ends as soon as the fuel exceeds the
distance from the cursor to the end of the string. -/
theorem replaceLoop_terminates (p marker : Str) (hp : p ≠ []) :
    ∀ fuel s pos, s.length - pos < fuel → ∃ r, replaceLoop fuel p marker s pos = some r := by
  have hlen : 1 ≤ p.length := List.length_pos.2 hp
  intro fuel
  induction fuel with
  | zero => intro s pos h; omega
  | succ fuel ih =>
    intro s pos h
    cases hf : find s p pos with
    | none => exact ⟨s, by simp [replaceLoop, hf]⟩
    | some q =>
      obtain ⟨hq, hqs, _⟩ := find_some hf
      simp only [replaceLoop, hf]
      apply ih
      rw [length_replace marker hqs]
      omega

theorem replaceLoop_mono {p marker : Str} :
    ∀ {fuel : Nat} {s : Str} {pos : Nat} {r : Str} (k : Nat),
      replaceLoop fuel p marker s pos = some r →
      replaceLoop (fuel + k) p marker s pos = some r := by
  intro fuel
  induction fuel with
  | zero => intro s pos r k h; simp [replaceLoop] at h
  | succ fuel ih =>
    intro s pos r k h
    have e : fuel + 1 + k = (fuel + k) + 1 := by omega
    rw [e]
    cases hf : find s p pos with
    | none => simpa [replaceLoop, hf] using h
    | some q =>
      simp only [replaceLoop, hf] at h ⊢
      exact ih k h

/-! ## Stage 4: the loop over the patterns -/

theorem dictionaryLoop_mono {fuel : Nat} (k : Nat) :
    ∀ {ps : List Str} {i : Nat} {c d : Str} {r : Str × Str},
      dictionaryLoop fuel ps i c d = some r → dictionaryLoop (fuel + k) ps i c d = some r := by
  intro ps
  induction ps with
  | nil => intro i c d r h; simpa [dictionaryLoop] using h
  | cons p ps ih =>
    intro i c d r h
    by_cases hi : i < 26
    · simp only [dictionaryLoop, hi, if_true] at h ⊢
      cases hl : replaceLoop fuel p ['&', code i] c 0 with
      | none => rw [hl] at h; exact Option.noConfusion h
      | some c' =>
        rw [hl] at h
        rw [replaceLoop_mono k hl]
        exact ih h
    · simpa [dictionaryLoop, hi] using h

theorem dictionaryLoop_dictionary {fuel : Nat} :
    ∀ {ps : List Str} {i : Nat} {c d : Str} {r : Str × Str},
      dictionaryLoop fuel ps i c d = some r →
      r.2 = d ++ ((ps.take (26 - i)).enumFrom i).flatMap fun e => code e.1 :: (e.2 ++ [';']) := by
  intro ps
  induction ps with
  | nil => intro i c d r h; simp [dictionaryLoop] at h; simp [← h]
  | cons p ps ih =>
    intro i c d r h
    by_cases hi : i < 26
    · simp only [dictionaryLoop, hi, if_true] at h
      cases hl : replaceLoop fuel p ['&', code i] c 0 with
      | none => rw [hl] at h; exact Option.noConfusion h
      | some c' =>
        rw [hl] at h
        have e : 26 - i = (26 - (i + 1)) + 1 := by omega
        rw [ih h, e, List.take_succ_cons, List.enumFrom_cons, List.flatMap_cons]
        simp
    · simp only [dictionaryLoop, hi, if_false, Option.some.injEq] at h
      have e : 26 - i = 0 := by omega
      simp [← h, e]

theorem dictionaryLoop_take (fuel : Nat) :
    ∀ (ps : List Str) (i : Nat) (c d : Str),
      dictionaryLoop fuel ps i c d = dictionaryLoop fuel (ps.take (26 - i)) i c d := by
  intro ps
  induction ps with
  | nil => intro i c d; simp
  | cons p ps ih =>
    intro i c d
    by_cases hi : i < 26
    · have e : 26 - i = (26 - (i + 1)) + 1 := by omega
      rw [e, List.take_succ_cons]
      simp only [dictionaryLoop, hi, if_true]
      cases replaceLoop fuel p ['&', code i] c 0 with
      | none => rfl
      | some c' => exact ih (i + 1) c' _
    · have e : 26 - i = 0 := by omega
      simp [dictionaryLoop, hi, e]

theorem dictionaryLoop_terminates :
    ∀ (ps : List Str) (i : Nat) (c d : Str), (∀ p ∈ ps.take (26 - i), p ≠ []) →
      ∃ fuel r, dictionaryLoop fuel ps i c d = some r := by
  intro ps
  induction ps with
  | nil => intro i c d _; exact ⟨0, (c, d), rfl⟩
  | cons p ps ih =>
    intro i c d hne
    by_cases hi : i < 26
    · have e : 26 - i = (26 - (i + 1)) + 1 := by omega
      rw [e, List.take_succ_cons] at hne
      have hp : p ≠ [] := hne p (by simp)
      obtain ⟨c', hc'⟩ := replaceLoop_terminates p ['&', code i] hp (c.length + 1) c 0 (by omega)
      obtain ⟨f2, r, hr⟩ := ih (i + 1) c' (d ++ [code i] ++ p ++ [';'])
        (fun q hq => hne q (List.mem_cons_of_mem _ hq))
      refine ⟨(c.length + 1) + f2, r, ?_⟩
      simp only [dictionaryLoop, hi, if_true, replaceLoop_mono f2 hc']
      have := dictionaryLoop_mono (c.length + 1) hr
      rwa [Nat.add_comm] at this
    · exact ⟨0, (c, d), by simp [dictionaryLoop, hi]⟩

theorem applyDictionaryCompression_dictionary {fuel : Nat} {t : Str} {ps : List Str}
    {r : Str × Str} (h : applyDictionaryCompression fuel t ps = some r) :
    r.2 = dictionaryLayout ps := by
  have := dictionaryLoop_dictionary h
  simpa [dictionaryLayout, List.enum] using this

theorem applyDictionaryCompression_take (fuel : Nat) (t : Str) (ps : List Str) :
    applyDictionaryCompression fuel t ps = applyDictionaryCompression fuel t (ps.take 26) :=
  dictionaryLoop_take fuel ps 0 t []

theorem applyDictionaryCompression_terminates (t : Str) (ps : List Str)
    (hne : ∀ p ∈ ps.take 26, p ≠ []) :
    ∃ fuel c, applyDictionaryCompression fuel t ps = some (c, dictionaryLayout ps) := by
  obtain ⟨fuel, r, hr⟩ := dictionaryLoop_terminates ps 0 t [] hne
  refine ⟨fuel, r.1, ?_⟩
  have := applyDictionaryCompression_dictionary hr
  unfold applyDictionaryCompression
  rw [hr, ← this]

theorem codes_nodup (n : Nat) (hn : n ≤ 26) : ((List.range n).map code).Nodup := by
  have h26 : ((List.range 26).map code).Nodup := by decide
  exact h26.sublist ((List.range_sublist.2 hn).map code)

theorem enumFrom_flatMap_eq_range' (g : Nat × Str → Str) :
    ∀ (l : List Str) (k : Nat),
      (l.enumFrom k).flatMap g =
        (List.range' k l.length).flatMap fun i => g (i, l.getD (i - k) []) := by
  intro l
  induction l with
  | nil => intro k; simp
  | cons a l ih =>
    intro k
    rw [List.enumFrom_cons, List.flatMap_cons, ih, List.length_cons, List.range'_succ,
      List.flatMap_cons]
    congr 1
    · simp
    · simp only [List.flatMap]
      congr 1
      apply List.map_congr_left
      intro i hi
      rw [List.mem_range'_1] at hi
      have e : i - k = (i - (k + 1)) + 1 := by omega
      rw [e]
      simp

theorem dictionaryLayout_eq_range (ps : List Str) :
    dictionaryLayout ps =
      (List.range (min ps.length 26)).flatMap (fun i => code i :: (ps.getD i [] ++ [';'])) := by
  unfold dictionaryLayout List.enum
  rw [enumFrom_flatMap_eq_range', List.range_eq_range', List.length_take,
    Nat.min_comm]
  simp only [List.flatMap]
  congr 1
  apply List.map_congr_left
  intro i hi
  rw [List.mem_range'_1] at hi
  have h26 : i < 26 := by omega
  simp [List.getD_eq_getElem?_getD, List.getElem?_take, h26]

/-- C4, counterexample: on the pattern list that consists of one empty pattern the
function returns nothing, with whatever fuel: the replacement loop inserts a marker at
every step and does not end, so no dictionary is returned. -/
theorem dictionary_layout_counterexample :
    ¬ ∃ fuel r, applyDictionaryCompression fuel [] [[]] = some r := by
  rintro ⟨fuel, r, h⟩
  simp [applyDictionaryCompression, dictionaryLoop,
    replaceLoop_empty_pattern ['&', code 0] fuel [] 0 (Nat.le_refl _)] at h

/-- C4, amended: for every text and every pattern list `ps` whose first 26 patterns are
non-empty, `applyDictionaryCompression` returns (with enough fuel) and the dictionary
it returns is the concatenation, for `i = 0 .. min(n, 26) - 1` in order, of the letter
`'a' + i`, then `ps[i]`, then `;`. The letters assigned are pairwise distinct and at
most 26, and the patterns from the 27th on change neither the dictionary nor the
returned string: the result equals that for the first 26 patterns, whatever the fuel. -/
theorem dictionary_layout (t : Str) (ps : List Str) (hne : ∀ p ∈ ps.take 26, p ≠ []) :
    (∃ fuel c, applyDictionaryCompression fuel t ps = some (c, dictionaryLayout ps)) ∧
    (∀ fuel r, applyDictionaryCompression fuel t ps = some r → r.2 = dictionaryLayout ps) ∧
    dictionaryLayout ps =
      (List.range (min ps.length 26)).flatMap (fun i => code i :: (ps.getD i [] ++ [';'])) ∧
    ((List.range (min ps.length 26)).map code).Nodup ∧
    (∀ fuel, applyDictionaryCompression fuel t ps
      = applyDictionaryCompression fuel t (ps.take 26)) ∧
    dictionaryLayout ps = dictionaryLayout (ps.take 26) := by
  refine ⟨applyDictionaryCompression_terminates t ps hne,
    fun fuel r h => applyDictionaryCompression_dictionary h, ?_,
    codes_nodup _ (Nat.min_le_right _ _),
    fun fuel => applyDictionaryCompression_take fuel t ps, ?_⟩
  · exact dictionaryLayout_eq_range ps
  · simp [dictionaryLayout, List.take_take]

theorem dictionary_layout_witness :
    (∀ p ∈ ["ab".toList, "x&".toList].take 26, p ≠ []) ∧
    applyDictionaryCompression 9 "xabxab".toList ["ab".toList, "x&".toList]
      = some ("&ba&ba".toList, "aab;bx&;".toList) ∧
    dictionaryLayout ["ab".toList, "x&".toList] = "aab;bx&;".toList ∧
    ∃ fuel c, applyDictionaryCompression fuel "xabxab".toList ["ab".toList, "x&".toList]
      = some (c, dictionaryLayout ["ab".toList, "x&".toList]) :=
  ⟨by decide, by decide, by decide,
    (dictionary_layout "xabxab".toList ["ab".toList, "x&".toList] (by decide)).1⟩

/-! ## Markers and their expansion -/

section Markers

variable (T : List (Char × Str))

theorem wellMarked_cons_of_ne {x : Char} (rest : Str) (hx : x ≠ '&') :
    wellMarked T (x :: rest) = wellMarked T rest := by
  cases rest <;> simp [wellMarked, hx]

theorem expandMarkers_cons_of_ne {x : Char} (rest : Str) (hx : x ≠ '&') :
    expandMarkers T (x :: rest) = x :: expandMarkers T rest := by
  cases rest <;> simp [expandMarkers, hx]

theorem wellMarked_marker {letter : Char} {p : Str} (rest : Str)
    (h : T.lookup letter = some p) :
    wellMarked T ('&' :: letter :: rest) = wellMarked T rest := by
  simp [wellMarked, h]

theorem expandMarkers_marker {letter : Char} {p : Str} (rest : Str)
    (h : T.lookup letter = some p) :
    expandMarkers T ('&' :: letter :: rest) = p ++ expandMarkers T rest := by
  simp [expandMarkers, h]

theorem wellMarked_literal (p v : Str) (hp : '&' ∉ p) :
    wellMarked T (p ++ v) = wellMarked T v := by
  induction p with
  | nil => rfl
  | cons x p ih =>
    have hx : x ≠ '&' := fun h => hp (by simp [h])
    rw [List.cons_append, wellMarked_cons_of_ne T _ hx]
    exact ih fun h => hp (List.mem_cons_of_mem _ h)

theorem expandMarkers_literal (p v : Str) (hp : '&' ∉ p) :
    expandMarkers T (p ++ v) = p ++ expandMarkers T v := by
  induction p with
  | nil => rfl
  | cons x p ih =>
    have hx : x ≠ '&' := fun h => hp (by simp [h])
    rw [List.cons_append, expandMarkers_cons_of_ne T _ hx, ih fun h => hp (List.mem_cons_of_mem _ h)]
    rfl

/-- A well marked string followed by a string: the second string is read on its own. -/
theorem wellMarked_append_aux (n : Nat) :
    ∀ u w : Str, u.length ≤ n → wellMarked T u = true →
      wellMarked T (u ++ w) = wellMarked T w ∧
      expandMarkers T (u ++ w) = expandMarkers T u ++ expandMarkers T w := by
  induction n with
  | zero =>
    intro u w hu _
    have : u = [] := List.length_eq_zero.1 (by omega)
    subst this
    simp [expandMarkers]
  | succ n ih =>
    intro u w hu hwm
    cases u with
    | nil => simp [expandMarkers]
    | cons x u =>
      by_cases hx : x = '&'
      · subst hx
        cases u with
        | nil => simp [wellMarked] at hwm
        | cons l u =>
          cases hl : T.lookup l with
          | none => simp [wellMarked, hl] at hwm
          | some p =>
            rw [wellMarked_marker T _ hl] at hwm
            have := ih u w (by simp at hu; omega) hwm
            simp only [List.cons_append]
            rw [wellMarked_marker T _ hl, expandMarkers_marker T _ hl,
              expandMarkers_marker T _ hl, this.1, this.2, List.append_assoc]
            exact ⟨rfl, rfl⟩
      · rw [wellMarked_cons_of_ne T _ hx] at hwm
        have := ih u w (by simp at hu; omega) hwm
        simp only [List.cons_append]
        rw [wellMarked_cons_of_ne T _ hx, expandMarkers_cons_of_ne T _ hx,
          expandMarkers_cons_of_ne T _ hx, this.1, this.2]
        exact ⟨rfl, rfl⟩

theorem wellMarked_append {u w : Str} (hu : wellMarked T u = true) :
    wellMarked T (u ++ w) = wellMarked T w :=
  (wellMarked_append_aux T u.length u w (Nat.le_refl _) hu).1

theorem expandMarkers_append {u w : Str} (hu : wellMarked T u = true) :
    expandMarkers T (u ++ w) = expandMarkers T u ++ expandMarkers T w :=
  (wellMarked_append_aux T u.length u w (Nat.le_refl _) hu).2

/-- An occurrence of a pattern that contains no `&` and does not begin with a letter of
the table, in a well marked string: the occurrence lies between markers. -/
theorem wellMarked_split_aux (p v : Str) (hp : '&' ∉ p) (hne : p ≠ [])
    (hhead : ∀ x, p.head? = some x → T.lookup x = none) (n : Nat) :
    ∀ u : Str, u.length ≤ n → wellMarked T (u ++ (p ++ v)) = true →
      wellMarked T u = true ∧ wellMarked T v = true := by
  induction n with
  | zero =>
    intro u hu h
    have : u = [] := List.length_eq_zero.1 (by omega)
    subst this
    rw [List.nil_append, wellMarked_literal T p v hp] at h
    exact ⟨rfl, h⟩
  | succ n ih =>
    intro u hu h
    cases u with
    | nil =>
      rw [List.nil_append, wellMarked_literal T p v hp] at h
      exact ⟨rfl, h⟩
    | cons x u =>
      by_cases hx : x = '&'
      · subst hx
        cases u with
        | nil =>
          cases p with
          | nil => exact absurd rfl hne
          | cons y p =>
            have hy : T.lookup y = none := hhead y rfl
            simp [wellMarked, hy] at h
        | cons l u =>
          cases hl : T.lookup l with
          | none => simp [wellMarked, hl] at h
          | some q =>
            simp only [List.cons_append] at h
            rw [wellMarked_marker T _ hl] at h
            rw [wellMarked_marker T _ hl]
            exact ih u (by simp at hu; omega) h
      · simp only [List.cons_append] at h
        rw [wellMarked_cons_of_ne T _ hx] at h
        rw [wellMarked_cons_of_ne T _ hx]
        exact ih u (by simp at hu; omega) h

theorem wellMarked_split {u p v : Str} (hp : '&' ∉ p) (hne : p ≠ [])
    (hhead : ∀ x, p.head? = some x → T.lookup x = none)
    (h : wellMarked T (u ++ (p ++ v)) = true) :
    wellMarked T u = true ∧ wellMarked T v = true :=
  wellMarked_split_aux T p v hp hne hhead u.length u (Nat.le_refl _) h

end Markers

/-! ## One substitution pass keeps the expansion -/

theorem find_append_left (done todo p : Str) :
    find (done ++ todo) p done.length = findAt p todo done.length := by
  simp [find]

theorem replaceLoop_resolvable (T : List (Char × Str)) (i : Nat) (p : Str)
    (h : Resolvable T (i, p)) :
    ∀ (fuel : Nat) (done todo : Str), todo.length < fuel →
      wellMarked T done = true → wellMarked T todo = true →
      ∃ r, replaceLoop fuel p ['&', code i] (done ++ todo) done.length = some r ∧
        wellMarked T r = true ∧ expandMarkers T r = expandMarkers T (done ++ todo) := by
  obtain ⟨hne, hamp, hhead, hlook⟩ := h
  simp only at hne hamp hhead hlook
  intro fuel
  induction fuel with
  | zero => intro done todo hlt; omega
  | succ fuel ih =>
    intro done todo hlt hdone htodo
    cases hf : findAt p todo done.length with
    | none =>
      refine ⟨done ++ todo, by simp [replaceLoop, find_append_left, hf], ?_, rfl⟩
      rw [wellMarked_append T hdone, htodo]
    | some q =>
      obtain ⟨j, hq, hle, hdec⟩ := findAt_some hf
      have hsplit : todo = todo.take j ++ (p ++ todo.drop (j + p.length)) := by
        rw [← List.append_assoc]; exact hdec
      have hjlen : (todo.take j).length = j := by
        rw [List.length_take]; omega
      have hplen : 1 ≤ p.length := List.length_pos.2 hne
      obtain ⟨hu, hv⟩ := wellMarked_split T hamp hne hhead (by rw [← hsplit]; exact htodo)
      have hmark : wellMarked T ['&', code i] = true := by
        rw [wellMarked_marker T [] hlook]; rfl
      have hdone' : wellMarked T (done ++ todo.take j ++ ['&', code i]) = true := by
        rw [List.append_assoc, wellMarked_append T hdone, wellMarked_append T hu, hmark]
      have hnew : replace (done ++ todo) q p.length ['&', code i] =
          (done ++ todo.take j ++ ['&', code i]) ++ todo.drop (j + p.length) := by
        unfold replace
        rw [hq, List.take_append, Nat.add_assoc, List.drop_append]
      have hpos : q + ['&', code i].length =
          (done ++ todo.take j ++ ['&', code i]).length := by
        simp only [List.length_append, hjlen, List.length_cons, List.length_nil]
        omega
      obtain ⟨r, hr, hwr, her⟩ := ih (done ++ todo.take j ++ ['&', code i])
        (todo.drop (j + p.length)) (by rw [List.length_drop]; omega) hdone' hv
      refine ⟨r, ?_, hwr, ?_⟩
      · simp only [replaceLoop, find_append_left, hf]
        rw [hnew, hpos]
        exact hr
      · rw [her, expandMarkers_append T hdone', List.append_assoc,
          expandMarkers_append T hdone, expandMarkers_append T hu,
          expandMarkers_marker T [] hlook]
        conv_rhs => rw [hsplit, expandMarkers_append T hdone, expandMarkers_append T hu,
          expandMarkers_literal T _ _ hamp]
        simp [expandMarkers]

theorem dictionaryLoop_resolvable (T : List (Char × Str)) :
    ∀ (ps : List Str) (i : Nat) (c d : Str),
      (∀ e ∈ (ps.take (26 - i)).enumFrom i, Resolvable T e) → wellMarked T c = true →
      ∃ fuel r, dictionaryLoop fuel ps i c d = some r ∧
        wellMarked T r.1 = true ∧ expandMarkers T r.1 = expandMarkers T c := by
  intro ps
  induction ps with
  | nil => intro i c d _ hc; exact ⟨0, (c, d), rfl, hc, rfl⟩
  | cons p ps ih =>
    intro i c d hres hc
    by_cases hi : i < 26
    · have e : 26 - i = (26 - (i + 1)) + 1 := by omega
      rw [e, List.take_succ_cons, List.enumFrom_cons] at hres
      obtain ⟨c', hc', hw', he'⟩ := replaceLoop_resolvable T i p (hres (i, p) (by simp))
        (c.length + 1) [] c (by omega) rfl hc
      simp only [List.nil_append, List.length_nil] at hc' he'
      obtain ⟨f2, r, hr, hwr, her⟩ := ih (i + 1) c' (d ++ [code i] ++ p ++ [';'])
        (fun q hq => hres q (List.mem_cons_of_mem _ hq)) hw'
      refine ⟨(c.length + 1) + f2, r, ?_, hwr, by rw [her, he']⟩
      simp only [dictionaryLoop, hi, if_true, replaceLoop_mono f2 hc']
      have := dictionaryLoop_mono (c.length + 1) hr
      rwa [Nat.add_comm] at this
    · exact ⟨0, (c, d), by simp [dictionaryLoop, hi], hc, rfl⟩

theorem wellMarked_of_no_marker (T : List (Char × Str)) (t : Str) (h : '&' ∉ t) :
    wellMarked T t = true ∧ expandMarkers T t = t := by
  have h1 := wellMarked_literal T t [] h
  have h2 := expandMarkers_literal T t [] h
  simp only [List.append_nil] at h1 h2
  exact ⟨by rw [h1]; rfl, by rw [h2]; simp [expandMarkers]⟩

/-! ## Reading the dictionary back -/

theorem splitEntries_entry (e rest : Str) (he : ';' ∉ e) :
    ∀ entry, splitEntries (e ++ ';' :: rest) entry = (entry ++ e) :: splitEntries rest [] := by
  induction e with
  | nil => intro entry; simp [splitEntries]
  | cons x e ih =>
    intro entry
    have hx : x ≠ ';' := fun h => he (by simp [h])
    simp only [List.cons_append, splitEntries, hx, if_false]
    show splitEntries (e ++ ';' :: rest) (entry ++ [x]) = _
    rw [ih (fun h => he (List.mem_cons_of_mem _ h))]
    simp

theorem parseDictionary_layout (L : List (Nat × Str))
    (hL : ∀ e ∈ L, ';' ∉ e.2 ∧ code e.1 ≠ ';') :
    parseDictionary (L.flatMap fun e => code e.1 :: (e.2 ++ [';'])) =
      L.map fun e => (code e.1, e.2) := by
  unfold parseDictionary
  induction L with
  | nil => simp [splitEntries]
  | cons e L ih =>
    have he := hL e (by simp)
    have hmem : ';' ∉ code e.1 :: e.2 := by
      intro h
      rcases List.mem_cons.1 h with h | h
      · exact he.2 h.symm
      · exact he.1 h
    have hsplit := splitEntries_entry (code e.1 :: e.2)
      (L.flatMap fun e => code e.1 :: (e.2 ++ [';'])) hmem []
    have hshape : (code e.1 :: (e.2 ++ [';'])) ++ (L.flatMap fun e => code e.1 :: (e.2 ++ [';']))
        = (code e.1 :: e.2) ++ ';' :: (L.flatMap fun e => code e.1 :: (e.2 ++ [';'])) := by
      simp
    rw [List.flatMap_cons, hshape, hsplit, List.filterMap_cons, List.map_cons]
    simp only [List.nil_append]
    rw [ih fun e' he' => hL e' (List.mem_cons_of_mem _ he')]

theorem lookup_of_mem {T : List (Char × Str)} (hnd : (T.map Prod.fst).Nodup)
    {k : Char} {v : Str} (h : (k, v) ∈ T) : T.lookup k = some v := by
  induction T with
  | nil => simp at h
  | cons e T ih =>
    obtain ⟨a, b⟩ := e
    rw [List.map_cons, List.nodup_cons] at hnd
    rcases List.mem_cons.1 h with heq | hmem
    · cases heq; simp
    · have hne : k ≠ a := by
        intro hk
        subst hk
        exact hnd.1 (List.mem_map.2 ⟨(k, v), hmem, rfl⟩)
      have hb : (k == a) = false := by simpa using hne
      rw [List.lookup_cons, hb]
      exact ih hnd.2 hmem

theorem lookup_eq_none {T : List (Char × Str)} {x : Char} (h : ∀ e ∈ T, e.1 ≠ x) :
    T.lookup x = none := by
  induction T with
  | nil => rfl
  | cons e T ih =>
    obtain ⟨a, b⟩ := e
    have hne : x ≠ a := fun hx => h (a, b) (by simp) hx.symm
    have hb : (x == a) = false := by simpa using hne
    rw [List.lookup_cons, hb]
    exact ih fun e he => h e (List.mem_cons_of_mem _ he)

theorem code_isLower : ∀ i, i < 26 → (code i).isLower = true := by decide

theorem code_ne_semicolon : ∀ i, i < 26 → code i ≠ ';' := by decide

/-- The table read back from the dictionary that the substituter writes. -/
theorem parseDictionary_dictionaryLayout (ps : List Str) (hps : ∀ p ∈ ps.take 26, ';' ∉ p) :
    parseDictionary (dictionaryLayout ps) = (ps.take 26).enum.map fun e => (code e.1, e.2) := by
  unfold dictionaryLayout
  apply parseDictionary_layout
  intro e he
  have hlt := List.fst_lt_of_mem_enum he
  rw [List.length_take] at hlt
  exact ⟨hps e.2 (List.snd_mem_of_mem_enum he), code_ne_semicolon e.1 (by omega)⟩

theorem table_keys_nodup (ps : List Str) :
    (((ps.take 26).enum.map fun e => (code e.1, e.2)).map Prod.fst).Nodup := by
  rw [List.map_map]
  have : (Prod.fst ∘ fun e : Nat × Str => (code e.1, e.2)) = code ∘ Prod.fst := rfl
  rw [this, ← List.map_map, List.enum_map_fst]
  exact codes_nodup _ (by rw [List.length_take]; omega)

/-! ## Claims on the dictionary round trip -/

theorem applyDictionaryCompression_fuel_unique {t : Str} {ps : List Str} {f₁ f₂ : Nat}
    {r₁ r₂ : Str × Str} (h₁ : applyDictionaryCompression f₁ t ps = some r₁)
    (h₂ : applyDictionaryCompression f₂ t ps = some r₂) : r₁ = r₂ := by
  have e₁ := dictionaryLoop_mono f₂ h₁
  have e₂ := dictionaryLoop_mono f₁ h₂
  rw [Nat.add_comm] at e₂
  rw [e₁] at e₂
  exact Option.some.inj e₂

/-- C2, counterexample: the text `XYZxyaxy` contains neither `&` nor `;` and the
patterns `XYZ` and `axy` are substrings of it of length 3. The first pass writes
`&axyaxy`; the second pass finds `axy` at the letter of the marker and writes `&&b&b`.
Replacing `&b` by `axy` (there is no other marker left) gives `&axyaxy`, not the text,
and so for every fuel with which the function returns. -/
theorem dictionary_roundtrip_counterexample :
    ('&' ∉ "XYZxyaxy".toList ∧ ';' ∉ "XYZxyaxy".toList) ∧
    (∀ p ∈ ["XYZ".toList, "axy".toList],
      3 ≤ p.length ∧ p.length ≤ 30 ∧ p <:+: "XYZxyaxy".toList) ∧
    applyDictionaryCompression 3 "XYZxyaxy".toList ["XYZ".toList, "axy".toList]
      = some ("&&b&b".toList, "aXYZ;baxy;".toList) ∧
    parseDictionary "aXYZ;baxy;".toList = [('a', "XYZ".toList), ('b', "axy".toList)] ∧
    expandMarkers (parseDictionary "aXYZ;baxy;".toList) "&&b&b".toList = "&axyaxy".toList ∧
    ∀ fuel c d,
      applyDictionaryCompression fuel "XYZxyaxy".toList ["XYZ".toList, "axy".toList]
        = some (c, d) →
      expandMarkers (parseDictionary d) c ≠ "XYZxyaxy".toList := by
  have hrun : applyDictionaryCompression 3 "XYZxyaxy".toList ["XYZ".toList, "axy".toList]
      = some ("&&b&b".toList, "aXYZ;baxy;".toList) := by decide
  refine ⟨by decide, ?_, hrun, by decide, by decide, ?_⟩
  · intro p hp
    simp only [List.mem_cons, List.mem_singleton, List.not_mem_nil, or_false] at hp
    rcases hp with rfl | rfl
    · exact ⟨by decide, by decide, [], "xyaxy".toList, by decide⟩
    · exact ⟨by decide, by decide, "XYZxy".toList, [], by decide⟩
  · intro fuel c d h
    have := applyDictionaryCompression_fuel_unique h hrun
    cases this
    decide

/-! ## Stage 3: the ranker -/

theorem comp_eq_true_iff (a b : Str × Int) :
    comp a b = true ↔ savings a > savings b ∨ (savings a = savings b ∧ a.2 > b.2) := by
  unfold comp
  by_cases h : savings a = savings b
  · rw [if_neg (not_not.2 h), decide_eq_true_eq]
    omega
  · rw [if_pos h, decide_eq_true_eq]
    omega

theorem comp_eq_false_iff (a b : Str × Int) :
    comp a b = false ↔ savings a < savings b ∨ (savings a = savings b ∧ a.2 ≤ b.2) := by
  rw [← Bool.not_eq_true, comp_eq_true_iff]
  omega

theorem comp_irrefl (a : Str × Int) : comp a a = false := by
  rw [comp_eq_false_iff]; omega

theorem comp_total (a b : Str × Int) : comp b a = false ∨ comp a b = false := by
  rw [comp_eq_false_iff, comp_eq_false_iff]; omega

theorem comp_trans {a b c : Str × Int} (h₁ : comp b a = false) (h₂ : comp c b = false) :
    comp c a = false := by
  rw [comp_eq_false_iff] at *; omega

/-- The result of `sortPatterns` holds the entries of the map, each as often as the
map does. -/
theorem sortPatterns_perm (m : PatternMap) : (sortPatterns m).Perm m :=
  List.perm_insertionSort _ m

/-- The result of `sortPatterns` is sorted for the comparator: no entry has to come
before an entry that precedes it. -/
theorem sortPatterns_sorted (m : PatternMap) :
    (sortPatterns m).Pairwise fun a b => comp b a = false := by
  haveI : IsTotal (Str × Int) (fun a b => comp b a = false) := ⟨fun a b => comp_total a b⟩
  haveI : IsTrans (Str × Int) (fun a b => comp b a = false) := ⟨fun _ _ _ h₁ h₂ => comp_trans h₁ h₂⟩
  exact List.sorted_insertionSort (fun a b => comp b a = false) m

theorem savings_eq_wrap (a : Str × Int) : savings a = wrapInt32 (savingsSpec a) := by
  have h64 : ((((a.1.length : Int) * toSizeT a.2) % 2 ^ 64 - ((a.1.length : Int) + 2)) % 2 ^ 64)
      ≡ savingsSpec a [ZMOD 2 ^ 64] := by
    unfold toSizeT savingsSpec
    exact (Int.mod_modEq _ _).trans
      ((((Int.mod_modEq _ _).trans ((Int.mod_modEq a.2 _).mul_left _))).sub_right _)
  have h32 := (Int.ModEq.of_dvd (show (2 : Int) ^ 32 ∣ 2 ^ 64 from ⟨2 ^ 32, by norm_num⟩)
    h64).add_right (2 ^ 31)
  unfold savings wrapInt32
  rw [h32]

/-- As long as the score fits in an `int`, the comparator computes the score of the
specification. -/
theorem savings_eq_savingsSpec (a : Str × Int)
    (h : -2 ^ 31 ≤ savingsSpec a ∧ savingsSpec a < 2 ^ 31) : savings a = savingsSpec a := by
  rw [savings_eq_wrap]
  unfold wrapInt32
  omega

/-- For a map all of whose scores fit in an `int`, the result of `sortPatterns` is in
the order of the specification: scores do not increase, and among equal scores the
counts do not increase. -/
theorem sortPatterns_ranked (m : PatternMap)
    (hm : ∀ e ∈ m, -2 ^ 31 ≤ savingsSpec e ∧ savingsSpec e < 2 ^ 31) :
    (sortPatterns m).Pairwise fun x y =>
      savingsSpec x ≥ savingsSpec y ∧ (savingsSpec x = savingsSpec y → x.2 ≥ y.2) := by
  have hs := sortPatterns_sorted m
  have hmem : ∀ e ∈ sortPatterns m, e ∈ m := fun e he => (sortPatterns_perm m).mem_iff.1 he
  refine List.Pairwise.imp_of_mem ?_ hs
  intro x y hx hy hxy
  rw [comp_eq_false_iff, savings_eq_savingsSpec x (hm x (hmem x hx)),
    savings_eq_savingsSpec y (hm y (hmem y hy))] at hxy
  omega

/-- C6, the code at the failing input: the map holds the 30 characters `abab...ab`
with count 71582790 and `abc` with count 1. The score of the first entry,
`30 * 71582790 - 32 = 2147483668`, does not fit in the `int` of the comparator and
becomes `-2147483628`; `sortPatterns` puts `abc` (score `-2`) in front of it, although
the score of the specification of `abc` is the smaller one. -/
theorem sortPatterns_overflow :
    KeysSorted [("ababababababababababababababab".toList, 71582790), ("abc".toList, 1)] ∧
    sortPatterns [("ababababababababababababababab".toList, 71582790), ("abc".toList, 1)]
      = [("abc".toList, 1), ("ababababababababababababababab".toList, 71582790)] ∧
    savings ("ababababababababababababababab".toList, 71582790) = -2147483628 ∧
    savings ("abc".toList, 1) = -2 ∧
    savingsSpec ("ababababababababababababababab".toList, 71582790) = 2147483668 ∧
    savingsSpec ("abc".toList, 1) = -2 ∧
    ¬ (savingsSpec ("abc".toList, 1)
        ≥ savingsSpec ("ababababababababababababababab".toList, 71582790)) := by
  refine ⟨by simp [KeysSorted]; decide, by decide, by decide, by decide, by decide, by decide,
    by decide⟩

/-! ## Sorted permutations of the entries -/

/-- An entry that the comparator puts before every other entry is the first one of
every sorted arrangement. -/
theorem head_of_sorted_perm {E sp : List (Str × Int)} {top : Str × Int}
    (hperm : sp.Perm E) (hs : sp.Pairwise fun a b => comp b a = false)
    (htop : top ∈ E) (hmax : ∀ e ∈ E, e ≠ top → comp top e = true) :
    ∃ sp', sp = top :: sp' := by
  cases sp with
  | nil => exact absurd (hperm.mem_iff.2 htop) (List.not_mem_nil _)
  | cons h sp' =>
    by_cases hh : h = top
    · exact ⟨sp', by rw [hh]⟩
    · have hmem : top ∈ sp' := by
        rcases List.mem_cons.1 (hperm.mem_iff.2 htop) with h' | h'
        · exact absurd h'.symm hh
        · exact h'
      have h1 := (List.pairwise_cons.1 hs).1 top hmem
      have h2 := hmax h (hperm.mem_iff.1 (by simp)) hh
      rw [h1] at h2
      exact Bool.noConfusion h2

/-- An entry that at least `n` entries have to precede is not among the first `n`
entries of a sorted arrangement. -/
theorem not_mem_take_of_countP {E sp : List (Str × Int)} {e : Str × Int} {n : Nat}
    (hperm : sp.Perm E) (hs : sp.Pairwise fun a b => comp b a = false)
    (hcount : n ≤ E.countP fun x => comp x e) : e ∉ sp.take n := by
  intro hmem
  rw [← List.take_append_drop n sp, List.pairwise_append] at hs
  have hdrop : (sp.drop n).countP (fun x => comp x e) = 0 := by
    rw [List.countP_eq_zero]
    intro x hx
    rw [hs.2.2 e hmem x hx]
    exact Bool.noConfusion
  have htake : (sp.take n).countP (fun x => comp x e) < (sp.take n).length := by
    rw [List.countP_eq_length_filter, List.length_filter_lt_length_iff_exists]
    exact ⟨e, hmem, by rw [comp_irrefl]; exact Bool.noConfusion⟩
  have hsum : sp.countP (fun x => comp x e) =
      (sp.take n).countP (fun x => comp x e) + (sp.drop n).countP (fun x => comp x e) := by
    rw [← List.countP_append, List.take_append_drop]
  have hE := hperm.countP_eq fun x => comp x e
  have hlen : (sp.take n).length ≤ n := by rw [List.length_take]; omega
  omega

/-! ## Passes for patterns that do not occur -/

theorem replaceLoop_of_find_none {p marker c : Str} (fuel : Nat) (h : find c p 0 = none) :
    replaceLoop (fuel + 1) p marker c 0 = some c := by
  simp [replaceLoop, h]

theorem dictionaryLoop_of_absent (fuel : Nat) :
    ∀ (ps : List Str) (i : Nat) (c d : Str), (∀ p ∈ ps.take (26 - i), find c p 0 = none) →
      ∃ d', dictionaryLoop (fuel + 1) ps i c d = some (c, d') := by
  intro ps
  induction ps with
  | nil => intro i c d _; exact ⟨d, rfl⟩
  | cons p ps ih =>
    intro i c d h
    by_cases hi : i < 26
    · have e : 26 - i = (26 - (i + 1)) + 1 := by omega
      rw [e, List.take_succ_cons] at h
      obtain ⟨d', hd'⟩ := ih (i + 1) c (d ++ [code i] ++ p ++ [';'])
        (fun q hq => h q (List.mem_cons_of_mem _ hq))
      refine ⟨d', ?_⟩
      simp only [dictionaryLoop, hi, if_true, replaceLoop_of_find_none fuel (h p (by simp))]
      exact hd'
    · exact ⟨d, by simp [dictionaryLoop, hi]⟩

/-! ## The scenario of the specification -/

theorem compressText_scenario : compressText scenarioContent = scenarioRle := by decide

set_option maxRecDepth 100000 in
/-- Facts on the entries of the scenario, by evaluation: `10@` has to come before every
other entry, `@a10@b10@c10` before every entry but `10@`, and every other entry whose
pattern occurs in the text rewritten by the first pass has at least 26 entries that
have to come before it. -/
theorem scenario_entries_facts :
    ((countPatterns scenarioRle 3).all fun e =>
      (decide (e = scenarioFirst) || comp scenarioFirst e) &&
      (decide (e = scenarioFirst) || decide (e = scenarioSecond) || comp scenarioSecond e) &&
      (decide (e = scenarioFirst) || (find scenarioCompressed e.1 0).isNone ||
        decide (26 ≤ (countPatterns scenarioRle 3).countP fun x => comp x e))) = true ∧
    scenarioFirst ∈ countPatterns scenarioRle 3 ∧
    scenarioSecond ∈ countPatterns scenarioRle 3 ∧
    50 ≤ (countPatterns scenarioRle 3).length := by
  decide!

theorem scenario_first_pass (fuel : Nat) (h : 6 ≤ fuel) :
    replaceLoop fuel scenarioFirst.1 ['&', code 0] scenarioRle 0 = some scenarioCompressed := by
  have h6 : replaceLoop 6 scenarioFirst.1 ['&', code 0] scenarioRle 0
      = some scenarioCompressed := by decide!
  have := replaceLoop_mono (fuel - 6) h6
  rwa [show 6 + (fuel - 6) = fuel by omega] at this

/-- The scenario for every order that `std::sort` may produce: whatever the order of
the entries that the comparator does not separate, the substitution returns the text
`@a&ab&ac&aa&ab&ac10` and the dictionary of the 50 retained patterns, which begins with
the entries of `10@` and of `@a10@b10@c10`. -/
theorem scenario_substituteTop (sp : List (Str × Int))
    (hperm : sp.Perm (findFrequentPatterns scenarioRle 3 0))
    (hs : sp.Pairwise fun a b => comp b a = false) (fuel : Nat) (hfuel : 6 ≤ fuel) :
    ((sp.take 50).map Prod.fst).length = 50 ∧
    substituteTop fuel scenarioRle sp
      = some (scenarioCompressed, dictionaryLayout ((sp.take 50).map Prod.fst)) ∧
    "a10@;b@a10@b10@c10;".toList <+: dictionaryLayout ((sp.take 50).map Prod.fst) := by
  rw [findFrequentPatterns_zero] at hperm
  obtain ⟨hall, hfirst', hsecond', hlen⟩ := scenario_entries_facts
  rw [List.all_eq_true] at hall
  have hnd : (countPatterns scenarioRle 3).Nodup :=
    (keysSorted_nodup (countPatterns_sorted scenarioRle 3)).of_map
  have hndsp : sp.Nodup := hperm.nodup_iff.2 hnd
  have hsplen : sp.length = (countPatterns scenarioRle 3).length := hperm.length_eq
  have hF1 : ∀ e ∈ countPatterns scenarioRle 3, e ≠ scenarioFirst →
      comp scenarioFirst e = true := by
    intro e he hne
    have := hall e he
    simp only [Bool.and_eq_true, Bool.or_eq_true, decide_eq_true_eq] at this
    exact this.1.1.resolve_left hne
  have hF2 : ∀ e ∈ countPatterns scenarioRle 3, e ≠ scenarioFirst → e ≠ scenarioSecond →
      comp scenarioSecond e = true := by
    intro e he hne hne2
    have := hall e he
    simp only [Bool.and_eq_true, Bool.or_eq_true, decide_eq_true_eq] at this
    rcases this.1.2 with (h | h) | h
    · exact absurd h hne
    · exact absurd h hne2
    · exact h
  have hF3 : ∀ e ∈ countPatterns scenarioRle 3, e ≠ scenarioFirst →
      find scenarioCompressed e.1 0 = none ∨
        26 ≤ (countPatterns scenarioRle 3).countP fun x => comp x e := by
    intro e he hne
    have := hall e he
    simp only [Bool.and_eq_true, Bool.or_eq_true, Option.isNone_iff_eq_none,
      decide_eq_true_eq] at this
    rcases this.2 with (h | h) | h
    · exact absurd h hne
    · exact Or.inl h
    · exact Or.inr h
  obtain ⟨sp', hsp⟩ := head_of_sorted_perm hperm hs hfirst' hF1
  subst hsp
  have hs' := (List.pairwise_cons.1 hs).2
  have hne21 : scenarioSecond ≠ scenarioFirst := by decide
  have hmem' : ∀ e ∈ sp', e ∈ countPatterns scenarioRle 3 ∧ e ≠ scenarioFirst := by
    intro e he
    refine ⟨hperm.mem_iff.1 (List.mem_cons_of_mem _ he), ?_⟩
    intro h
    rw [h] at he
    exact (List.nodup_cons.1 hndsp).1 he
  have hsecond'' : scenarioSecond ∈ sp' := by
    rcases List.mem_cons.1 (hperm.mem_iff.2 hsecond') with h | h
    · exact absurd h hne21
    · exact h
  obtain ⟨sp'', hsp'⟩ := head_of_sorted_perm (List.Perm.refl sp') hs' hsecond''
    (fun e he hne => hF2 e (hmem' e he).1 (hmem' e he).2 hne)
  have habsent : ∀ p ∈ (((sp'.take 49).map Prod.fst)).take (26 - 1),
      find scenarioCompressed p 0 = none := by
    intro p hp
    rw [← List.map_take, List.take_take] at hp
    obtain ⟨e, he, rfl⟩ := List.mem_map.1 hp
    have he25 : e ∈ sp'.take 25 := he
    have hesp' : e ∈ sp' := List.mem_of_mem_take he25
    rcases hF3 e (hmem' e hesp').1 (hmem' e hesp').2 with h | h
    · exact h
    · have hnot := not_mem_take_of_countP hperm hs h
      exact absurd (by rw [List.take_succ_cons]; exact List.mem_cons_of_mem _ he25) hnot
  have hlen50 : (((scenarioFirst :: sp').take 50).map Prod.fst).length = 50 := by
    rw [List.length_map, List.length_take]
    omega
  obtain ⟨d', hd'⟩ := dictionaryLoop_of_absent (fuel - 1) ((sp'.take 49).map Prod.fst) 1
    scenarioCompressed ([] ++ [code 0] ++ scenarioFirst.1 ++ [';']) habsent
  have hrun : substituteTop fuel scenarioRle (scenarioFirst :: sp') =
      some (scenarioCompressed, d') := by
    unfold substituteTop applyDictionaryCompression
    rw [List.take_succ_cons, List.map_cons]
    simp only [dictionaryLoop, show (0 : Nat) < 26 by omega, if_true,
      scenario_first_pass fuel hfuel]
    rw [show fuel - 1 + 1 = fuel by omega] at hd'
    exact hd'
  have hdict := applyDictionaryCompression_dictionary hrun
  simp only at hdict
  refine ⟨hlen50, by rw [hrun, hdict], ?_⟩
  rw [hsp']
  simp only [List.take_succ_cons, List.map_cons, dictionaryLayout, List.enum,
    List.enumFrom_cons, List.flatMap_cons]
  exact ⟨_, rfl⟩

theorem scenario_main (fuel : Nat) (hfuel : 6 ≤ fuel) :
    ∃ ps : List Str, ps.length = 50 ∧
      main fuel scenarioContent = some (scenarioCompressed, dictionaryLayout ps) ∧
      "a10@;b@a10@b10@c10;".toList <+: dictionaryLayout ps ∧
      dictionaryLayout ps =
        (List.range 26).flatMap (fun i => code i :: (ps.getD i [] ++ [';'])) := by
  obtain ⟨hlen, hrun, hpre⟩ := scenario_substituteTop
    (sortPatterns (findFrequentPatterns scenarioRle 3 0)) (sortPatterns_perm _)
    (sortPatterns_sorted _) fuel hfuel
  refine ⟨_, hlen, ?_, hpre, ?_⟩
  · unfold main
    rw [compressText_scenario]
    exact hrun
  · rw [dictionaryLayout_eq_range, hlen]
    rfl

/-- C7, counterexample: on the content of the scenario `main` returns the text
`@a&ab&ac&aa&ab&ac10`, and with no fuel the pair of the text `&a&a` and of the
dictionary `a@a10@b10@c10;`. -/
theorem scenario_counterexample :
    (∃ d, main 6 scenarioContent = some ("@a&ab&ac&aa&ab&ac10".toList, d)) ∧
    ¬ ∃ fuel, main fuel scenarioContent = some ("&a&a".toList, "a@a10@b10@c10;".toList) := by
  constructor
  · obtain ⟨ps, _, h, _⟩ := scenario_main 6 (Nat.le_refl _)
    exact ⟨_, h⟩
  · rintro ⟨fuel, h⟩
    obtain ⟨ps, _, h', _⟩ := scenario_main (fuel + 6) (by omega)
    have h6 : main (fuel + 6) scenarioContent
        = some ("&a&a".toList, "a@a10@b10@c10;".toList) := dictionaryLoop_mono 6 h
    rw [h6] at h'
    have hfst : "&a&a".toList = scenarioCompressed := congrArg Prod.fst (Option.some.inj h')
    revert hfst
    decide

/-- C7, amended: on the content of the scenario the run-length encoding is
`@a10@b10@c10@a10@b10@c10`, and the pipeline of `main` (with fuel 6 or more) returns
the compressed text `@a&ab&ac&aa&ab&ac10` and a dictionary of 26 entries, one for each
of the first 26 of the 50 retained patterns, that begins with `a10@;b@a10@b10@c10;`.
The same holds for every order in which the sort may leave the entries that the
comparator does not separate (every sorted permutation of the scanner result). -/
theorem scenario_result :
    compressText scenarioContent = "@a10@b10@c10@a10@b10@c10".toList ∧
    (∀ fuel, 6 ≤ fuel → ∃ ps : List Str, ps.length = 50 ∧
      main fuel scenarioContent
        = some ("@a&ab&ac&aa&ab&ac10".toList, dictionaryLayout ps) ∧
      "a10@;b@a10@b10@c10;".toList <+: dictionaryLayout ps ∧
      dictionaryLayout ps =
        (List.range 26).flatMap (fun i => code i :: (ps.getD i [] ++ [';']))) ∧
    (∀ sp : List (Str × Int),
      sp.Perm (findFrequentPatterns (compressText scenarioContent) 3 0) →
      (sp.Pairwise fun a b => comp b a = false) → ∀ fuel, 6 ≤ fuel →
      ((sp.take 50).map Prod.fst).length = 50 ∧
      substituteTop fuel (compressText scenarioContent) sp
        = some ("@a&ab&ac&aa&ab&ac10".toList, dictionaryLayout ((sp.take 50).map Prod.fst)) ∧
      "a10@;b@a10@b10@c10;".toList <+: dictionaryLayout ((sp.take 50).map Prod.fst)) := by
  refine ⟨compressText_scenario, scenario_main, ?_⟩
  intro sp hperm hs fuel hfuel
  rw [compressText_scenario] at hperm ⊢
  exact scenario_substituteTop sp hperm hs fuel hfuel

theorem scenario_result_witness :
    (6 ≤ 6) ∧ ∃ ps : List Str, ps.length = 50 ∧
      main 6 scenarioContent = some ("@a&ab&ac&aa&ab&ac10".toList, dictionaryLayout ps) ∧
      "a10@;b@a10@b10@c10;".toList <+: dictionaryLayout ps ∧
      dictionaryLayout ps =
        (List.range 26).flatMap (fun i => code i :: (ps.getD i [] ++ [';'])) :=
  ⟨Nat.le_refl 6, scenario_result.2.1 6 (Nat.le_refl 6)⟩

/-! ## The replacement loop and the pass of the specification -/

theorem replaceAllGo_nil (p m : Str) (skip : Nat) : replaceAllGo p m skip [] = [] := by
  cases skip <;> rfl

theorem replaceAllGo_skip (p m : Str) :
    ∀ (s : Str) (skip : Nat), replaceAllGo p m skip s = replaceAllGo p m 0 (s.drop skip) := by
  intro s
  induction s with
  | nil => intro skip; simp [replaceAllGo_nil]
  | cons c rest ih =>
    intro skip
    cases skip with
    | zero => rfl
    | succ k => simp only [replaceAllGo, List.drop_succ_cons]; exact ih k

theorem replaceAll_nil (p m : Str) : replaceAll p m [] = [] := rfl

theorem replaceAll_cons (p m : Str) (hp : p ≠ []) (c : Char) (rest : Str) :
    replaceAll p m (c :: rest) =
      if p <+: c :: rest then m ++ replaceAll p m ((c :: rest).drop p.length)
      else c :: replaceAll p m rest := by
  obtain ⟨n, hn⟩ : ∃ n, p.length = n + 1 :=
    ⟨p.length - 1, by have := List.length_pos.2 hp; omega⟩
  unfold replaceAll
  by_cases h : p <+: c :: rest
  · have hb : p.isPrefixOf (c :: rest) = true := List.isPrefixOf_iff_prefix.2 h
    rw [if_pos h]
    simp only [replaceAllGo, hb, if_true]
    rw [replaceAllGo_skip, hn]
    simp
  · have hb : p.isPrefixOf (c :: rest) = false :=
      Bool.eq_false_iff.2 fun hb => h (List.isPrefixOf_iff_prefix.1 hb)
    rw [if_neg h]
    simp [replaceAllGo, hb]

theorem replaceAll_of_findAt_none {p : Str} (m : Str) (hp : p ≠ []) :
    ∀ {s : Str} {k : Nat}, findAt p s k = none → replaceAll p m s = s
  | [], _, _ => rfl
  | c :: rest, k, h => by
    by_cases hpre : p.isPrefixOf (c :: rest) = true
    · simp [findAt, hpre] at h
    · simp only [findAt, hpre, if_false] at h
      have hn : ¬ p <+: c :: rest := fun hh => hpre (List.isPrefixOf_iff_prefix.2 hh)
      rw [replaceAll_cons p m hp, if_neg hn, replaceAll_of_findAt_none m hp h]

theorem replaceAll_of_findAt_some {p : Str} (m : Str) (hp : p ≠ []) :
    ∀ {s : Str} {k q : Nat}, findAt p s k = some q →
      ∃ j, q = k + j ∧ j + p.length ≤ s.length ∧
        replaceAll p m s = s.take j ++ m ++ replaceAll p m (s.drop (j + p.length))
  | [], k, q, h => by simp [findAt, hp] at h
  | c :: rest, k, q, h => by
    by_cases hpre : p.isPrefixOf (c :: rest) = true
    · simp only [findAt, hpre, if_true, Option.some.injEq] at h
      have hh : p <+: c :: rest := List.isPrefixOf_iff_prefix.1 hpre
      refine ⟨0, by omega, by simpa using hh.length_le, ?_⟩
      rw [replaceAll_cons p m hp, if_pos hh]
      simp
    · simp only [findAt, hpre, if_false] at h
      have hn : ¬ p <+: c :: rest := fun hh => hpre (List.isPrefixOf_iff_prefix.2 hh)
      obtain ⟨j, hq, hle, hr⟩ := replaceAll_of_findAt_some m hp h
      refine ⟨j + 1, by omega, by simp; omega, ?_⟩
      rw [replaceAll_cons p m hp, if_neg hn, hr]
      have : j + 1 + p.length = (j + p.length) + 1 := by omega
      rw [this, List.take_succ_cons, List.drop_succ_cons]
      simp

/-- From the cursor on, the replacement loop computes the pass of the specification
on the part of the string behind the cursor. -/
theorem replaceLoop_eq_replaceAll (p m : Str) (hp : p ≠ []) :
    ∀ (fuel : Nat) (done todo : Str), todo.length < fuel →
      replaceLoop fuel p m (done ++ todo) done.length = some (done ++ replaceAll p m todo) := by
  have hplen : 1 ≤ p.length := List.length_pos.2 hp
  intro fuel
  induction fuel with
  | zero => intro done todo h; omega
  | succ fuel ih =>
    intro done todo hlt
    cases hf : findAt p todo done.length with
    | none =>
      simp only [replaceLoop, find_append_left, hf]
      rw [replaceAll_of_findAt_none m hp hf]
    | some q =>
      obtain ⟨j, hq, hle, hr⟩ := replaceAll_of_findAt_some m hp hf
      have hjlen : (todo.take j).length = j := by rw [List.length_take]; omega
      have hnew : replace (done ++ todo) q p.length m =
          (done ++ todo.take j ++ m) ++ todo.drop (j + p.length) := by
        unfold replace
        rw [hq, List.take_append, Nat.add_assoc, List.drop_append]
      have hpos : q + m.length = (done ++ todo.take j ++ m).length := by
        simp only [List.length_append, hjlen]
        omega
      simp only [replaceLoop, find_append_left, hf]
      rw [hnew, hpos, ih _ _ (by rw [List.length_drop]; omega), hr]
      simp

theorem replaceLoop_fuel_unique {p m s : Str} {pos f₁ f₂ : Nat} {r₁ r₂ : Str}
    (h₁ : replaceLoop f₁ p m s pos = some r₁) (h₂ : replaceLoop f₂ p m s pos = some r₂) :
    r₁ = r₂ := by
  have e₁ := replaceLoop_mono f₂ h₁
  have e₂ := replaceLoop_mono f₁ h₂
  rw [Nat.add_comm] at e₂
  rw [e₁] at e₂
  exact Option.some.inj e₂

theorem replaceLoop_result {p m s : Str} {fuel : Nat} {r : Str} (hp : p ≠ [])
    (h : replaceLoop fuel p m s 0 = some r) : r = replaceAll p m s := by
  have := replaceLoop_eq_replaceAll p m hp (s.length + 1) [] s (by omega)
  simp only [List.nil_append, List.length_nil] at this
  exact replaceLoop_fuel_unique h this

theorem dictionaryLoop_result {fuel : Nat} :
    ∀ {ps : List Str} {i : Nat} {c d : Str} {r : Str × Str},
      (∀ p ∈ ps.take (26 - i), p ≠ []) → dictionaryLoop fuel ps i c d = some r →
      r.1 = ((ps.take (26 - i)).enumFrom i).foldl
        (fun s e => replaceAll e.2 ['&', code e.1] s) c := by
  intro ps
  induction ps with
  | nil => intro i c d r _ h; simp [dictionaryLoop] at h; simp [← h]
  | cons p ps ih =>
    intro i c d r hne h
    by_cases hi : i < 26
    · have e : 26 - i = (26 - (i + 1)) + 1 := by omega
      rw [e, List.take_succ_cons] at hne
      simp only [dictionaryLoop, hi, if_true] at h
      cases hl : replaceLoop fuel p ['&', code i] c 0 with
      | none => rw [hl] at h; exact Option.noConfusion h
      | some c' =>
        rw [hl] at h
        rw [ih (fun q hq => hne q (List.mem_cons_of_mem _ hq)) h, e, List.take_succ_cons,
          List.enumFrom_cons, List.foldl_cons, replaceLoop_result (hne p (by simp)) hl]
    · simp only [dictionaryLoop, hi, if_false, Option.some.injEq] at h
      have e : 26 - i = 0 := by omega
      simp [← h, e]

theorem applyDictionaryCompression_result {fuel : Nat} {t : Str} {ps : List Str}
    {r : Str × Str} (hne : ∀ p ∈ ps.take 26, p ≠ [])
    (h : applyDictionaryCompression fuel t ps = some r) :
    r = (substituteAll t ps, dictionaryLayout ps) := by
  have h1 : r.1 = substituteAll t ps := dictionaryLoop_result hne h
  have h2 := applyDictionaryCompression_dictionary h
  exact Prod.ext h1 h2

/-- C11: for every text `t` and every list `ps` of non-empty patterns,
`applyDictionaryCompression` returns (with enough fuel), and the string it returns is
the result of the passes of the specification for the first 26 patterns in order,
starting from `t`: pass `i` scans the string as it stood before the pass from left to
right and replaces every occurrence of `ps[i]` that does not overlap an occurrence
already replaced by `&` and the letter `i`; the search goes on behind the occurrence,
so the text inserted is not scanned again in the pass. -/
theorem sequential_substitution (t : Str) (ps : List Str) (hne : ∀ p ∈ ps, p ≠ []) :
    (∃ fuel, applyDictionaryCompression fuel t ps
      = some (substituteAll t ps, dictionaryLayout ps)) ∧
    (∀ fuel r, applyDictionaryCompression fuel t ps = some r → r.1 = substituteAll t ps) ∧
    substituteAll t ps =
      (ps.take 26).enum.foldl (fun s e => replaceAll e.2 ['&', code e.1] s) t ∧
    (∀ p m : Str, p ≠ [] → replaceAll p m [] = [] ∧
      ∀ c rest, replaceAll p m (c :: rest) =
        if p <+: c :: rest then m ++ replaceAll p m ((c :: rest).drop p.length)
        else c :: replaceAll p m rest) := by
  have hne' : ∀ p ∈ ps.take 26, p ≠ [] := fun p hp => hne p (List.mem_of_mem_take hp)
  refine ⟨?_, ?_, rfl, fun p m hp => ⟨rfl, replaceAll_cons p m hp⟩⟩
  · obtain ⟨fuel, c, hc⟩ := applyDictionaryCompression_terminates t ps hne'
    refine ⟨fuel, ?_⟩
    rw [hc, applyDictionaryCompression_result hne' hc]
  · intro fuel r h
    rw [applyDictionaryCompression_result hne' h]

theorem sequential_substitution_witness :
    (∀ p ∈ ["aa".toList, "&a&".toList], p ≠ []) ∧
    substituteAll "aaaaaXaa".toList ["aa".toList, "&a&".toList] = "&baaX&a".toList ∧
    applyDictionaryCompression 4 "aaaaaXaa".toList ["aa".toList, "&a&".toList]
      = some ("&baaX&a".toList, "aaa;b&a&;".toList) ∧
    ∃ fuel, applyDictionaryCompression fuel "aaaaaXaa".toList ["aa".toList, "&a&".toList]
      = some (substituteAll "aaaaaXaa".toList ["aa".toList, "&a&".toList],
          dictionaryLayout ["aa".toList, "&a&".toList]) :=
  ⟨by decide, by decide, by decide,
    (sequential_substitution "aaaaaXaa".toList ["aa".toList, "&a&".toList] (by decide)).1⟩
/-! ## What lies before the cursor is not matched again -/

theorem replaceLoop_take {p m : Str} :
    ∀ {fuel : Nat} {s : Str} {pos : Nat} {r : Str},
      replaceLoop fuel p m s pos = some r → r.take pos = s.take pos := by
  intro fuel
  induction fuel with
  | zero => intro s pos r h; simp [replaceLoop] at h
  | succ fuel ih =>
    intro s pos r h
    cases hf : find s p pos with
    | none =>
      simp only [replaceLoop, hf, Option.some.injEq] at h
      rw [h]
    | some q =>
      obtain ⟨hq, hqs, _⟩ := find_some hf
      simp only [replaceLoop, hf] at h
      have h1 := ih h
      have h2 := congrArg (List.take pos) h1
      rw [List.take_take, List.take_take, Nat.min_eq_left (by omega)] at h2
      rw [h2]
      unfold replace
      rw [List.append_assoc, List.take_append_of_le_length (by rw [List.length_take]; omega),
        List.take_take, Nat.min_eq_left hq]

theorem replaceLoop_keeps_marker {p m s : Str} {fuel pos q : Nat} {r : Str}
    (hf : find s p pos = some q)
    (h : replaceLoop fuel p m (replace s q p.length m) (q + m.length) = some r) :
    r.take (q + m.length) = s.take q ++ m := by
  obtain ⟨_, hqs, _⟩ := find_some hf
  rw [replaceLoop_take h]
  unfold replace
  have hlen : (s.take q ++ m).length = q + m.length := by
    rw [List.length_append, List.length_take]; omega
  rw [← hlen, List.take_left']
  rfl

/-! ## The passes on tokens -/

theorem render_map_lit (t : Str) : render (t.map Token.lit) = t := by
  induction t with
  | nil => rfl
  | cons c t ih => simp [render, ih]

theorem tokenPassGo_nil (p : Str) (i skip : Nat) : tokenPassGo p i skip [] = [] := by
  cases skip <;> rfl

theorem tokenPassGo_skip (p : Str) (i : Nat) :
    ∀ (ts : List Token) (skip : Nat),
      tokenPassGo p i skip ts = tokenPassGo p i 0 (ts.drop skip) := by
  intro ts
  induction ts with
  | nil => intro skip; simp [tokenPassGo_nil]
  | cons tk ts ih =>
    intro skip
    cases skip with
    | zero => rfl
    | succ k => simp only [tokenPassGo, List.drop_succ_cons]; exact ih k

theorem tokenPass_cons (p : Str) (i : Nat) (hp : p ≠ []) (tk : Token) (ts : List Token) :
    tokenPass p i (tk :: ts) =
      if litPrefix p (tk :: ts) = true then
        Token.mark i :: tokenPass p i ((tk :: ts).drop p.length)
      else tk :: tokenPass p i ts := by
  obtain ⟨n, hn⟩ : ∃ n, p.length = n + 1 :=
    ⟨p.length - 1, by have := List.length_pos.2 hp; omega⟩
  unfold tokenPass
  cases h : litPrefix p (tk :: ts)
  · simp [tokenPassGo, h]
  · simp only [tokenPassGo, h, if_true]
    rw [tokenPassGo_skip, hn]
    simp

theorem litPrefix_iff_render : ∀ (p : Str) (ts : List Token), '&' ∉ p →
    (litPrefix p ts = true ↔ p <+: render ts)
  | [], ts, _ => by simp [litPrefix]
  | c :: p, [], _ => by simp [litPrefix, render]
  | c :: p, Token.mark j :: ts, h => by
    have hc : c ≠ '&' := fun e => h (by simp [e])
    simp [litPrefix, render, List.cons_prefix_cons, hc]
  | c :: p, Token.lit d :: ts, h => by
    have hp : '&' ∉ p := fun e => h (List.mem_cons_of_mem _ e)
    simp [litPrefix, render, List.cons_prefix_cons, litPrefix_iff_render p ts hp]

theorem render_drop_of_litPrefix : ∀ (p : Str) (ts : List Token), litPrefix p ts = true →
    render (ts.drop p.length) = (render ts).drop p.length ∧
    marks (ts.drop p.length) = marks ts
  | [], ts, _ => by simp
  | c :: p, [], h => by simp [litPrefix] at h
  | c :: p, Token.mark j :: ts, h => by simp [litPrefix] at h
  | c :: p, Token.lit d :: ts, h => by
    simp only [litPrefix, Bool.and_eq_true] at h
    have := render_drop_of_litPrefix p ts h.2
    simpa [render, marks] using this

/-- On a sequence of tokens whose markers differ from the first character of the
pattern, the pass of the specification on the string is the pass on the tokens. -/
theorem replaceAll_render (p : Str) (i : Nat) (hp : p ≠ []) (hamp : '&' ∉ p) (n : Nat) :
    ∀ ts : List Token, ts.length ≤ n → (∀ j ∈ marks ts, p.head? ≠ some (code j)) →
      replaceAll p ['&', code i] (render ts) = render (tokenPass p i ts) := by
  have hhead : p.head? ≠ some '&' := by
    cases p with
    | nil => simp
    | cons c p => simpa using fun e : c = '&' => hamp (by simp [e])
  induction n with
  | zero =>
    intro ts hlen _
    have : ts = [] := List.length_eq_zero.1 (by omega)
    subst this
    rfl
  | succ n ih =>
    intro ts hlen hm
    cases ts with
    | nil => rfl
    | cons tk ts =>
      have hlen' : ts.length ≤ n := by simpa using hlen
      cases tk with
      | mark j =>
        have hj : p.head? ≠ some (code j) := hm j (by simp [marks])
        have hm' : ∀ k ∈ marks ts, p.head? ≠ some (code k) :=
          fun k hk => hm k (by simp only [marks, List.filterMap_cons] at hk ⊢; simp [hk])
        have hlp : litPrefix p (Token.mark j :: ts) = false := by
          cases p with
          | nil => exact absurd rfl hp
          | cons c p => rfl
        have hn1 : ¬ p <+: '&' :: code j :: render ts := by
          intro hpre
          cases p with
          | nil => exact hp rfl
          | cons c p => exact hhead (by simp [(List.cons_prefix_cons.1 hpre).1])
        have hn2 : ¬ p <+: code j :: render ts := by
          intro hpre
          cases p with
          | nil => exact hp rfl
          | cons c p => exact hj (by simp [(List.cons_prefix_cons.1 hpre).1])
        rw [tokenPass_cons p i hp, hlp]
        simp only [render, Bool.false_eq_true, if_false]
        rw [replaceAll_cons p _ hp, if_neg hn1, replaceAll_cons p _ hp, if_neg hn2,
          ih ts hlen' hm']
      | lit c =>
        have hm' : ∀ k ∈ marks ts, p.head? ≠ some (code k) :=
          fun k hk => hm k (by simpa [marks] using hk)
        rw [tokenPass_cons p i hp]
        cases hlp : litPrefix p (Token.lit c :: ts)
        · have hn : ¬ p <+: c :: render ts := by
            intro hpre
            have := (litPrefix_iff_render p (Token.lit c :: ts) hamp).2 hpre
            rw [hlp] at this
            exact Bool.noConfusion this
          simp only [render, Bool.false_eq_true, if_false]
          rw [replaceAll_cons p _ hp, if_neg hn, ih ts hlen' hm']
        · have hpre : p <+: c :: render ts :=
            (litPrefix_iff_render p (Token.lit c :: ts) hamp).1 hlp
          obtain ⟨hr, hmk⟩ := render_drop_of_litPrefix p _ hlp
          have hplen : 1 ≤ p.length := List.length_pos.2 hp
          simp only [if_true, render]
          rw [replaceAll_cons p _ hp, if_pos hpre]
          have hdrop : ((Token.lit c :: ts).drop p.length).length ≤ n := by
            rw [List.length_drop]; simp; omega
          have hm'' : ∀ k ∈ marks ((Token.lit c :: ts).drop p.length),
              p.head? ≠ some (code k) := by
            intro k hk
            rw [hmk] at hk
            exact hm k hk
          rw [← ih _ hdrop hm'', hr]
          rfl
theorem marks_cons_lit (c : Char) (ts : List Token) : marks (Token.lit c :: ts) = marks ts := by
  simp [marks]

theorem marks_cons_mark (j : Nat) (ts : List Token) :
    marks (Token.mark j :: ts) = j :: marks ts := by
  simp [marks]

/-- A pass on tokens keeps every marker, in order, and adds only markers of its own
index. -/
theorem marks_tokenPass (p : Str) (i : Nat) (hp : p ≠ []) (n : Nat) :
    ∀ ts : List Token, ts.length ≤ n →
      (marks ts).Sublist (marks (tokenPass p i ts)) ∧
      ∀ j ∈ marks (tokenPass p i ts), j = i ∨ j ∈ marks ts := by
  have hplen : 1 ≤ p.length := List.length_pos.2 hp
  induction n with
  | zero =>
    intro ts hlen
    have : ts = [] := List.length_eq_zero.1 (by omega)
    subst this
    exact ⟨List.Sublist.refl _, fun j hj => Or.inr hj⟩
  | succ n ih =>
    intro ts hlen
    cases ts with
    | nil => exact ⟨List.Sublist.refl _, fun j hj => Or.inr hj⟩
    | cons tk ts =>
      have hlen' : ts.length ≤ n := by simpa using hlen
      rw [tokenPass_cons p i hp]
      cases hlp : litPrefix p (tk :: ts)
      · simp only [Bool.false_eq_true, if_false]
        obtain ⟨h1, h2⟩ := ih ts hlen'
        cases tk with
        | lit c =>
          rw [marks_cons_lit, marks_cons_lit]
          exact ⟨h1, h2⟩
        | mark j =>
          rw [marks_cons_mark, marks_cons_mark]
          refine ⟨h1.cons₂ j, ?_⟩
          intro k hk
          rcases List.mem_cons.1 hk with hk | hk
          · exact Or.inr (by simp [hk])
          · rcases h2 k hk with h | h
            · exact Or.inl h
            · exact Or.inr (List.mem_cons_of_mem _ h)
      · simp only [if_true]
        obtain ⟨_, hmk⟩ := render_drop_of_litPrefix p _ hlp
        have hdrop : ((tk :: ts).drop p.length).length ≤ n := by
          rw [List.length_drop]; simp; omega
        obtain ⟨h1, h2⟩ := ih _ hdrop
        rw [hmk] at h1 h2
        rw [marks_cons_mark]
        refine ⟨h1.cons i, ?_⟩
        intro k hk
        rcases List.mem_cons.1 hk with hk | hk
        · exact Or.inl hk
        · exact h2 k hk

theorem code_ne_of_not_lower {x : Char} (hx : x.isLower = false) (j : Nat) (hj : j < 26) :
    x ≠ code j := by
  intro h
  rw [h, code_isLower j hj] at hx
  exact Bool.noConfusion hx

theorem marks_map_lit (t : Str) : marks (t.map Token.lit) = [] := by
  induction t with
  | nil => rfl
  | cons c t ih => rw [List.map_cons, marks_cons_lit, ih]

/-- The passes of the specification on the string are the passes on the tokens, for
patterns that are not empty, contain no `&` and do not begin with the letter of a
marker of smaller index. -/
theorem foldl_replaceAll_render_of_earlier :
    ∀ (L : List Str) (k : Nat) (ts : List Token),
      (∀ p ∈ L, p ≠ [] ∧ '&' ∉ p) →
      (∀ i j p, L[i]? = some p → j < k + i → p.head? ≠ some (code j)) →
      (∀ j ∈ marks ts, j < k) →
      (L.enumFrom k).foldl (fun s e => replaceAll e.2 ['&', code e.1] s) (render ts) =
        render ((L.enumFrom k).foldl (fun ts e => tokenPass e.2 e.1 ts) ts) := by
  intro L
  induction L with
  | nil => intro k ts _ _ _; rfl
  | cons p L ih =>
    intro k ts hL hfine hm
    obtain ⟨hne, hamp⟩ := hL p (by simp)
    have hhead : ∀ j ∈ marks ts, p.head? ≠ some (code j) := by
      intro j hj
      exact hfine 0 j p (by simp) (by have := hm j hj; omega)
    rw [List.enumFrom_cons, List.foldl_cons, List.foldl_cons,
      replaceAll_render p k hne hamp ts.length ts (Nat.le_refl _) hhead]
    apply ih (k + 1) _ (fun q hq => hL q (List.mem_cons_of_mem _ hq))
    · intro i j q hq hj
      exact hfine (i + 1) j q (by simpa using hq) (by omega)
    · intro j hj
      rcases (marks_tokenPass p k hne ts.length ts (Nat.le_refl _)).2 j hj with h | h
      · omega
      · have := hm j h; omega

theorem substituteAll_eq_render_of_earlier (t : Str) (ps : List Str)
    (hps : ∀ p ∈ ps.take 26, p ≠ [] ∧ '&' ∉ p)
    (hfine : ∀ i j p, i < 26 → ps[i]? = some p → j < i → p.head? ≠ some (code j)) :
    substituteAll t ps = render (tokenSubstitute t ps) := by
  unfold substituteAll tokenSubstitute
  have := foldl_replaceAll_render_of_earlier (ps.take 26) 0 (t.map Token.lit) hps
    (by
      intro i j p hp hj
      rw [List.getElem?_take] at hp
      by_cases hi : i < 26
      · rw [if_pos hi] at hp
        exact hfine i j p hi hp (by omega)
      · rw [if_neg hi] at hp
        exact absurd hp (by simp))
    (by
      intro j hj
      rw [marks_map_lit] at hj
      exact absurd hj (List.not_mem_nil _))
  rw [render_map_lit] at this
  exact this

/-- C12, counterexample: on the text `XYZxyaxy` with the patterns `XYZ` and `axy` the
first pass writes the marker `&a` at the indices 0 and 1; the second pass finds its
pattern at index 1, the letter of that marker, and the returned string `&&b&b` does not
contain `&a` any more. -/
theorem markers_rematched_counterexample :
    replaceLoop 2 "XYZ".toList ['&', code 0] "XYZxyaxy".toList 0 = some "&axyaxy".toList ∧
    find "&axyaxy".toList "axy".toList 0 = some 1 ∧
    applyDictionaryCompression 3 "XYZxyaxy".toList ["XYZ".toList, "axy".toList]
      = some ("&&b&b".toList, "aXYZ;baxy;".toList) ∧
    ¬ "&a".toList <:+: "&&b&b".toList ∧
    ∀ fuel r, applyDictionaryCompression fuel "XYZxyaxy".toList ["XYZ".toList, "axy".toList]
      = some r → ¬ "&a".toList <:+: r.1 := by
  have hrun : applyDictionaryCompression 3 "XYZxyaxy".toList ["XYZ".toList, "axy".toList]
      = some ("&&b&b".toList, "aXYZ;baxy;".toList) := by decide
  have hno : ¬ "&a".toList <:+: "&&b&b".toList := by decide
  refine ⟨by decide, by decide, hrun, hno, ?_⟩
  intro fuel r h
  rw [applyDictionaryCompression_fuel_unique h hrun]
  exact hno

/-- C12, amended: in the replacement loop of `applyDictionaryCompression`, for every
string and every pattern, what lies before the search cursor, the two characters
`&<letter>` just written included, is never part of a later match of the same pattern:
it is in the result of the pass, at its place and unchanged. For every text and every
list of patterns that are not empty and contain no `&`, and in which no pattern (of
index `i < 26`) begins with the letter `'a' + j` of an earlier marker (`j < i`), the
markers are not part of a match of a later pattern either: the function returns the
string of the passes on tokens, in which a pattern is only compared with characters of
the text and every marker written is copied by all later passes, so that it stays in
the string, unchanged and in its order, up to the returned result. -/
theorem markers_not_rematched :
    (∀ (fuel : Nat) (p m s : Str) (pos : Nat) (r : Str),
      replaceLoop fuel p m s pos = some r → r.take pos = s.take pos) ∧
    (∀ (fuel : Nat) (p m s : Str) (pos q : Nat) (r : Str), find s p pos = some q →
      replaceLoop fuel p m (replace s q p.length m) (q + m.length) = some r →
      r.take (q + m.length) = s.take q ++ m) ∧
    (∀ (t : Str) (ps : List Str),
      (∀ p ∈ ps, p ≠ [] ∧ '&' ∉ p) →
      (∀ i j p, i < 26 → ps[i]? = some p → j < i → p.head? ≠ some (code j)) →
      (∃ fuel, applyDictionaryCompression fuel t ps
        = some (render (tokenSubstitute t ps), dictionaryLayout ps)) ∧
      (∀ fuel r, applyDictionaryCompression fuel t ps = some r →
        r.1 = render (tokenSubstitute t ps))) ∧
    (∀ (p : Str) (i : Nat) (ts : List Token), p ≠ [] →
      (marks ts).Sublist (marks (tokenPass p i ts)) ∧
      ∀ j ∈ marks (tokenPass p i ts), j = i ∨ j ∈ marks ts) := by
  refine ⟨fun _ _ _ _ _ _ h => replaceLoop_take h,
    fun _ _ _ _ _ _ _ hf h => replaceLoop_keeps_marker hf h, ?_,
    fun p i ts hp => marks_tokenPass p i hp ts.length ts (Nat.le_refl _)⟩
  intro t ps hps hearlier
  have hne : ∀ p ∈ ps.take 26, p ≠ [] := fun p hp => (hps p (List.mem_of_mem_take hp)).1
  have hrender := substituteAll_eq_render_of_earlier t ps
    (fun p hp => hps p (List.mem_of_mem_take hp)) hearlier
  constructor
  · obtain ⟨fuel, c, hc⟩ := applyDictionaryCompression_terminates t ps hne
    refine ⟨fuel, ?_⟩
    rw [hc, applyDictionaryCompression_result hne hc, hrender]
  · intro fuel r h
    rw [applyDictionaryCompression_result hne h, hrender]

theorem markers_not_rematched_witness :
    (∀ p ∈ ["abc".toList, "xyz".toList], p ≠ [] ∧ '&' ∉ p) ∧
    (∀ i j p, i < 26 → ["abc".toList, "xyz".toList][i]? = some p → j < i →
      p.head? ≠ some (code j)) ∧
    tokenSubstitute "abcXabcYxyz".toList ["abc".toList, "xyz".toList] =
      [Token.mark 0, Token.lit 'X', Token.mark 0, Token.lit 'Y', Token.mark 1] ∧
    applyDictionaryCompression 4 "abcXabcYxyz".toList ["abc".toList, "xyz".toList]
      = some ("&aX&aY&b".toList, "aabc;bxyz;".toList) ∧
    ∃ fuel, applyDictionaryCompression fuel "abcXabcYxyz".toList
        ["abc".toList, "xyz".toList]
      = some (render (tokenSubstitute "abcXabcYxyz".toList ["abc".toList, "xyz".toList]),
          dictionaryLayout ["abc".toList, "xyz".toList]) :=
  have hearlier : ∀ i j p, i < 26 → ["abc".toList, "xyz".toList][i]? = some p → j < i →
      p.head? ≠ some (code j) := by
    intro i j p _ hp hj
    match i, hp with
    | 0, _ => omega
    | 1, hp =>
      obtain rfl : j = 0 := by omega
      simp only [List.getElem?_cons_succ, List.getElem?_cons_zero, Option.some.injEq] at hp
      subst hp
      decide
    | i + 2, hp => simp at hp
  ⟨by decide, hearlier, by decide, by decide,
    (markers_not_rematched.2.2.1 "abcXabcYxyz".toList ["abc".toList, "xyz".toList]
      (by decide) hearlier).1⟩

/-! ## The dictionary round trip -/

theorem tokenText_of_litPrefix (ps : List Str) : ∀ (p : Str) (ts : List Token),
    litPrefix p ts = true → tokenText ps ts = p ++ tokenText ps (ts.drop p.length)
  | [], ts, _ => by simp
  | c :: p, [], h => by simp [litPrefix] at h
  | c :: p, Token.mark j :: ts, h => by simp [litPrefix] at h
  | c :: p, Token.lit d :: ts, h => by
    simp only [litPrefix, Bool.and_eq_true, decide_eq_true_eq] at h
    have := tokenText_of_litPrefix ps p ts h.2
    simp [tokenText, h.1, ← this]

/-- A pass on tokens keeps the text that the tokens stand for, when its marker stands
for its pattern. -/
theorem tokenText_tokenPass (ps : List Str) (p : Str) (i : Nat) (hp : p ≠ [])
    (hget : (ps[i]?).getD [] = p) (n : Nat) :
    ∀ ts : List Token, ts.length ≤ n → tokenText ps (tokenPass p i ts) = tokenText ps ts := by
  have hplen : 1 ≤ p.length := List.length_pos.2 hp
  induction n with
  | zero =>
    intro ts hlen
    have : ts = [] := List.length_eq_zero.1 (by omega)
    subst this
    rfl
  | succ n ih =>
    intro ts hlen
    cases ts with
    | nil => rfl
    | cons tk ts =>
      have hlen' : ts.length ≤ n := by simpa using hlen
      rw [tokenPass_cons p i hp]
      cases hlp : litPrefix p (tk :: ts)
      · simp only [Bool.false_eq_true, if_false]
        cases tk with
        | lit c => simp only [tokenText, ih ts hlen']
        | mark j => simp only [tokenText, ih ts hlen']
      · simp only [if_true]
        have hdrop : ((tk :: ts).drop p.length).length ≤ n := by
          rw [List.length_drop]; simp; omega
        rw [tokenText_of_litPrefix ps p _ hlp]
        simp only [tokenText, hget, ih _ hdrop]

/-- A pass on tokens only adds markers of its own index. -/
theorem mem_tokenPass (p : Str) (i : Nat) (hp : p ≠ []) (n : Nat) :
    ∀ ts : List Token, ts.length ≤ n →
      ∀ tk ∈ tokenPass p i ts, tk = Token.mark i ∨ tk ∈ ts := by
  have hplen : 1 ≤ p.length := List.length_pos.2 hp
  induction n with
  | zero =>
    intro ts hlen
    have : ts = [] := List.length_eq_zero.1 (by omega)
    subst this
    intro tk htk
    exact Or.inr htk
  | succ n ih =>
    intro ts hlen
    cases ts with
    | nil => intro tk htk; exact Or.inr htk
    | cons t0 ts =>
      have hlen' : ts.length ≤ n := by simpa using hlen
      rw [tokenPass_cons p i hp]
      intro tk htk
      cases hlp : litPrefix p (t0 :: ts)
      · rw [hlp] at htk
        simp only [Bool.false_eq_true, if_false, List.mem_cons] at htk
        rcases htk with h | h
        · exact Or.inr (by simp [h])
        · rcases ih ts hlen' tk h with h | h
          · exact Or.inl h
          · exact Or.inr (List.mem_cons_of_mem _ h)
      · rw [hlp] at htk
        simp only [if_true, List.mem_cons] at htk
        have hdrop : ((t0 :: ts).drop p.length).length ≤ n := by
          rw [List.length_drop]; simp; omega
        rcases htk with h | h
        · exact Or.inl h
        · rcases ih _ hdrop tk h with h | h
          · exact Or.inl h
          · exact Or.inr (List.mem_of_mem_drop h)

/-- The passes on tokens keep the text that the tokens stand for and only add markers
of the patterns. -/
theorem foldl_tokenPass_tokenText (ps : List Str) :
    ∀ (L : List Str) (k : Nat) (ts : List Token),
      (∀ p ∈ L, p ≠ []) →
      (∀ i p, L[i]? = some p → ps[k + i]? = some p) →
      tokenText ps ((L.enumFrom k).foldl (fun ts e => tokenPass e.2 e.1 ts) ts)
        = tokenText ps ts ∧
      ∀ tk ∈ (L.enumFrom k).foldl (fun ts e => tokenPass e.2 e.1 ts) ts,
        tk ∈ ts ∨ ∃ i, tk = Token.mark i ∧ i < k + L.length := by
  intro L
  induction L with
  | nil => intro k ts _ _; exact ⟨rfl, fun tk htk => Or.inl htk⟩
  | cons p L ih =>
    intro k ts hL hget
    have hne : p ≠ [] := hL p (by simp)
    have hk : (ps[k]?).getD [] = p := by
      have := hget 0 p (by simp)
      rw [Nat.add_zero] at this
      rw [this]
      rfl
    rw [List.enumFrom_cons, List.foldl_cons]
    obtain ⟨h1, h2⟩ := ih (k + 1) (tokenPass p k ts) (fun q hq => hL q (List.mem_cons_of_mem _ hq))
      (by
        intro i q hq
        have := hget (i + 1) q (by simpa using hq)
        rw [show k + 1 + i = k + (i + 1) by omega]
        exact this)
    refine ⟨?_, ?_⟩
    · rw [h1, tokenText_tokenPass ps p k hne hk ts.length ts (Nat.le_refl _)]
    · intro tk htk
      rcases h2 tk htk with h | ⟨i, hi, hlt⟩
      · rcases mem_tokenPass p k hne ts.length ts (Nat.le_refl _) tk h with h | h
        · exact Or.inr ⟨k, h, by simp⟩
        · exact Or.inl h
      · exact Or.inr ⟨i, hi, by simp only [List.length_cons]; omega⟩

theorem tokenText_map_lit (ps : List Str) (t : Str) : tokenText ps (t.map Token.lit) = t := by
  induction t with
  | nil => rfl
  | cons c t ih => simp [tokenText, ih]

/-- Expanding the markers of a rendered sequence of tokens, none of which is the
character `&`, with a table that maps the letter of every marker present to its
pattern, gives the text that the tokens stand for. -/
theorem expandMarkers_render (T : List (Char × Str)) (ps : List Str) :
    ∀ ts : List Token, (∀ tk ∈ ts, tk ≠ Token.lit '&') →
      (∀ i, Token.mark i ∈ ts → T.lookup (code i) = some ((ps[i]?).getD [])) →
      expandMarkers T (render ts) = tokenText ps ts
  | [], _, _ => rfl
  | Token.lit c :: ts, hl, hm => by
    have hc : c ≠ '&' := fun h => hl (Token.lit c) (by simp) (by rw [h])
    rw [render, expandMarkers_cons_of_ne T _ hc, tokenText,
      expandMarkers_render T ps ts (fun tk h => hl tk (List.mem_cons_of_mem _ h))
        (fun i h => hm i (List.mem_cons_of_mem _ h))]
  | Token.mark i :: ts, hl, hm => by
    rw [render, expandMarkers_marker T _ (hm i (by simp)), tokenText,
      expandMarkers_render T ps ts (fun tk h => hl tk (List.mem_cons_of_mem _ h))
        (fun j h => hm j (List.mem_cons_of_mem _ h))]

/-- The round trip of the dictionary stage for patterns that are not empty, contain
neither `&` nor `;` and do not begin with the letter of an earlier marker. -/
theorem expandMarkers_applyDictionaryCompression_of_earlier (t : Str) (ps : List Str)
    (ht : '&' ∉ t)
    (hps : ∀ p ∈ ps.take 26, p ≠ [] ∧ '&' ∉ p ∧ ';' ∉ p)
    (hfine : ∀ i j p, i < 26 → ps[i]? = some p → j < i → p.head? ≠ some (code j)) :
    ∃ fuel c d, applyDictionaryCompression fuel t ps = some (c, d) ∧
      d = dictionaryLayout ps ∧
      expandMarkers (parseDictionary d) c = t := by
  have hne : ∀ p ∈ ps.take 26, p ≠ [] := fun p hp => (hps p hp).1
  have hT := parseDictionary_dictionaryLayout ps (fun p hp => (hps p hp).2.2)
  have hrender := substituteAll_eq_render_of_earlier t ps
    (fun p hp => ⟨(hps p hp).1, (hps p hp).2.1⟩) hfine
  obtain ⟨fuel, c, hc⟩ := applyDictionaryCompression_terminates t ps hne
  have hres := applyDictionaryCompression_result hne hc
  have hceq : c = render (tokenSubstitute t ps) := by
    have := congrArg Prod.fst hres
    simp only at this
    rw [this, hrender]
  obtain ⟨htext, hmem⟩ := foldl_tokenPass_tokenText (ps.take 26) (ps.take 26) 0
    (t.map Token.lit) hne (by intro i p hp; rw [Nat.zero_add]; exact hp)
  refine ⟨fuel, c, dictionaryLayout ps, hc, rfl, ?_⟩
  rw [hT, hceq]
  have hfold : tokenSubstitute t ps =
      ((ps.take 26).enumFrom 0).foldl (fun ts e => tokenPass e.2 e.1 ts) (t.map Token.lit) := rfl
  rw [expandMarkers_render _ (ps.take 26), hfold, htext, tokenText_map_lit]
  · intro tk htk
    rw [hfold] at htk
    rcases hmem tk htk with h | ⟨i, hi, _⟩
    · obtain ⟨x, hx, rfl⟩ := List.mem_map.1 h
      intro heq
      cases heq
      exact ht hx
    · rw [hi]
      intro heq
      cases heq
  · intro i hi
    rw [hfold] at hi
    rcases hmem _ hi with h | ⟨j, hj, hlt⟩
    · obtain ⟨x, _, hx⟩ := List.mem_map.1 h
      cases hx
    · cases hj
      rw [Nat.zero_add] at hlt
      have hsome : (ps.take 26)[i]? = some ((ps.take 26)[i]) := List.getElem?_eq_getElem hlt
      rw [hsome]
      apply lookup_of_mem (table_keys_nodup ps)
      refine List.mem_map.2 ⟨(i, (ps.take 26)[i]), ?_, rfl⟩
      rw [List.mem_iff_getElem?]
      refine ⟨i, ?_⟩
      rw [List.getElem?_enum, hsome]
      rfl

/-- C2, amended: for every text `t` that contains no `&` and no `;`, and every list of
patterns that are substrings of `t` of length 3 to 30 in which no pattern (of index
`i < 26`) begins with the letter `'a' + j` of an earlier marker (`j < i`),
`applyDictionaryCompression` returns (with enough fuel), and replacing each `&<letter>`
in the returned string by the pattern that the returned dictionary assigns to that
letter gives back exactly `t`. -/
theorem dictionary_roundtrip (t : Str) (ps : List Str)
    (ht : '&' ∉ t ∧ ';' ∉ t)
    (hps : ∀ p ∈ ps, 3 ≤ p.length ∧ p.length ≤ 30 ∧ p <:+: t)
    (hearlier : ∀ i j p, i < 26 → ps[i]? = some p → j < i → p.head? ≠ some (code j)) :
    ∃ fuel c d, applyDictionaryCompression fuel t ps = some (c, d) ∧
      expandMarkers (parseDictionary d) c = t := by
  have h : ∀ p ∈ ps.take 26, p ≠ [] ∧ '&' ∉ p ∧ ';' ∉ p := by
    intro p hp
    have hmem : p ∈ ps := List.mem_of_mem_take hp
    obtain ⟨h3, _, hin⟩ := hps p hmem
    refine ⟨?_, fun h => ht.1 (hin.mem h), fun h => ht.2 (hin.mem h)⟩
    intro hnil
    rw [hnil] at h3
    simp at h3
  obtain ⟨fuel, c, d, hr, _, hexp⟩ :=
    expandMarkers_applyDictionaryCompression_of_earlier t ps ht.1 h hearlier
  exact ⟨fuel, c, d, hr, hexp⟩

theorem dictionary_roundtrip_witness :
    ('&' ∉ "XYZxyzxyzXYZ".toList ∧ ';' ∉ "XYZxyzxyzXYZ".toList) ∧
    (∀ i j p, i < 26 → ["XYZ".toList, "xyz".toList][i]? = some p → j < i →
      p.head? ≠ some (code j)) ∧
    applyDictionaryCompression 4 "XYZxyzxyzXYZ".toList ["XYZ".toList, "xyz".toList]
      = some ("&a&b&b&a".toList, "aXYZ;bxyz;".toList) ∧
    expandMarkers (parseDictionary "aXYZ;bxyz;".toList) "&a&b&b&a".toList
      = "XYZxyzxyzXYZ".toList ∧
    ∃ fuel c d,
      applyDictionaryCompression fuel "XYZxyzxyzXYZ".toList ["XYZ".toList, "xyz".toList]
        = some (c, d) ∧
      expandMarkers (parseDictionary d) c = "XYZxyzxyzXYZ".toList :=
  have hearlier : ∀ i j p, i < 26 → ["XYZ".toList, "xyz".toList][i]? = some p → j < i →
      p.head? ≠ some (code j) := by
    intro i j p _ hp hj
    match i, hp with
    | 0, _ => omega
    | 1, hp =>
      obtain rfl : j = 0 := by omega
      simp only [List.getElem?_cons_succ, List.getElem?_cons_zero, Option.some.injEq] at hp
      subst hp
      decide
    | i + 2, hp => simp at hp
  ⟨by decide, hearlier, by decide, by decide,
    dictionary_roundtrip "XYZxyzxyzXYZ".toList ["XYZ".toList, "xyz".toList]
      (by decide)
      (by
        intro p hp
        simp only [List.mem_cons, List.mem_singleton, List.not_mem_nil, or_false] at hp
        rcases hp with rfl | rfl
        · exact ⟨by decide, by decide, [], "xyzxyzXYZ".toList, by decide⟩
        · exact ⟨by decide, by decide, "XYZ".toList, "xyzXYZ".toList, by decide⟩)
      hearlier⟩

/-! ## A pattern that does not occur -/

theorem find_eq_none_of_absent {s p : Str} (pos : Nat) (h : ¬ p <:+: s) :
    find s p pos = none := by
  cases hf : find s p pos with
  | none => rfl
  | some q =>
    obtain ⟨_, _, hdec⟩ := find_some hf
    exact absurd ⟨s.take q, s.drop (q + p.length), hdec.symm⟩ h

theorem dictionaryLoop_append (fuel : Nat) :
    ∀ (l₁ l₂ : List Str) (i : Nat) (c d : Str), i + l₁.length ≤ 26 →
      dictionaryLoop fuel (l₁ ++ l₂) i c d =
        match dictionaryLoop fuel l₁ i c d with
        | none => none
        | some r => dictionaryLoop fuel l₂ (i + l₁.length) r.1 r.2 := by
  intro l₁
  induction l₁ with
  | nil => intro l₂ i c d _; simp [dictionaryLoop]
  | cons p l₁ ih =>
    intro l₂ i c d hle
    have hi : i < 26 := by simp at hle; omega
    simp only [List.cons_append, dictionaryLoop, hi, if_true]
    cases replaceLoop fuel p ['&', code i] c 0 with
    | none => rfl
    | some c' =>
      have hih := ih l₂ (i + 1) c' (d ++ [code i] ++ p ++ [';']) (by simp at hle ⊢; omega)
      have e : i + 1 + l₁.length = i + (p :: l₁).length := by simp; omega
      rw [e] at hih
      exact hih

theorem entry_infix_dictionaryLayout (l₁ : List Str) (p : Str) (l₂ : List Str)
    (hi : l₁.length < 26) :
    code l₁.length :: (p ++ [';']) <:+: dictionaryLayout (l₁ ++ p :: l₂) := by
  unfold dictionaryLayout
  have e : (l₁ ++ p :: l₂).take 26 = l₁ ++ p :: l₂.take (26 - l₁.length - 1) := by
    rw [List.take_append_eq_append_take, List.take_of_length_le (by omega)]
    have : 26 - l₁.length = (26 - l₁.length - 1) + 1 := by omega
    rw [this, List.take_succ_cons]
    simp
  rw [e, List.enum, List.enumFrom_append, List.enumFrom_cons, List.flatMap_append,
    List.flatMap_cons]
  simp only [Nat.zero_add]
  exact List.infix_append' _ _ _

/-- C13, counterexample: on the text `abc` with the patterns `zzz` and the empty
pattern, `zzz` is not empty and does not occur when its turn comes, but the pass of the
empty pattern never ends: no dictionary is returned. -/
theorem absent_pattern_counterexample :
    "zzz".toList ≠ [] ∧ ¬ "zzz".toList <:+: "abc".toList ∧
    ¬ ∃ fuel r, applyDictionaryCompression fuel "abc".toList ["zzz".toList, []] = some r := by
  refine ⟨by decide, by decide, ?_⟩
  rintro ⟨fuel, r, h⟩
  simp only [applyDictionaryCompression, dictionaryLoop, show (0 : Nat) < 26 by omega,
    show (0 : Nat) + 1 < 26 by omega, if_true] at h
  cases hl : replaceLoop fuel "zzz".toList ['&', code 0] "abc".toList 0 with
  | none => rw [hl] at h; exact Option.noConfusion h
  | some c' =>
    rw [hl] at h
    simp only at h
    rw [replaceLoop_empty_pattern _ fuel c' 0 (Nat.zero_le _)] at h
    exact Option.noConfusion h

/-- C13, amended: for every text and every pattern list whose first 26 patterns are
non-empty, the function returns, and for the pattern `p` at an index `i < 26`: the entry
letter `i`, `p`, `;` is present in the returned dictionary, and if `p` does not occur in
the string `s` as it stands when its turn comes (the string returned for the patterns
before `p`), then its pass leaves `s` unchanged: the string after the pass is `s` and
only the dictionary has grown by the entry. -/
theorem absent_pattern_pass (t : Str) (l₁ : List Str) (p : Str) (l₂ : List Str)
    (hi : l₁.length < 26) (hne : ∀ q ∈ (l₁ ++ p :: l₂).take 26, q ≠ []) :
    ∃ fuel s d r, applyDictionaryCompression fuel t l₁ = some (s, d) ∧
      applyDictionaryCompression fuel t (l₁ ++ p :: l₂) = some r ∧
      code l₁.length :: (p ++ [';']) <:+: r.2 ∧
      (¬ p <:+: s →
        replaceLoop fuel p ['&', code l₁.length] s 0 = some s ∧
        applyDictionaryCompression fuel t (l₁ ++ [p])
          = some (s, d ++ code l₁.length :: (p ++ [';']))) := by
  obtain ⟨fuel, c, hc⟩ := applyDictionaryCompression_terminates t (l₁ ++ p :: l₂) hne
  have hfull := hc
  unfold applyDictionaryCompression at hc
  rw [dictionaryLoop_append fuel l₁ (p :: l₂) 0 t [] (by omega)] at hc
  cases h1 : dictionaryLoop fuel l₁ 0 t [] with
  | none => rw [h1] at hc; exact Option.noConfusion hc
  | some r1 =>
    obtain ⟨s, d⟩ := r1
    rw [h1] at hc
    simp only [Nat.zero_add, dictionaryLoop, hi, if_true] at hc
    refine ⟨fuel, s, d, _, h1, hfull, ?_, ?_⟩
    · exact entry_infix_dictionaryLayout l₁ p l₂ hi
    · intro hnot
      have hfuel : fuel ≠ 0 := by
        intro h0
        rw [h0] at hc
        simp [replaceLoop] at hc
      obtain ⟨f, rfl⟩ : ∃ f, fuel = f + 1 := ⟨fuel - 1, by omega⟩
      have hpass : replaceLoop (f + 1) p ['&', code l₁.length] s 0 = some s :=
        replaceLoop_of_find_none f (find_eq_none_of_absent 0 hnot)
      refine ⟨hpass, ?_⟩
      unfold applyDictionaryCompression
      rw [dictionaryLoop_append (f + 1) l₁ [p] 0 t [] (by omega), h1]
      simp [dictionaryLoop, hi, hpass]

theorem absent_pattern_pass_witness :
    ["XYZ".toList].length < 26 ∧
    (∀ q ∈ (["XYZ".toList] ++ "YZx".toList :: ["xy".toList]).take 26, q ≠ []) ∧
    applyDictionaryCompression 3 "XYZxyXYZxy".toList ["XYZ".toList] =
      some ("&axy&axy".toList, "aXYZ;".toList) ∧
    ¬ "YZx".toList <:+: "&axy&axy".toList ∧
    applyDictionaryCompression 3 "XYZxyXYZxy".toList ["XYZ".toList, "YZx".toList] =
      some ("&axy&axy".toList, "aXYZ;bYZx;".toList) ∧
    ∃ fuel s d r, applyDictionaryCompression fuel "XYZxyXYZxy".toList ["XYZ".toList]
        = some (s, d) ∧
      applyDictionaryCompression fuel "XYZxyXYZxy".toList
        (["XYZ".toList] ++ "YZx".toList :: ["xy".toList]) = some r ∧
      code ["XYZ".toList].length :: ("YZx".toList ++ [';']) <:+: r.2 ∧
      (¬ "YZx".toList <:+: s →
        replaceLoop fuel "YZx".toList ['&', code ["XYZ".toList].length] s 0 = some s ∧
        applyDictionaryCompression fuel "XYZxyXYZxy".toList (["XYZ".toList] ++ ["YZx".toList])
          = some (s, d ++ code ["XYZ".toList].length :: ("YZx".toList ++ [';']))) :=
  ⟨by decide, by decide, by decide, by decide, by decide,
    absent_pattern_pass "XYZxyXYZxy".toList ["XYZ".toList] "YZx".toList ["xy".toList]
      (by decide) (by decide)⟩
/-! ## Termination of the substitution -/

theorem replace_distance_lt {s p : Str} {pos q : Nat} (m : Str) (hp : p ≠ [])
    (hf : find s p pos = some q) :
    (replace s q p.length m).length - (q + m.length) < s.length - pos := by
  have hplen : 1 ≤ p.length := List.length_pos.2 hp
  obtain ⟨hq, hqs, _⟩ := find_some hf
  rw [length_replace m hqs]
  omega

theorem dictionaryLoop_empty_pattern (fuel : Nat) :
    ∀ (ps : List Str) (i j : Nat) (c d : Str), ps[j]? = some [] → i + j < 26 →
      dictionaryLoop fuel ps i c d = none := by
  intro ps
  induction ps with
  | nil => intro i j c d h; simp at h
  | cons p ps ih =>
    intro i j c d h hij
    have hi : i < 26 := by omega
    simp only [dictionaryLoop, hi, if_true]
    cases j with
    | zero =>
      simp only [List.getElem?_cons_zero, Option.some.injEq] at h
      rw [h, replaceLoop_empty_pattern _ fuel c 0 (Nat.zero_le _)]
    | succ j =>
      simp only [List.getElem?_cons_succ] at h
      cases replaceLoop fuel p ['&', code i] c 0 with
      | none => rfl
      | some c' => exact ih (i + 1) j c' _ h (by omega)

theorem findFrequentPatterns_key_length {t : Str} {minFrequency : Int} {e : Str × Int}
    (he : e ∈ findFrequentPatterns t 3 minFrequency) : 3 ≤ e.1.length ∧ e.1.length ≤ 30 := by
  have hk : e.1 ∈ (findFrequentPatterns t 3 minFrequency).map Prod.fst :=
    List.mem_map.2 ⟨e, he, rfl⟩
  rcases mem_keys_filter_foldl minFrequency (countPatterns t 3) e.1 [] hk with h | h
  · simp at h
  · obtain ⟨h3, h30, _⟩ := key_countPatterns h
    exact ⟨h3, h30⟩

/-- C14: for every pattern that is not empty the replacement loop of
`applyDictionaryCompression` ends, as soon as the fuel exceeds the distance from the
search cursor to the end of the string, and that distance strictly decreases with each
replacement; so the function returns for every text and every list of non-empty
patterns. The precondition is needed: for the empty pattern every search succeeds at
the cursor, every step inserts a marker there, and the loop does not end with any fuel,
so the function returns nothing when one of the first 26 patterns is empty. Every
pattern produced by `findFrequentPatterns` with minimum length 3 is non-empty. -/
theorem substitution_terminates :
    (∀ (p m s : Str) (pos fuel : Nat), p ≠ [] → s.length - pos < fuel →
      ∃ r, replaceLoop fuel p m s pos = some r) ∧
    (∀ (p m s : Str) (pos q : Nat), p ≠ [] → find s p pos = some q →
      (replace s q p.length m).length - (q + m.length) < s.length - pos) ∧
    (∀ (t : Str) (ps : List Str), (∀ p ∈ ps, p ≠ []) →
      ∃ fuel r, applyDictionaryCompression fuel t ps = some r) ∧
    (∀ (m s : Str) (pos fuel : Nat), pos ≤ s.length →
      find s [] pos = some pos ∧
      replace s pos ([] : Str).length m = s.take pos ++ m ++ s.drop pos ∧
      replaceLoop fuel [] m s pos = none) ∧
    (∀ (t : Str) (ps : List Str) (i : Nat), i < 26 → ps[i]? = some [] →
      ∀ fuel, applyDictionaryCompression fuel t ps = none) ∧
    (∀ (t : Str) (minFrequency : Int), ∀ e ∈ findFrequentPatterns t 3 minFrequency,
      e.1 ≠ []) := by
  refine ⟨fun p m s pos fuel hp h => replaceLoop_terminates p m hp fuel s pos h,
    fun p m s pos q hp hf => replace_distance_lt m hp hf, ?_, ?_, ?_, ?_⟩
  · intro t ps hne
    obtain ⟨fuel, c, hc⟩ := applyDictionaryCompression_terminates t ps
      (fun p hp => hne p (List.mem_of_mem_take hp))
    exact ⟨fuel, _, hc⟩
  · intro m s pos fuel h
    exact ⟨find_empty_pattern s pos h, by simp [replace],
      replaceLoop_empty_pattern m fuel s pos h⟩
  · intro t ps i hi h fuel
    exact dictionaryLoop_empty_pattern fuel ps 0 i t [] h (by omega)
  · intro t f e he hnil
    have := (findFrequentPatterns_key_length he).1
    rw [hnil] at this
    simp at this

theorem substitution_terminates_witness :
    (∀ p ∈ ["ab".toList, "c".toList], p ≠ []) ∧
    applyDictionaryCompression 4 "abcabcab".toList ["ab".toList, "c".toList]
      = some ("&a&b&a&b&a".toList, "aab;bc;".toList) ∧
    ∃ fuel r, applyDictionaryCompression fuel "abcabcab".toList ["ab".toList, "c".toList]
      = some r :=
  ⟨by decide, by decide,
    substitution_terminates.2.2.1 "abcabcab".toList ["ab".toList, "c".toList] (by decide)⟩

/-! ## Round trips on safe input -/

/-- For every string `S` shorter than `2^31` characters that contains no `@` and no
decimal digit `0`..`9`, `decodeRLE (compressText S) = S`, where `decodeRLE` expands
every `@<char>` followed by its maximal run of digits into that many copies of `<char>`
and copies every other character. -/
theorem rle_roundtrip_safe_of_lt (S : Str) (hlen : S.length < 2 ^ 31) (_hat : '@' ∉ S)
    (hdigit : ∀ c ∈ S, c.isDigit = false) :
    decodeRLE (compressText S) = S :=
  decodeRLE_compressText_of_no_digit S hlen hdigit

theorem rle_roundtrip_safe_of_lt_witness :
    "  ##....##  !".toList.length < 2 ^ 31 ∧
    '@' ∉ "  ##....##  !".toList ∧ (∀ c ∈ "  ##....##  !".toList, c.isDigit = false) ∧
    compressText "  ##....##  !".toList = "  ##@.4##  !".toList ∧
    decodeRLE (compressText "  ##....##  !".toList) = "  ##....##  !".toList :=
  ⟨by decide, by decide, by decide, by decide,
    rle_roundtrip_safe_of_lt _ (by decide) (by decide) (by decide)⟩

/-- C15, at the failing input: the text of `2^31` characters `x` contains no `@` and no
digit; `compressText` returns the one character `x` for it (its `int length` is
`-2^31`, the loop is not entered), which the decoder copies: the round trip gives `x`
and not the text. -/
theorem rle_roundtrip_overflow :
    '@' ∉ List.replicate (2 ^ 31) 'x' ∧
    (∀ c ∈ List.replicate (2 ^ 31) 'x', c.isDigit = false) ∧
    compressText (List.replicate (2 ^ 31) 'x') = ['x'] ∧
    decodeRLE (compressText (List.replicate (2 ^ 31) 'x')) = ['x'] ∧
    decodeRLE (compressText (List.replicate (2 ^ 31) 'x')) ≠ List.replicate (2 ^ 31) 'x' := by
  have hx : ∀ c ∈ List.replicate (2 ^ 31) 'x', c = 'x' := fun c hc => (List.mem_replicate.1 hc).2
  have hdec : decodeRLE (compressText (List.replicate (2 ^ 31) 'x')) = ['x'] := by
    rw [compressText_replicate]
    decide
  refine ⟨?_, ?_, compressText_replicate 'x', hdec, ?_⟩
  · intro h
    exact absurd (hx _ h) (by decide)
  · intro c hc
    rw [hx c hc]
    decide
  · rw [hdec]
    intro h
    have hl := congrArg List.length h
    rw [List.length_replicate] at hl
    norm_num at hl

/-- The round trip of the dictionary stage with the table that maps the letter of
index `i` to the pattern of index `i`, for patterns that are not empty, contain no `&`
and do not begin with a lowercase letter. -/
theorem expandMarkers_table_applyDictionaryCompression (t : Str) (ps : List Str)
    (ht : '&' ∉ t)
    (hps : ∀ p ∈ ps.take 26, p ≠ [] ∧ '&' ∉ p ∧ ∀ x, p.head? = some x → x.isLower = false) :
    ∃ fuel c d, applyDictionaryCompression fuel t ps = some (c, d) ∧
      expandMarkers ((ps.take 26).enum.map fun e => (code e.1, e.2)) c = t := by
  have hres : ∀ e ∈ (ps.take (26 - 0)).enumFrom 0,
      Resolvable ((ps.take 26).enum.map fun e => (code e.1, e.2)) e := by
    intro e he
    have he' : e ∈ (ps.take 26).enum := he
    have hp := hps e.2 (List.snd_mem_of_mem_enum he')
    refine ⟨hp.1, hp.2.1, ?_, ?_⟩
    · intro x hx
      apply lookup_eq_none
      intro e' he'' hex
      obtain ⟨e0, he0, rfl⟩ := List.mem_map.1 he''
      have hlt := List.fst_lt_of_mem_enum he0
      rw [List.length_take] at hlt
      exact code_ne_of_not_lower (hp.2.2 x hx) e0.1 (by omega) hex.symm
    · exact lookup_of_mem (table_keys_nodup ps) (List.mem_map.2 ⟨e, he', rfl⟩)
  obtain ⟨hw, hexp⟩ :=
    wellMarked_of_no_marker ((ps.take 26).enum.map fun e => (code e.1, e.2)) t ht
  obtain ⟨fuel, r, hr, _, her⟩ := dictionaryLoop_resolvable _ ps 0 t [] hres hw
  exact ⟨fuel, r.1, r.2, hr, by rw [her, hexp]⟩

/-- C16: for every text `t` that contains no `&` and no lowercase letter `a`..`z`, and
every list of non-empty patterns that are substrings of `t`, `applyDictionaryCompression`
returns (with enough fuel), and replacing each `&<letter>` in the returned string by the
pattern assigned to that letter (the pattern of index `i` for the letter `'a' + i`)
gives back exactly `t`. -/
theorem dictionary_roundtrip_safe (t : Str) (ps : List Str)
    (hamp : '&' ∉ t) (hlow : ∀ c ∈ t, c.isLower = false)
    (hps : ∀ p ∈ ps, p ≠ [] ∧ p <:+: t) :
    ∃ fuel c d, applyDictionaryCompression fuel t ps = some (c, d) ∧
      expandMarkers ((ps.take 26).enum.map fun e => (code e.1, e.2)) c = t := by
  apply expandMarkers_table_applyDictionaryCompression t ps hamp
  intro p hp
  obtain ⟨hne, hin⟩ := hps p (List.mem_of_mem_take hp)
  refine ⟨hne, fun h => hamp (hin.mem h), ?_⟩
  intro x hx
  apply hlow x
  apply hin.mem
  cases p with
  | nil => simp at hx
  | cons y p => simp at hx; simp [hx]

theorem dictionary_roundtrip_safe_witness :
    '&' ∉ "##;.##;.#".toList ∧ (∀ c ∈ "##;.##;.#".toList, c.isLower = false) ∧
    applyDictionaryCompression 3 "##;.##;.#".toList ["#;.".toList, "##".toList, "&#".toList]
      = some ("#&a#&a#".toList, "a#;.;b##;c&#;".toList) ∧
    expandMarkers [('a', "#;.".toList), ('b', "##".toList)] "#&a#&a#".toList
      = "##;.##;.#".toList ∧
    ∃ fuel c d,
      applyDictionaryCompression fuel "##;.##;.#".toList ["#;.".toList, "##".toList]
        = some (c, d) ∧
      expandMarkers ((["#;.".toList, "##".toList].take 26).enum.map
        fun e => (code e.1, e.2)) c = "##;.##;.#".toList :=
  ⟨by decide, by decide, by decide, by decide,
    dictionary_roundtrip_safe "##;.##;.#".toList ["#;.".toList, "##".toList]
      (by decide) (by decide)
      (by
        intro p hp
        simp only [List.mem_cons, List.mem_singleton, List.not_mem_nil, or_false] at hp
        rcases hp with rfl | rfl
        · exact ⟨by decide, "#".toList, "##;.#".toList, by decide⟩
        · exact ⟨by decide, [], ";.##;.#".toList, by decide⟩)⟩

/-! ## The length of the substituted text -/

theorem replaceLoop_length_le {p m : Str} (hm : m.length ≤ p.length) :
    ∀ {fuel : Nat} {s : Str} {pos : Nat} {r : Str},
      replaceLoop fuel p m s pos = some r → r.length ≤ s.length := by
  intro fuel
  induction fuel with
  | zero => intro s pos r h; simp [replaceLoop] at h
  | succ fuel ih =>
    intro s pos r h
    cases hf : find s p pos with
    | none =>
      simp only [replaceLoop, hf, Option.some.injEq] at h
      rw [h]
    | some q =>
      obtain ⟨_, hqs, _⟩ := find_some hf
      simp only [replaceLoop, hf] at h
      have := ih h
      rw [length_replace m hqs] at this
      omega

theorem dictionaryLoop_length_le {fuel : Nat} :
    ∀ {ps : List Str} {i : Nat} {c d : Str} {r : Str × Str},
      (∀ p ∈ ps.take (26 - i), 2 ≤ p.length) → dictionaryLoop fuel ps i c d = some r →
      r.1.length ≤ c.length := by
  intro ps
  induction ps with
  | nil => intro i c d r _ h; simp [dictionaryLoop] at h; simp [← h]
  | cons p ps ih =>
    intro i c d r hlen h
    by_cases hi : i < 26
    · have e : 26 - i = (26 - (i + 1)) + 1 := by omega
      rw [e, List.take_succ_cons] at hlen
      simp only [dictionaryLoop, hi, if_true] at h
      cases hl : replaceLoop fuel p ['&', code i] c 0 with
      | none => rw [hl] at h; exact Option.noConfusion h
      | some c' =>
        rw [hl] at h
        have h1 := replaceLoop_length_le (by simpa using hlen p (by simp)) hl
        have h2 := ih (fun q hq => hlen q (List.mem_cons_of_mem _ hq)) h
        omega
    · simp only [dictionaryLoop, hi, if_false, Option.some.injEq] at h
      simp [← h]

/-- C17: for every text `t` and every list of patterns each of length at least 2,
`applyDictionaryCompression` returns (with enough fuel) and the string it returns is no
longer than `t`. -/
theorem substitution_length_le (t : Str) (ps : List Str) (hps : ∀ p ∈ ps, 2 ≤ p.length) :
    (∃ fuel r, applyDictionaryCompression fuel t ps = some r ∧ r.1.length ≤ t.length) ∧
    ∀ fuel r, applyDictionaryCompression fuel t ps = some r → r.1.length ≤ t.length := by
  have hlen : ∀ p ∈ ps.take (26 - 0), 2 ≤ p.length :=
    fun p hp => hps p (List.mem_of_mem_take hp)
  have hall : ∀ fuel r, applyDictionaryCompression fuel t ps = some r →
      r.1.length ≤ t.length := fun fuel r h => dictionaryLoop_length_le hlen h
  refine ⟨?_, hall⟩
  obtain ⟨fuel, c, hc⟩ := applyDictionaryCompression_terminates t ps (by
    intro p hp hnil
    have := hps p (List.mem_of_mem_take hp)
    rw [hnil] at this
    simp at this)
  exact ⟨fuel, _, hc, hall fuel _ hc⟩

theorem substitution_length_le_witness :
    (∀ p ∈ ["ab".toList, "&a".toList], 2 ≤ p.length) ∧
    applyDictionaryCompression 4 "ababab".toList ["ab".toList, "&a".toList]
      = some ("&b&b&b".toList, "aab;b&a;".toList) ∧
    ∃ fuel r, applyDictionaryCompression fuel "ababab".toList ["ab".toList, "&a".toList]
      = some r ∧ r.1.length ≤ "ababab".toList.length :=
  ⟨by decide, by decide,
    (substitution_length_le "ababab".toList ["ab".toList, "&a".toList] (by decide)).1⟩
/-! ## The frames of the player -/

theorem mul_add_le_of_lt_div {n k L : Nat} (hk : 0 < k) (h : n < L / k) : n * k + k ≤ L := by
  have h1 : (n + 1) * k ≤ L := (Nat.le_div_iff_mul_le hk).1 h
  rw [Nat.add_mul, Nat.one_mul] at h1
  exact h1

theorem get_frame_of_guard (player : ASCIITextPlayer) (i : Int)
    (h : i < 0 ∨ player.total_frames ≤ i) : player.get_frame i = some [] := by
  unfold ASCIITextPlayer.get_frame
  rw [if_pos h]

/-- An index that passes the guard gives the slice, as long as no `int` overflows. -/
theorem get_frame_of_lt (player : ASCIITextPlayer) (n k : Nat)
    (hcpf : player.chars_per_frame = (k : Int)) (hn : (n : Int) < player.total_frames)
    (hle : n * k + k ≤ player.all_frames_data.length)
    (hlen : player.all_frames_data.length < 2 ^ 31) :
    player.get_frame n = some ((player.all_frames_data.drop (n * k)).take k) := by
  have hprod : (n : Int) * (k : Int) = ((n * k : Nat) : Int) := by push_cast; rfl
  have hstart : (toSizeT (wrapInt32 ((n : Int) * (k : Int)))).toNat = n * k := by
    rw [hprod, wrapInt32_of_lt (by omega) (by omega)]
    unfold toSizeT
    omega
  have hcount : (toSizeT (k : Int)).toNat = k := by
    unfold toSizeT
    omega
  unfold ASCIITextPlayer.get_frame
  rw [if_neg (by omega), hcpf, hstart, hcount]
  unfold substrAt
  rw [if_pos (by omega)]

/-- With `0 < width * height = k < 2^31` and data shorter than `2^31` characters,
`load_file` sets `total_frames = floor(length(data) / k)`; for every index
`0 <= i < total_frames`, `get_frame i` returns exactly the `k` characters
`data[i*k .. i*k + k)`, which lie fully inside `data`, and for every other index
(negative or `>= total_frames`) it returns the empty string. -/
theorem get_frame_slices_of_lt (width height : Int) (data : Str) (hk : 0 < width * height)
    (hk31 : width * height < 2 ^ 31) (hlen : data.length < 2 ^ 31) :
    ∃ player, load_file width height data = some player ∧
      player.total_frames = (data.length : Int) / (width * height) ∧
      (∀ i : Int, 0 ≤ i → i < player.total_frames →
        i.toNat * (width * height).toNat + (width * height).toNat ≤ data.length ∧
        player.get_frame i = some
          ((data.drop (i.toNat * (width * height).toNat)).take (width * height).toNat) ∧
        ((data.drop (i.toNat * (width * height).toNat)).take
          (width * height).toNat).length = (width * height).toNat) ∧
      (∀ i : Int, i < 0 ∨ player.total_frames ≤ i → player.get_frame i = some []) := by
  obtain ⟨k, hkk⟩ : ∃ k : Nat, width * height = (k : Int) :=
    ⟨(width * height).toNat, (Int.toNat_of_nonneg (le_of_lt hk)).symm⟩
  have hk0 : 0 < k := by rw [hkk] at hk; exact_mod_cast hk
  have hk31n : (k : Int) < 2 ^ 31 := by rw [← hkk]; exact hk31
  have hw : wrapInt32 (width * height) = (k : Int) := by
    rw [hkk]
    exact wrapInt32_of_lt (by omega) hk31n
  have hs : toSizeT (k : Int) = (k : Int) := by
    unfold toSizeT
    omega
  have hdiv : (data.length : Int) / (k : Int) = ((data.length / k : Nat) : Int) :=
    (Int.natCast_div _ _).symm
  have hdle : data.length / k ≤ data.length := Nat.div_le_self _ _
  have hdnn : 0 ≤ (data.length : Int) / (k : Int) :=
    Int.ediv_nonneg (Int.natCast_nonneg _) (Int.natCast_nonneg _)
  have hq : wrapInt32 ((data.length : Int) / (k : Int)) = (data.length : Int) / (k : Int) := by
    rw [hdiv]
    apply wrapInt32_of_lt <;> omega
  have hload : load_file width height data = some
      { width := width, height := height,
        total_frames := (data.length : Int) / (width * height),
        all_frames_data := data, current_frame := 0 } := by
    unfold load_file
    rw [hw, hs, hq, if_neg (by omega), hkk]
  have hkn : (width * height).toNat = k := by rw [hkk, Int.toNat_natCast]
  rw [hkn]
  refine ⟨_, hload, rfl, ?_, ?_⟩
  · intro i hi hlt
    obtain ⟨n, hn⟩ : ∃ n : Nat, i = (n : Int) := ⟨i.toNat, (Int.toNat_of_nonneg hi).symm⟩
    subst hn
    have hlt2 : (n : Int) < (data.length : Int) / (width * height) := hlt
    rw [hkk, hdiv] at hlt2
    have hlt' : n < data.length / k := by exact_mod_cast hlt2
    have hle := mul_add_le_of_lt_div hk0 hlt'
    rw [Int.toNat_natCast]
    refine ⟨hle, get_frame_of_lt _ n k hw hlt hle hlen, ?_⟩
    rw [List.length_take, List.length_drop]
    omega
  · intro i hi
    exact get_frame_of_guard _ i hi

theorem get_frame_slices_of_lt_witness :
    (0 : Int) < 2 * 3 ∧ (2 : Int) * 3 < 2 ^ 31 ∧ "abcdefABCDEFxyz".toList.length < 2 ^ 31 ∧
    (load_file 2 3 "abcdefABCDEFxyz".toList).map (fun player => player.total_frames) = some 2 ∧
    (load_file 2 3 "abcdefABCDEFxyz".toList).bind (fun player => player.get_frame 1)
      = some "ABCDEF".toList ∧
    (load_file 2 3 "abcdefABCDEFxyz".toList).bind (fun player => player.get_frame 2)
      = some [] ∧
    ∃ player, load_file 2 3 "abcdefABCDEFxyz".toList = some player ∧
      player.total_frames = ("abcdefABCDEFxyz".toList.length : Int) / (2 * 3) ∧
      (∀ i : Int, 0 ≤ i → i < player.total_frames →
        i.toNat * ((2 : Int) * 3).toNat + ((2 : Int) * 3).toNat
          ≤ "abcdefABCDEFxyz".toList.length ∧
        player.get_frame i = some
          (("abcdefABCDEFxyz".toList.drop (i.toNat * ((2 : Int) * 3).toNat)).take
            ((2 : Int) * 3).toNat) ∧
        (("abcdefABCDEFxyz".toList.drop (i.toNat * ((2 : Int) * 3).toNat)).take
          ((2 : Int) * 3).toNat).length = ((2 : Int) * 3).toNat) ∧
      (∀ i : Int, i < 0 ∨ player.total_frames ≤ i → player.get_frame i = some []) :=
  ⟨by decide, by decide, by decide, by decide, by decide, by decide,
    get_frame_slices_of_lt 2 3 "abcdefABCDEFxyz".toList (by decide) (by decide) (by decide)⟩

theorem load_file_one_one :
    load_file 1 1 (List.replicate (2 ^ 31) 'x') = some
      { width := 1, height := 1, total_frames := -2 ^ 31,
        all_frames_data := List.replicate (2 ^ 31) 'x', current_frame := 0 } := by
  have h1 : toSizeT (wrapInt32 (1 * 1)) = 1 := by decide
  unfold load_file
  rw [h1, if_neg (by decide), List.length_replicate, Int.ediv_one, wrapInt32_two_pow]

/-- C18, at the failing inputs. For the header `65536` / `65536` the product
`width * height = 2^32 > 0` is the `int` `0`, and `load_file` divides by zero, whatever
the data. For the header `65536` / `65537` the product `2^32 + 65536` is the `int`
`65536`: `load_file` divides the length by `65536`, so that data of `65536` characters
gets `total_frames = 1`, where `floor(65536 / (2^32 + 65536)) = 0`. For the header
`1` / `1` and data of `2^31` characters the quotient `2^31` is stored in the `int`
`total_frames` as `-2^31`, and `get_frame 0` returns the empty string. -/
theorem load_file_overflow :
    (0 : Int) < 65536 * 65536 ∧
    (∀ data : Str, load_file 65536 65536 data = none) ∧
    (load_file 65536 65537 (List.replicate 65536 'x')).map (fun player => player.total_frames)
      = some 1 ∧
    ((List.replicate 65536 'x').length : Int) / (65536 * 65537) = 0 ∧
    (load_file 1 1 (List.replicate (2 ^ 31) 'x')).map (fun player => player.total_frames)
      = some (-2 ^ 31) ∧
    (load_file 1 1 (List.replicate (2 ^ 31) 'x')).bind (fun player => player.get_frame 0)
      = some [] := by
  have h0 : toSizeT (wrapInt32 (65536 * 65536)) = 0 := by decide
  have h1 : toSizeT (wrapInt32 (65536 * 65537)) = 65536 := by decide
  refine ⟨by decide, ?_, ?_, ?_, ?_, ?_⟩
  · intro data
    unfold load_file
    rw [if_pos h0]
  · unfold load_file
    rw [h1, if_neg (by decide), List.length_replicate]
    decide
  · rw [List.length_replicate]
    decide
  · rw [load_file_one_one]
    rfl
  · rw [load_file_one_one]
    exact get_frame_of_guard _ 0 (Or.inr (by norm_num))

/-! ## The position of the player -/

end BadApple
